import Mathlib

/-!
# arc: authenticated, encrypted archives

A shallow embedding of the container layer of `wg/arc` and of the Poly1305
implementation it vendors, with theorems about the header checks of the three
archive drivers, the verify-before-read gate, the deferred tag patch and the
authentication tag of the inner stream.

Bytes are natural numbers (a well-formed byte is `< 256`); byte slices are
lists.  Machine integers are natural numbers reduced `% 2^32` or `% 2^64`
where the Go code can wrap.  Go errors are values of `Err`; a Go panic is the
value `Err.panic`.

Code that is not part of the repository sources is a parameter of the model:
the ChaCha20 key stream, Argon2's core, X448, BLAKE2b and Shamir sharing are the
fields of `Prims`; the tar and gzip layers are the fields of `WriteLayers` and
`ReadLayers`; `bufio` readers deliver the bytes of the underlying file in
chunks whose sizes are a free argument (`cuts`), and take them from the file
with a buffer of 4096 bytes.
-/

namespace Arc

/-! ## Errors -/

/-- Error values of the program: the sentinel errors of `archive.go`, `key.go`
and `archive/writer.go`, the two `io` errors of `io.ReadFull`, the errors of the
primitives, and `panic` for a Go run-time panic. -/
inductive Err where
  | ErrInvalidArchive
  | ErrInvalidVersion
  | ErrPasswordArchive
  | ErrCurve448Archive
  | ErrShardArchive
  | ErrInvalidPublicKey
  | ErrInvalidPrivateKey
  | ErrShortCopy
  | EOF
  | ErrUnexpectedEOF
  | ErrInvalidKey
  | ErrX448
  | argon (code : Nat)
  | other (code : Nat)
  | panic
  deriving DecidableEq, Repr

/-! ## Poly1305 (`poly1305.go`, `poly1305_32.go`) -/

namespace poly1305

/-- Value of `KeySize` in poly1305.go. -/
def KeySize : Nat := 32
/-- Value of `Size` in poly1305.go. -/
def Size : Nat := 16
/-- Value of `BlockSize` in poly1305.go. -/
def BlockSize : Nat := 16

/-- Wrap to `uint32`. -/
def u32 (x : Nat) : Nat := x % 2 ^ 32
/-- Wrap to `uint64`. -/
def u64 (x : Nat) : Nat := x % 2 ^ 64

/-- Go's `binary.LittleEndian.Uint32(m[i:])`. -/
def le32 (m : List Nat) (i : Nat) : Nat :=
  u32 (m.getD i 0 % 256 + (m.getD (i + 1) 0 % 256) * 2 ^ 8
    + (m.getD (i + 2) 0 % 256) * 2 ^ 16 + (m.getD (i + 3) 0 % 256) * 2 ^ 24)

/-- Go's `binary.LittleEndian.PutUint32`: the four bytes of `v`. -/
def putLe32 (v : Nat) : List Nat :=
  [v % 256, v / 2 ^ 8 % 256, v / 2 ^ 16 % 256, v / 2 ^ 24 % 256]

/-- Five 32-bit words (`[5]uint32`). -/
structure Limbs where
  l0 : Nat
  l1 : Nat
  l2 : Nat
  l3 : Nat
  l4 : Nat
  deriving DecidableEq, Repr

/-- Four 32-bit words (`[4]uint32`). -/
structure Pad where
  p0 : Nat
  p1 : Nat
  p2 : Nat
  p3 : Nat
  deriving DecidableEq, Repr

/-- The `implState` of poly1305_32.go. -/
structure implState where
  r : Limbs
  h : Limbs
  pad : Pad
  deriving DecidableEq, Repr

/-- The method `implState.init`. -/
def implState.init (key : List Nat) : implState :=
  { r := { l0 := le32 key 0 &&& 0x3ffffff
           l1 := (le32 key 3 >>> 2) &&& 0x3ffff03
           l2 := (le32 key 6 >>> 4) &&& 0x3ffc0ff
           l3 := (le32 key 9 >>> 6) &&& 0x3f03fff
           l4 := (le32 key 12 >>> 8) &&& 0x00fffff }
    h := { l0 := 0, l1 := 0, l2 := 0, l3 := 0, l4 := 0 }
    pad := { p0 := le32 key 16, p1 := le32 key 20, p2 := le32 key 24, p3 := le32 key 28 } }

/-- The method `implState.clear`. -/
def implState.clear (_impl : implState) : implState :=
  { r := { l0 := 0, l1 := 0, l2 := 0, l3 := 0, l4 := 0 }
    h := { l0 := 0, l1 := 0, l2 := 0, l3 := 0, l4 := 0 }
    pad := { p0 := 0, p1 := 0, p2 := 0, p3 := 0 } }

/-- One iteration of the loop of `implState.blocks` on the block `m[0..16)`:
`h += m`, `h *= r`, partial reduction. -/
def blockStep (r : Limbs) (hibit : Nat) (h : Limbs) (m : List Nat) : Limbs :=
  let s1 := u32 (r.l1 * 5)
  let s2 := u32 (r.l2 * 5)
  let s3 := u32 (r.l3 * 5)
  let s4 := u32 (r.l4 * 5)
  let h0 := u32 (h.l0 + (le32 m 0 &&& 0x3ffffff))
  let h1 := u32 (h.l1 + ((le32 m 3 >>> 2) &&& 0x3ffffff))
  let h2 := u32 (h.l2 + ((le32 m 6 >>> 4) &&& 0x3ffffff))
  let h3 := u32 (h.l3 + ((le32 m 9 >>> 6) &&& 0x3ffffff))
  let h4 := u32 (h.l4 + ((le32 m 12 >>> 8) ||| hibit))
  let d0 := u64 (u64 (h0 * r.l0) + u64 (h1 * s4) + u64 (h2 * s3) + u64 (h3 * s2) + u64 (h4 * s1))
  let d1 := u64 (u64 (h0 * r.l1) + u64 (h1 * r.l0) + u64 (h2 * s4) + u64 (h3 * s3) + u64 (h4 * s2))
  let d2 := u64 (u64 (h0 * r.l2) + u64 (h1 * r.l1) + u64 (h2 * r.l0) + u64 (h3 * s4) + u64 (h4 * s3))
  let d3 := u64 (u64 (h0 * r.l3) + u64 (h1 * r.l2) + u64 (h2 * r.l1) + u64 (h3 * r.l0) + u64 (h4 * s4))
  let d4 := u64 (u64 (h0 * r.l4) + u64 (h1 * r.l3) + u64 (h2 * r.l2) + u64 (h3 * r.l1) + u64 (h4 * r.l0))
  let c := u32 (d0 >>> 26)
  let h0 := u32 d0 &&& 0x3ffffff
  let d1 := u64 (d1 + c)
  let c := u32 (d1 >>> 26)
  let h1 := u32 d1 &&& 0x3ffffff
  let d2 := u64 (d2 + c)
  let c := u32 (d2 >>> 26)
  let h2 := u32 d2 &&& 0x3ffffff
  let d3 := u64 (d3 + c)
  let c := u32 (d3 >>> 26)
  let h3 := u32 d3 &&& 0x3ffffff
  let d4 := u64 (d4 + c)
  let c := u32 (d4 >>> 26)
  let h4 := u32 d4 &&& 0x3ffffff
  let h0 := u32 (h0 + u32 (c * 5))
  let c := h0 >>> 26
  let h0 := h0 &&& 0x3ffffff
  let h1 := u32 (h1 + c)
  { l0 := h0, l1 := h1, l2 := h2, l3 := h3, l4 := h4 }

/-- The loop `for bytes >= BlockSize` of `implState.blocks`, run `n` times:
each round consumes the first 16 bytes of `m`. -/
def blocksLoop (r : Limbs) (hibit : Nat) : Nat → Limbs → List Nat → Limbs
  | 0, h, _ => h
  | n + 1, h, m => blocksLoop r hibit n (blockStep r hibit h m) (m.drop BlockSize)

/-- The method `implState.blocks`: the loop runs `bytes / 16` times. -/
def implState.blocks (impl : implState) (m : List Nat) (bytes : Nat) (isFinal : Bool) :
    implState :=
  let hibit := if isFinal then 0 else 2 ^ 24
  { impl with h := blocksLoop impl.r hibit (bytes / BlockSize) impl.h m }

/-- The method `implState.finish`: full carry, conditional subtraction of
`p = 2^130 - 5`, addition of the pad; the result is the 16-byte MAC. -/
def implState.finish (impl : implState) : List Nat :=
  let h0 := impl.h.l0
  let h1 := impl.h.l1
  let h2 := impl.h.l2
  let h3 := impl.h.l3
  let h4 := impl.h.l4
  let c := h1 >>> 26
  let h1 := h1 &&& 0x3ffffff
  let h2 := u32 (h2 + c)
  let c := h2 >>> 26
  let h2 := h2 &&& 0x3ffffff
  let h3 := u32 (h3 + c)
  let c := h3 >>> 26
  let h3 := h3 &&& 0x3ffffff
  let h4 := u32 (h4 + c)
  let c := h4 >>> 26
  let h4 := h4 &&& 0x3ffffff
  let h0 := u32 (h0 + u32 (c * 5))
  let c := h0 >>> 26
  let h0 := h0 &&& 0x3ffffff
  let h1 := u32 (h1 + c)
  let g0 := u32 (h0 + 5)
  let c := g0 >>> 26
  let g0 := g0 &&& 0x3ffffff
  let g1 := u32 (h1 + c)
  let c := g1 >>> 26
  let g1 := g1 &&& 0x3ffffff
  let g2 := u32 (h2 + c)
  let c := g2 >>> 26
  let g2 := g2 &&& 0x3ffffff
  let g3 := u32 (h3 + c)
  let c := g3 >>> 26
  let g3 := g3 &&& 0x3ffffff
  let g4 := u32 (h4 + c + (2 ^ 32 - 2 ^ 26))
  let mask := u32 ((g4 >>> 31) + (2 ^ 32 - 1))
  let g0 := g0 &&& mask
  let g1 := g1 &&& mask
  let g2 := g2 &&& mask
  let g3 := g3 &&& mask
  let g4 := g4 &&& mask
  let mask := (2 ^ 32 - 1) - mask
  let h0 := (h0 &&& mask) ||| g0
  let h1 := (h1 &&& mask) ||| g1
  let h2 := (h2 &&& mask) ||| g2
  let h3 := (h3 &&& mask) ||| g3
  let h4 := (h4 &&& mask) ||| g4
  let h0 := (h0 ||| u32 (h1 <<< 26)) &&& 0xffffffff
  let h1 := ((h1 >>> 6) ||| u32 (h2 <<< 20)) &&& 0xffffffff
  let h2 := ((h2 >>> 12) ||| u32 (h3 <<< 14)) &&& 0xffffffff
  let h3 := ((h3 >>> 18) ||| u32 (h4 <<< 8)) &&& 0xffffffff
  let f := u64 (h0 + impl.pad.p0)
  let h0 := u32 f
  let f := u64 (h1 + impl.pad.p1 + (f >>> 32))
  let h1 := u32 f
  let f := u64 (h2 + impl.pad.p2 + (f >>> 32))
  let h2 := u32 f
  let f := u64 (h3 + impl.pad.p3 + (f >>> 32))
  let h3 := u32 f
  putLe32 h0 ++ putLe32 h1 ++ putLe32 h2 ++ putLe32 h3

/-- The struct `Poly1305`: the limb state, the number of buffered bytes and the
16-byte buffer. -/
structure Poly1305 where
  impl : implState
  leftover : Nat
  buffer : List Nat
  deriving DecidableEq, Repr

/-- The loop `for i := 0; i < n; i++ { st.buffer[at+i] = m[i] }`. -/
def store (buffer : List Nat) (at_ : Nat) (m : List Nat) (n : Nat) : List Nat :=
  buffer.take at_ ++ m.take n ++ buffer.drop (at_ + n)

/-- The second and third part of `Poly1305.Write` ("process full blocks",
"store leftover"), entered with the bytes `m` that are still to be written. -/
def Poly1305.writeRest (st : Poly1305) (m : List Nat) : Poly1305 :=
  let bytes := m.length
  let want := bytes / BlockSize * BlockSize
  let impl := if bytes ≥ BlockSize then st.impl.blocks m want false else st.impl
  let m2 := if bytes ≥ BlockSize then m.drop want else m
  let bytes2 := if bytes ≥ BlockSize then bytes - want else bytes
  if bytes2 > 0 then
    { impl := impl
      leftover := st.leftover + bytes2
      buffer := store st.buffer st.leftover m2 bytes2 }
  else { st with impl := impl }

/-- The method `Poly1305.Write`. -/
def Poly1305.Write (st : Poly1305) (p : List Nat) : Poly1305 :=
  if st.leftover > 0 then
    let want := min (BlockSize - st.leftover) p.length
    let buffer := store st.buffer st.leftover p want
    let leftover := st.leftover + want
    if leftover < BlockSize then { st with leftover := leftover, buffer := buffer }
    else
      Poly1305.writeRest
        { impl := st.impl.blocks buffer BlockSize false, leftover := 0, buffer := buffer }
        (p.drop want)
  else Poly1305.writeRest st p

/-- The method `Poly1305.finish` (on the copy `tmp` of `Sum`): pad the
remaining block, run it as the final block, produce the MAC. -/
def Poly1305.finish (st : Poly1305) : List Nat :=
  if st.leftover > 0 then
    let buffer := st.buffer.take st.leftover ++ [1]
      ++ List.replicate (BlockSize - (st.leftover + 1)) 0
    (st.impl.blocks buffer BlockSize true).finish
  else st.impl.finish

/-- The method `Poly1305.Sum`: `append(b, mac[:]...)`; the state is unchanged. -/
def Poly1305.Sum (st : Poly1305) (b : List Nat) : List Nat :=
  b ++ st.finish

/-- The method `Poly1305.Init` for a key of `KeySize` bytes (the code panics on
any other length): a zero value of the struct, initialised. -/
def Poly1305.Init (key : List Nat) : Poly1305 :=
  { impl := implState.init key, leftover := 0, buffer := List.replicate BlockSize 0 }

end poly1305

/-! ## Primitives and layers that are not part of the sources -/

/-- The primitives the program imports: their code is outside the sources, so
each is a parameter.
* `keystream key nonce i`: byte `i` of the XChaCha20 key stream for `key` and
  `nonce` (block counter 0 starts at byte 0, block counter 1 at byte 64);
* `argon2 password salt par mem n keyLen`: the output of the core `argon2`;
* `x448 private public`: `x448.ScalarMult`, the shared secret and the return
  code (non-zero on failure);
* `x448base private`: `x448.ScalarBaseMult`;
* `blake2bNew size`: the error of `blake2b.New` for a digest size, if any;
* `blake2b size data`: the digest of `data`;
* `split n k secret`: `sss.Split`, the shares as (id, share) pairs in the order
  in which the Go map is iterated;
* `combine shares`: `sss.Combine`. -/
structure Prims where
  keystream : List Nat → List Nat → Nat → Nat
  argon2 : List Nat → List Nat → Nat → Nat → Nat → Nat → List Nat
  x448 : List Nat → List Nat → List Nat × Nat
  x448base : List Nat → List Nat
  blake2bNew : Nat → Option Err
  blake2b : Nat → List Nat → List Nat
  split : Nat → Nat → List Nat → Except Err (List (Nat × List Nat))
  combine : List (Nat × List Nat) → List Nat

/-- Go's `make([]byte, n)` filled from `l`: exactly `n` bytes, the bytes of `l`
first, zero after them. -/
def fit (n : Nat) (l : List Nat) : List Nat :=
  (l ++ List.replicate n 0).take n

/-- An `io.Reader`: the bytes it still delivers, the sizes of its next short
reads (a read asking for `n` bytes gets `min n cut` bytes, at least one), and the
error it reports instead of `io.EOF` once the bytes are exhausted. -/
structure Source where
  data : List Nat
  cuts : List Nat
  err : Option Err
  deriving DecidableEq, Repr

/-- One `Read(p)` with `len(p) = n`: the bytes read and the error. -/
def Source.Read (s : Source) (n : Nat) : (List Nat × Option Err) × Source :=
  if n = 0 then (([], none), s)
  else if s.data = [] then (([], some (s.err.getD Err.EOF)), s)
  else
    let k := min n (max 1 (s.cuts.headD n))
    ((s.data.take k, none), { s with data := s.data.drop k, cuts := s.cuts.tail })

/-- The loop of `io.ReadAtLeast(r, buf, len(buf))` behind `io.ReadFull`, for a
reader with state `σ` and read function `rd`: `need` bytes are still missing,
`acc` holds the bytes read so far.  Running out of rounds is reported as
`Err.panic`. -/
def readFullLoop {σ : Type} (rd : σ → Nat → (List Nat × Option Err) × σ) :
    Nat → σ → Nat → List Nat → (List Nat × Option Err) × σ
  | 0, s, _, acc => ((acc, some Err.panic), s)
  | fuel + 1, s, need, acc =>
    if need = 0 then ((acc, none), s)
    else
      match rd s need with
      | ((b, none), s2) => readFullLoop rd fuel s2 (need - b.length) (acc ++ b)
      | ((b, some e), s2) =>
        if need - b.length = 0 then ((acc ++ b, none), s2)
        else if (acc ++ b).length > 0 ∧ e = Err.EOF then
          ((acc ++ b, some Err.ErrUnexpectedEOF), s2)
        else ((acc ++ b, some e), s2)

/-- Go's `io.ReadFull(r, buf)` with `len(buf) = n`: every `Read` of a `Source`
that returns no error returns at least one byte, so `n + 1` rounds suffice. -/
def ReadFull (s : Source) (n : Nat) : (List Nat × Option Err) × Source :=
  readFullLoop Source.Read (n + 1) s n []

/-! ## XChaCha20-Poly1305 (`xchacha20poly1305.go`) -/

namespace xchacha20poly1305

/-- Value of `KeySize`. -/
def KeySize : Nat := 32
/-- Value of `NonceSize`. -/
def NonceSize : Nat := 24
/-- Value of `TagSize`. -/
def TagSize : Nat := 16

/-- The struct `XChaCha20Poly1305`: the embedded cipher (key, nonce and byte
position in the key stream) and the embedded MAC. -/
structure XChaCha20Poly1305 where
  key : List Nat
  nonce : List Nat
  pos : Nat
  mac : poly1305.Poly1305
  deriving DecidableEq, Repr

/-- The zero value `XChaCha20Poly1305{}`. -/
def zero : XChaCha20Poly1305 :=
  { key := [], nonce := [], pos := 0
    mac := { impl := (poly1305.implState.init []).clear, leftover := 0
             buffer := List.replicate 16 0 } }

/-- The bytes `pos .. pos + n` of the key stream (`Cipher.KeyStream`). -/
def KeyStream (P : Prims) (key nonce : List Nat) (pos n : Nat) : List Nat :=
  (List.range n).map (fun i => P.keystream key nonce (pos + i) % 256)

/-- The method `Cipher.XORKeyStream(dst, src)`: the bytes of `src` xored with
the key stream from the current position. -/
def XORKeyStream (P : Prims) (x : XChaCha20Poly1305) (src : List Nat) : List Nat :=
  List.zipWith Nat.xor src (KeyStream P x.key x.nonce x.pos src.length)

/-- The method `Init`: `ReKey` fails on a key that is not `KeySize` bytes long
(the nonce is always a 24-byte array here); on success the first 32 bytes of the
key stream key the MAC (`initPoly1305`) and the cipher seeks to block 1. -/
def Init (P : Prims) (x : XChaCha20Poly1305) (key nonce : List Nat) :
    XChaCha20Poly1305 × Option Err :=
  if key.length ≠ KeySize then (x, some Err.ErrInvalidKey)
  else
    ({ key := key, nonce := nonce, pos := 64
       mac := poly1305.Poly1305.Init (KeyStream P key nonce 0 poly1305.KeySize) }, none)

/-- The method `Decrypt(dst, src)`: authenticate `src`, then decrypt it.  The
result is the new state and `dst`. -/
def Decrypt (P : Prims) (x : XChaCha20Poly1305) (src : List Nat) :
    XChaCha20Poly1305 × List Nat :=
  ({ x with mac := x.mac.Write src, pos := x.pos + src.length }, XORKeyStream P x src)

/-- The method `Encrypt(dst, src)`: encrypt `src`, then authenticate the
ciphertext.  The result is the new state and `dst`. -/
def Encrypt (P : Prims) (x : XChaCha20Poly1305) (src : List Nat) :
    XChaCha20Poly1305 × List Nat :=
  let dst := XORKeyStream P x src
  ({ x with mac := x.mac.Write dst, pos := x.pos + src.length }, dst)

/-- The method `Tag(b)`. -/
def Tag (x : XChaCha20Poly1305) (b : List Nat) : List Nat :=
  x.mac.Sum b

end xchacha20poly1305

/-! ## The inner archive (`archive/archive.go`, `verify.go`, `reader.go`, `writer.go`) -/

/-- The fields of a `tar.Header` that the program sets or reads. -/
structure Header where
  Name : List Nat
  Size : Int
  Mode : Int
  ModTime : Int
  Typeflag : Nat
  Linkname : List Nat
  deriving DecidableEq, Repr

/-- What a call into the tar writer (layered over the gzip writer) does to the
archive below it: the new state of the two layers, the slices the gzip writer
passes to `Archive.Write`, in order, and the error of the call. -/
structure Emit (ω : Type) where
  st : ω
  chunks : List (List Nat)
  err : Option Err

/-- What `io.Copy(w.archiver, r)` does: as `Emit`, with the number of bytes
copied. -/
structure CopyOut (ω : Type) where
  st : ω
  chunks : List (List Nat)
  n : Int
  err : Option Err

/-- The tar writer over the gzip writer, as far as the archive sees them: the
state after `gzip.NewWriter` and `tar.NewWriter`, and the effect of
`WriteHeader`, of `io.Copy` into the tar writer from a reader that delivers
`body` and then reports `rerr` (`none` for `io.EOF`), of `Flush`, and of the two
`Close` calls. -/
structure WriteLayers (ω : Type) where
  start : ω
  WriteHeader : ω → Header → Emit ω
  Copy : ω → List Nat → Option Err → CopyOut ω
  Flush : ω → Emit ω
  CloseTar : ω → Emit ω
  CloseGzip : ω → Emit ω

/-- A computation of the gzip and tar readers over the archive: it ends with a
result, or calls `Archive.Read` with a buffer of `n` bytes and goes on with the
bytes and the error that call returns. -/
inductive Pull (α : Type) where
  | ret (a : α)
  | read (n : Nat) (k : List Nat × Option Err → Pull α)

/-- The gzip reader under the tar reader, as far as the archive sees them:
`gzip.NewReader` followed by `tar.NewReader`, `tar.Reader.Next` and
`tar.Reader.Read` with a buffer of the given length. -/
structure ReadLayers (δ : Type) where
  start : Pull (δ × Option Err)
  Next : δ → Pull (δ × Option Header × Option Err)
  Read : δ → Nat → Pull (δ × List Nat × Option Err)

namespace archive

open xchacha20poly1305

/-- The struct `Archive`: the embedded cipher, the stored tag, the embedded
`io.Reader` and the embedded `io.Writer` (the bytes written to it so far). -/
structure Archive where
  x : XChaCha20Poly1305
  tag : List Nat
  Reader : Source
  Writer : List Nat
  deriving DecidableEq, Repr

/-- No reader: every read reports `io.EOF`. -/
def noSource : Source := { data := [], cuts := [], err := none }

/-- The function `NewArchiveFromReader`: the archive (also returned when `Init`
fails) and the error; `none` for the archive where the code returns `nil`. -/
def NewArchiveFromReader (P : Prims) (r : Source) (key : List Nat) :
    Option Archive × Option Err :=
  match ReadFull r TagSize with
  | ((_, some e), _) => (none, some e)
  | ((tag, none), r1) =>
    match ReadFull r1 NonceSize with
    | ((_, some e), _) => (none, some e)
    | ((nonce, none), r2) =>
      let (x, err) := Init P zero key nonce
      (some { x := x, tag := tag, Reader := r2, Writer := [] }, err)

/-- The function `NewArchiveForWriter`; `rnd` is the outcome of
`rand.Read(nonce[:])` and `w` holds the bytes written to the writer so far.  The
second component is the writer after the call. -/
def NewArchiveForWriter (P : Prims) (w : List Nat) (key : List Nat)
    (rnd : Except Err (List Nat)) : (Option Archive × Option Err) × List Nat :=
  match rnd with
  | .error e => ((none, some e), w)
  | .ok bytes =>
    let nonce := fit NonceSize bytes
    match Init P zero key nonce with
    | (_, some e) => ((none, some e), w)
    | (x, none) =>
      let tag := List.replicate TagSize 0
      let w2 := w ++ tag ++ nonce
      ((some { x := x, tag := tag, Reader := noSource, Writer := w2 }, none), w2)

/-- The method `Archive.Read(b)` with `len(b) = n`. -/
def Archive.Read (P : Prims) (a : Archive) (n : Nat) : (List Nat × Option Err) × Archive :=
  match a.Reader.Read n with
  | ((b, err), r) =>
    let (x, plain) := Decrypt P a.x b
    ((plain, err), { a with x := x, Reader := r })

/-- The method `Archive.Write(b)`: the writer never fails. -/
def Archive.Write (P : Prims) (a : Archive) (b : List Nat) : Archive :=
  let (x, ct) := Encrypt P a.x b
  { a with x := x, Writer := a.Writer ++ ct }

/-- The method `Archive.Verify`: `subtle.ConstantTimeCompare(a.tag[:], tag[:]) == 1`. -/
def Archive.Verify (a : Archive) : Bool :=
  decide (a.tag = Tag a.x [])

/-- The loop of `io.Copy(ioutil.Discard, archive)`: read with an 8192-byte
buffer until a read reports an error; `io.EOF` ends the copy without error.
`none` stands for running out of rounds. -/
def discardLoop (P : Prims) : Nat → Archive → Option (Option Err × Archive)
  | 0, _ => none
  | fuel + 1, a =>
    match a.Read P 8192 with
    | ((_, none), a2) => discardLoop P fuel a2
    | ((_, some e), a2) => some (if e = Err.EOF then none else some e, a2)

/-- The function `Verify` of verify.go.  Every read without error takes at least
one byte, so one round more than the bytes left suffices. -/
def Verify (P : Prims) (r : Source) (key : List Nat) : Bool × Option Err :=
  match NewArchiveFromReader P r key with
  | (_, some e) => (false, some e)
  | (none, none) => (false, some Err.panic)
  | (some a, none) =>
    match discardLoop P (a.Reader.data.length + 1) a with
    | none => (false, some Err.panic)
    | some (some e, _) => (false, some e)
    | some (none, a2) => (a2.Verify, none)

/-- The number of bytes of `r` that `Verify` has not read when it returns: the
reader followed through the two calls of `io.ReadFull`, through `Init` and
through the copy to `ioutil.Discard`. -/
def unread (P : Prims) (r : Source) (key : List Nat) : Nat :=
  match ReadFull r TagSize with
  | ((_, some _), r1) => r1.data.length
  | ((tag, none), r1) =>
    match ReadFull r1 NonceSize with
    | ((_, some _), r2) => r2.data.length
    | ((nonce, none), r2) =>
      match Init P zero key nonce with
      | (_, some _) => r2.data.length
      | (x, none) =>
        match discardLoop P (r2.data.length + 1)
            { x := x, tag := tag, Reader := r2, Writer := [] } with
        | some (_, a2) => a2.Reader.data.length
        | none => r2.data.length

/-- Run a computation of the reading layers against the archive. -/
def Pull.run (P : Prims) {α : Type} : Pull α → Archive → α × Archive
  | .ret v, a => (v, a)
  | .read n k, a =>
    match a.Read P n with
    | (res, a2) => Pull.run P (k res) a2

/-- The struct `Reader` of reader.go: the tar and gzip readers and the archive. -/
structure Reader (δ : Type) where
  layers : δ
  archive : Archive

/-- The function `NewReader`. -/
def NewReader (P : Prims) {δ : Type} (L : ReadLayers δ) (r : Source) (key : List Nat) :
    Option (Reader δ) × Option Err :=
  match NewArchiveFromReader P r key with
  | (_, some e) => (none, some e)
  | (none, none) => (none, some Err.panic)
  | (some a, none) =>
    match Pull.run P L.start a with
    | ((_, some e), _) => (none, some e)
    | ((d, none), a2) => (some { layers := d, archive := a2 }, none)

/-- The method `Reader.Next`. -/
def Reader.Next (P : Prims) {δ : Type} (L : ReadLayers δ) (r : Reader δ) :
    (Option Header × Option Err) × Reader δ :=
  match Pull.run P (L.Next r.layers) r.archive with
  | ((d, h, e), a) => ((h, e), { layers := d, archive := a })

/-- The method `Reader.Read(b)` with `len(b) = n`. -/
def Reader.Read (P : Prims) {δ : Type} (L : ReadLayers δ) (r : Reader δ) (n : Nat) :
    (List Nat × Option Err) × Reader δ :=
  match Pull.run P (L.Read r.layers n) r.archive with
  | ((d, b, e), a) => ((b, e), { layers := d, archive := a })

/-- The method `Reader.Verify`. -/
def Reader.Verify {δ : Type} (r : Reader δ) : Bool :=
  r.archive.Verify

/-- The struct `Writer` of writer.go: the tar and gzip writers and the archive. -/
structure Writer (ω : Type) where
  layers : ω
  archive : Archive

/-- Pass the slices the gzip writer emits to `Archive.Write`, in order. -/
def writeChunks (P : Prims) (a : Archive) (chunks : List (List Nat)) : Archive :=
  chunks.foldl (Archive.Write P) a

/-- The function `NewWriter`; the second component is the writer `w` after the
call. -/
def NewWriter (P : Prims) {ω : Type} (L : WriteLayers ω) (w : List Nat) (key : List Nat)
    (rnd : Except Err (List Nat)) : (Option (Writer ω) × Option Err) × List Nat :=
  match NewArchiveForWriter P w key rnd with
  | ((_, some e), w2) => ((none, some e), w2)
  | ((none, none), w2) => ((none, some Err.panic), w2)
  | ((some a, none), w2) => ((some { layers := L.start, archive := a }, none), w2)

/-- The method `Writer.Add`. -/
def Writer.Add (P : Prims) {ω : Type} (L : WriteLayers ω) (w : Writer ω) (header : Header) :
    Option Err × Writer ω :=
  let o := L.WriteHeader w.layers header
  (o.err, { layers := o.st, archive := writeChunks P w.archive o.chunks })

/-- The method `Writer.Copy(r, size)` for a reader `r` that delivers `body` and
then reports `rerr`. -/
def Writer.Copy (P : Prims) {ω : Type} (L : WriteLayers ω) (w : Writer ω)
    (body : List Nat) (rerr : Option Err) (size : Int) : Option Err × Writer ω :=
  let o := L.Copy w.layers body rerr
  let w2 : Writer ω := { layers := o.st, archive := writeChunks P w.archive o.chunks }
  match o.err with
  | some e => (some e, w2)
  | none =>
    if o.n < size then (some Err.ErrShortCopy, w2)
    else
      let f := L.Flush w2.layers
      (f.err, { layers := f.st, archive := writeChunks P w2.archive f.chunks })

/-- The method `Writer.Finish`: the tag (when there is no error), the error and
the writer after the call. -/
def Writer.Finish (P : Prims) {ω : Type} (L : WriteLayers ω) (w : Writer ω) :
    (Option (List Nat) × Option Err) × Writer ω :=
  let c := L.CloseTar w.layers
  let w2 : Writer ω := { layers := c.st, archive := writeChunks P w.archive c.chunks }
  match c.err with
  | some e => ((none, some e), w2)
  | none =>
    let g := L.CloseGzip w2.layers
    let w3 : Writer ω := { layers := g.st, archive := writeChunks P w2.archive g.chunks }
    match g.err with
    | some e => ((none, some e), w3)
    | none => ((some (Tag w3.archive.x []), none), w3)

/-- One call a client makes on a `Writer` before `Finish`: `Add(header)`, or
`Copy(r, size)` with a reader that delivers `body` and then reports `rerr`. -/
inductive Op where
  | add (header : Header)
  | copy (body : List Nat) (rerr : Option Err) (size : Int)
  deriving DecidableEq, Repr

/-- A sequence of `Add` and `Copy` calls, whatever they return: the errors of the
calls, in order, and the writer after them. -/
def Writer.run (P : Prims) {ω : Type} (L : WriteLayers ω) :
    List Op → Writer ω → List (Option Err) × Writer ω
  | [], w => ([], w)
  | .add header :: ops, w =>
    let (e, w1) := w.Add P L header
    let (errs, w2) := Writer.run P L ops w1
    (e :: errs, w2)
  | .copy body rerr size :: ops, w =>
    let (e, w1) := w.Copy P L body rerr size
    let (errs, w2) := Writer.run P L ops w1
    (e :: errs, w2)

/-- One entry written as the tests do: the header is added, then the body is
copied from a reader that holds exactly the body. -/
structure Entry where
  header : Header
  body : List Nat
  deriving DecidableEq, Repr

/-- The calls of the loop `for _, e := range entries` of `createArchive` in the
tests: `Add(e)`, then `Copy(bytes.NewReader(dat), e.Size)`. -/
def entryOps : List Entry → List Op
  | [] => []
  | e :: es => .add e.header :: .copy e.body none e.header.Size :: entryOps es

/-- The statement `copy(buf.Bytes()[0:16], tag)` of the tests: the tag is stored
in the first 16 bytes of the output. -/
def storeTag (out tag : List Nat) : List Nat :=
  tag.take (min 16 out.length) ++ out.drop (min 16 tag.length)

/-- Sequencing of two computations of the reading layers. -/
def Pull.bind {α β : Type} : Pull α → (α → Pull β) → Pull β
  | .ret a, f => f a
  | .read n k, f => .read n (fun res => Pull.bind (k res) f)

/-- The loop of `ioutil.ReadAll(r)` on the tar reader: reads with a 512-byte
buffer until a read reports an error; `io.EOF` ends it without error.  `none`
for the bytes stands for running out of rounds. -/
def readAll {δ : Type} (L : ReadLayers δ) : Nat → δ → List Nat →
    Pull (δ × Option (List Nat) × Option Err)
  | 0, d, _ => .ret (d, none, some Err.panic)
  | fuel + 1, d, acc =>
    Pull.bind (L.Read d 512) (fun res =>
      match res with
      | (d2, b, none) => readAll L fuel d2 (acc ++ b)
      | (d2, b, some e) =>
        if e = Err.EOF then .ret (d2, some (acc ++ b), none)
        else .ret (d2, some (acc ++ b), some e))

/-- The loop of `TestCreateArchive` and `verifyArchive` over `n` entries: for
each, `Next()` and then `ioutil.ReadAll`; an error ends the loop (the test
fails).  The result lists the entries read before that. -/
def readEntries {δ : Type} (L : ReadLayers δ) (fuel : Nat) : Nat → δ →
    Pull (δ × List Entry × Option Err)
  | 0, d => .ret (d, [], none)
  | n + 1, d =>
    Pull.bind (L.Next d) (fun res =>
      match res with
      | (d2, _, some e) => .ret (d2, [], some e)
      | (d2, none, none) => .ret (d2, [], some Err.panic)
      | (d2, some h, none) =>
        Pull.bind (readAll L fuel d2 []) (fun res2 =>
          match res2 with
          | (d3, _, some e) => .ret (d3, [], some e)
          | (d3, none, none) => .ret (d3, [], some Err.panic)
          | (d3, some body, none) =>
            Pull.bind (readEntries L fuel n d3) (fun res3 =>
              match res3 with
              | (d4, es, e) => .ret (d4, { header := h, body := body } :: es, e))))

/-- The client of the tests on a `Reader`: the loop over `n` entries, each call
on the tar reader running against the archive. -/
def Reader.readEntries (P : Prims) {δ : Type} (L : ReadLayers δ) (fuel n : Nat)
    (r : Reader δ) : (List Entry × Option Err) × Reader δ :=
  match Pull.run P (Arc.archive.readEntries L fuel n r.layers) r.archive with
  | ((d, es, e), a) => ((es, e), { layers := d, archive := a })

/-- Run a computation of the reading layers directly against a byte stream,
with no archive in between. -/
def Pull.runPlain {α : Type} : Pull α → Source → α × Source
  | .ret v, s => (v, s)
  | .read n k, s =>
    match s.Read n with
    | (res, s2) => Pull.runPlain (k res) s2

end archive

/-! ## The binary codec (`binary/binary.go`) -/

namespace binary

/-- The two byte orders `BE` and `LE`. -/
inductive ByteOrder where
  | BE
  | LE
  deriving DecidableEq, Repr

/-- The `reflect.Kind` of a struct field; an array carries the size of its
element type, whether that type is `uint8`, and its length. -/
inductive Kind where
  | Int8
  | Uint8
  | Int16
  | Uint16
  | Int32
  | Uint32
  | Int64
  | Uint64
  | Array (elemSize : Nat) (elemUint8 : Bool) (len : Nat)
  | Int
  | Uint
  | Bool
  | String
  | Slice
  | Ptr
  | Interface
  | Struct
  deriving DecidableEq, Repr

/-- The value of a field as reflection sees it: `v.Int()` of a signed integer,
`v.Uint()` of an unsigned one, the bytes of a byte array, or a value the codec
never looks into. -/
inductive Value where
  | int (v : Int)
  | uint (v : Nat)
  | bytes (b : List Nat)
  | ref (id : Nat)
  deriving DecidableEq, Repr

/-- One field of the record: its kind, `v.CanSet()` and its value. -/
structure Field where
  kind : Kind
  canSet : Bool
  val : Value
  deriving DecidableEq, Repr

/-- The result of `t.Size()` for the kinds the codec serialises. -/
def Kind.Size : Kind → Nat
  | .Int8 => 1
  | .Uint8 => 1
  | .Int16 => 2
  | .Uint16 => 2
  | .Int32 => 4
  | .Uint32 => 4
  | .Int64 => 8
  | .Uint64 => 8
  | .Array elemSize _ len => elemSize * len
  | _ => 0

/-- The function `skip`. -/
def skip (f : Field) : Bool :=
  if !f.canSet then true
  else
    match f.kind with
    | .Int8 => false
    | .Uint8 => false
    | .Int16 => false
    | .Uint16 => false
    | .Int32 => false
    | .Uint32 => false
    | .Int64 => false
    | .Uint64 => false
    | .Array elemSize _ _ => decide (elemSize ≠ 1)
    | _ => true

/-- The function `size`. -/
def size (fields : List Field) : Nat :=
  fields.foldl (fun acc f => if !skip f then acc + f.kind.Size else acc) 0

/-- The `n` bytes of `v` in the given order (`order.PutUint16/32/64`). -/
def putUint (order : ByteOrder) (n : Nat) (v : Nat) : List Nat :=
  let le := (List.range n).map (fun i => v / 2 ^ (8 * i) % 256)
  match order with
  | .LE => le
  | .BE => le.reverse

/-- The unsigned integer the first `n` bytes of `buf` hold
(`order.Uint16/32/64`). -/
def getUint (order : ByteOrder) (n : Nat) (buf : List Nat) : Nat :=
  let b := match order with
    | .LE => buf.take n
    | .BE => (buf.take n).reverse
  (List.range n).foldl (fun acc i => acc + (b.getD i 0 % 256) * 2 ^ (8 * i)) 0

/-- Conversion of an `int64` to an unsigned integer of `8 * n` bits
(`uint16(v.Int())` and the like). -/
def wrapU (n : Nat) (v : Int) : Nat :=
  (v % (2 : Int) ^ (8 * n)).toNat

/-- The value a signed field of `n` bytes takes when `SetInt` stores the
unsigned number `u` in it. -/
def wrapS (n : Nat) (u : Nat) : Int :=
  let m := u % 2 ^ (8 * n)
  if m < 2 ^ (8 * n - 1) then (m : Int) else (m : Int) - (2 : Int) ^ (8 * n)

/-- The bytes one case of the `switch` in `Write` stores at the front of `buf`
for a field that is not skipped; `Err.panic` where reflection panics (`Bytes()`
of an array that is not a byte array, or a value of the wrong kind). -/
def encodeField (order : ByteOrder) (f : Field) : Except Err (List Nat) :=
  match f.kind, f.val with
  | .Int8, .int v => .ok [wrapU 1 v]
  | .Uint8, .uint v => .ok [v % 256]
  | .Int16, .int v => .ok (putUint order 2 (wrapU 2 v))
  | .Uint16, .uint v => .ok (putUint order 2 (v % 2 ^ 16))
  | .Int32, .int v => .ok (putUint order 4 (wrapU 4 v))
  | .Uint32, .uint v => .ok (putUint order 4 (v % 2 ^ 32))
  | .Int64, .int v => .ok (putUint order 8 (wrapU 8 v))
  | .Uint64, .uint v => .ok (putUint order 8 (v % 2 ^ 64))
  | .Array _ true len, .bytes b => .ok (fit len b)
  | _, _ => .error Err.panic

/-- The loop of `Write`: the bytes stored in `out`, field after field. -/
def writeFields (order : ByteOrder) : List Field → Except Err (List Nat)
  | [] => .ok []
  | f :: fs =>
    if skip f then writeFields order fs
    else
      match encodeField order f with
      | .error e => .error e
      | .ok b =>
        match writeFields order fs with
        | .error e => .error e
        | .ok rest => .ok (b ++ rest)

/-- The function `Write` up to its last statement: the slice `out` that is
handed to `w.Write`. -/
def Write (order : ByteOrder) (fields : List Field) : Except Err (List Nat) :=
  writeFields order fields

/-- The value one case of the `switch` in `Read` stores in a field that is not
skipped, from the front of `buf`. -/
def decodeField (order : ByteOrder) (f : Field) (buf : List Nat) : Except Err Value :=
  match f.kind with
  | .Int8 => .ok (.int (wrapS 1 (buf.getD 0 0)))
  | .Uint8 => .ok (.uint (buf.getD 0 0 % 256))
  | .Int16 => .ok (.int (wrapS 2 (getUint order 2 buf)))
  | .Uint16 => .ok (.uint (getUint order 2 buf))
  | .Int32 => .ok (.int (wrapS 4 (getUint order 4 buf)))
  | .Uint32 => .ok (.uint (getUint order 4 buf))
  | .Int64 => .ok (.int (wrapS 8 (getUint order 8 buf)))
  | .Uint64 => .ok (.uint (getUint order 8 buf))
  | .Array _ true len => .ok (.bytes (buf.take len))
  | _ => .error Err.panic

/-- The loop of `Read`: the fields after the assignments, `buf` advancing by the
size of every field that is not skipped. -/
def readFields (order : ByteOrder) : List Field → List Nat → Except Err (List Field)
  | [], _ => .ok []
  | f :: fs, buf =>
    if skip f then
      match readFields order fs buf with
      | .error e => .error e
      | .ok rest => .ok (f :: rest)
    else
      match decodeField order f buf with
      | .error e => .error e
      | .ok v =>
        match readFields order fs (buf.drop f.kind.Size) with
        | .error e => .error e
        | .ok rest => .ok ({ f with val := v } :: rest)

end binary

/-! ## Files (`File`, and its implementation `Buffer` in archive_test.go) -/

/-- The struct `Buffer`, the in-memory `File` of the tests. -/
structure Buffer where
  buffer : List Nat
  offset : Nat
  deriving DecidableEq, Repr

/-- The method `Buffer.Read(p)` with `len(p) = n`; slicing past the end of the
buffer panics. -/
def Buffer.Read (b : Buffer) (n : Nat) : (List Nat × Option Err) × Buffer :=
  if b.offset > b.buffer.length then (([], some Err.panic), b)
  else
    let s := b.buffer.drop b.offset
    if s.length = 0 then (([], some Err.EOF), b)
    else
      let k := min n s.length
      ((s.take k, none), { b with offset := b.offset + k })

/-- The method `Buffer.Write`. -/
def Buffer.Write (b : Buffer) (p : List Nat) : Buffer :=
  { buffer := b.buffer ++ p, offset := b.offset + p.length }

/-- The method `Buffer.WriteAt(p, off)`: the bytes `off .. off + len(p)` are
overwritten; `none` when that range is not inside the buffer (the slice
expression then panics or reaches into spare capacity). -/
def Buffer.WriteAt (b : Buffer) (p : List Nat) (off : Nat) : Option Buffer :=
  if off + p.length ≤ b.buffer.length then
    some { b with buffer := b.buffer.take off ++ p ++ b.buffer.drop (off + p.length) }
  else none

/-- The call `Seek(0, 1)`: the current offset. -/
def Buffer.Tell (b : Buffer) : Nat := b.offset

/-- The call `Seek(p, 0)`. -/
def Buffer.SeekTo (b : Buffer) (p : Nat) : Buffer := { b with offset := p }

/-- Go's `io.ReadFull(file, buf)` with `len(buf) = n`. -/
def Buffer.ReadFull (b : Buffer) (n : Nat) : (List Nat × Option Err) × Buffer :=
  readFullLoop Buffer.Read (n + 1) b n []

/-- A `bufio.Reader` over a file: it delivers the bytes of the file from the
current offset on, in chunks of the sizes `cuts`. -/
def Buffer.bufio (b : Buffer) (cuts : List Nat) : Source :=
  { data := b.buffer.drop b.offset
    cuts := cuts
    err := if b.offset > b.buffer.length then some Err.panic else none }

namespace binary

/-- The function `Read` on a file: the bytes are read with `io.ReadFull`, then
the fields are assigned.  The result is the error (`none` for `nil`), the fields
after the call and the file after the call. -/
def Read (file : Buffer) (order : ByteOrder) (fields : List Field) :
    Option Err × List Field × Buffer :=
  match file.ReadFull (size fields) with
  | ((_, some e), file2) => (some e, fields, file2)
  | ((buf, none), file2) =>
    match readFields order fields buf with
    | .error e => (some e, fields, file2)
    | .ok fields2 => (none, fields2, file2)

end binary

/-! ## Argon2 (`argon2/api.go`) -/

namespace argon2

/-- The function `argon2` of argon2.go, called with `K = X = nil`: the two
checks at its entry, which panic, in `uint32` arithmetic (a product `p*4` that
wraps to zero makes the modulus panic as well); past them the output of
`len(output) = keyLen` bytes is the parameter `P.argon2`. -/
def argon2 (P : Prims) (keyLen : Nat) (password salt : List Nat) (p m n : Nat) :
    Except Err (List Nat) :=
  if p = 0 ∨ m = 0 ∨ n = 0 then .error Err.panic
  else if p * 4 % 2 ^ 32 = 0 then .error Err.panic
  else if m % (p * 4 % 2 ^ 32) ≠ 0 then .error Err.panic
  else .ok (fit keyLen (P.argon2 password salt p m n keyLen))

/-- The function `Key` of api.go: the parameter checks, the rounding of `mem`,
and the call of the core `argon2` with the parameters converted to `uint32`.
The six `errors.New` values are `Err.argon 1` to `Err.argon 6`, in the order of
the source. -/
def Key (P : Prims) (password salt : List Nat) (n par : Int) (mem : Int) (keyLen : Nat) :
    Except Err (List Nat) :=
  if (password.length : Int) > 2 ^ 32 - 1 then .error (Err.argon 1)
  else if salt.length < 8 then .error (Err.argon 2)
  else if (salt.length : Int) > 2 ^ 32 - 1 then .error (Err.argon 3)
  else if n < 1 ∨ n > 2 ^ 32 - 1 then .error (Err.argon 4)
  else if par < 1 ∨ par > 255 then .error (Err.argon 5)
  else if mem < 8 ∨ mem > 2 ^ 32 - 1 then .error (Err.argon 6)
  else
    let mem1 := mem / (4 * par) * (4 * par)
    let mem2 := if mem1 < 8 * par then 8 * par else mem1
    argon2 P keyLen password salt (par.toNat % 2 ^ 32) (mem2.toNat % 2 ^ 32) (n.toNat % 2 ^ 32)

end argon2

/-! ## The archive drivers (`archive.go`) -/

/-- The constant `Version`. -/
def Version : Nat := 1
/-- The constant `Password`. -/
def Password : Nat := 1
/-- The constant `Curve448`. -/
def Curve448 : Nat := 2
/-- The constant `Shard`. -/
def Shard : Nat := 3
/-- The constant `KeySize`. -/
def KeySize : Nat := 32

/-- The calls a driver makes while it opens an archive, in the order in which
it makes them: `binary.Read` on the file with the given index, the derivation of
the key (`Key()`, `ComputeSharedKey`, `sss.Combine`), the `verify` scan, and
`archive.NewReader`. -/
inductive Event where
  | readHeader (file : Nat)
  | deriveKey
  | verify
  | newReader
  deriving DecidableEq, Repr

/-- The struct `Reader` of archive.go: the files and the embedded
`*archive.Reader` (`none` for `nil`), whose archive reads from the `bufio.Reader`. -/
structure Reader (δ : Type) where
  files : List Buffer
  inner : Option (archive.Reader δ)

/-- What a driver's `Reader()` returns, the pointer (`none` for `nil`) and the
error (`none` for `nil`), together with the calls it made. -/
structure ReaderResult (δ : Type) where
  reader : Option (Reader δ)
  err : Option Err
  trace : List Event

/-- The struct `Writer` of archive.go.  The `bufio.Writer` holds the bytes
written to the archive's writer (`inner.archive.Writer`) until `Flush`; `raw` is
the writer behind it, given by the files it writes to, in order (`none` for a
`nil` entry of the `io.MultiWriter`). -/
structure Writer (ω : Type) where
  raw : List (Option Nat)
  files : List Buffer
  tagAt : Nat
  inner : Option (archive.Writer ω)

/-- The body of `verify` from `bufio.NewReader` to its `return`, before the
deferred `Seek` runs: what `archive.Verify` returns on the `bufio.Reader` (chunk
sizes `cuts`), and the file as the scan leaves it.  The `bufio.Reader` takes the
bytes it delivers from the file with `Read`, and its first read fills its buffer
of 4096 bytes: a scan that stops behind the nonce leaves the file one buffer on,
or at its end if that is nearer, and a scan that reads on leaves it where the
last byte it was given stood. -/
def verifyScan (P : Prims) (key : List Nat) (file : Buffer) (cuts : List Nat) :
    (Bool × Option Err) × Buffer :=
  let buffer := file.bufio cuts
  let delivered := buffer.data.length - archive.unread P buffer key
  (archive.Verify P buffer key, (file.Read (max delivered 4096)).2)

/-- The function `verify`: `p` is the offset on entry (`file.Seek(0, 1)`), the
scan moves the file on, and the deferred `file.Seek(p, 0)` puts the offset back.
The result is what `archive.Verify` returns, and the file after the call. -/
def verify (P : Prims) (key : List Nat) (file : Buffer) (cuts : List Nat) :
    (Bool × Option Err) × Buffer :=
  let p := file.Tell
  let scan := verifyScan P key file cuts
  (scan.1, scan.2.SeekTo p)

/-- The function `newArchiveReader`.  All three callers pass the first file as
`raw`, so `raw` is `files[0]`; an empty `files` makes `files[0]` panic.  `cuts1`
and `cuts2` are the chunk sizes of the two `bufio.Reader`s. -/
def newArchiveReader (P : Prims) {δ : Type} (L : ReadLayers δ) (key : List Nat)
    (files : List Buffer) (cuts1 cuts2 : List Nat) : ReaderResult δ :=
  match files with
  | [] => { reader := none, err := some Err.panic, trace := [] }
  | f0 :: rest =>
    match verify P key f0 cuts1 with
    | ((_, some e), _) => { reader := none, err := some e, trace := [Event.verify] }
    | ((false, none), _) =>
      { reader := none, err := some Err.ErrInvalidArchive, trace := [Event.verify] }
    | ((true, none), raw) =>
      let buffer := raw.bufio cuts2
      let (r, err) := archive.NewReader P L buffer key
      { reader := some { files := raw :: rest, inner := r }, err := err
        trace := [Event.verify, Event.newReader] }

/-- Prepend the calls made before `newArchiveReader`. -/
def ReaderResult.after {δ : Type} (t : List Event) (r : ReaderResult δ) : ReaderResult δ :=
  { r with trace := t ++ r.trace }

/-- Return `nil, err` after the calls `t`. -/
def ReaderResult.fail {δ : Type} (t : List Event) (e : Err) : ReaderResult δ :=
  { reader := none, err := some e, trace := t }

/-- The function `newArchiveWriter`: `raw` is the writer behind the new
`bufio.Writer`, `rnd` the outcome of `rand.Read` for the nonce. -/
def newArchiveWriter (P : Prims) {ω : Type} (L : WriteLayers ω) (key : List Nat)
    (raw : List (Option Nat)) (files : List Buffer) (rnd : Except Err (List Nat)) :
    Option (Writer ω) × Option Err :=
  match files with
  | [] => (none, some Err.panic)
  | f0 :: _ =>
    let tagAt := f0.Tell
    let ((w, err), _) := archive.NewWriter P L [] key rnd
    (some { raw := raw, files := files, tagAt := tagAt, inner := w }, err)

/-- One `Write(p)` of the writer behind the `bufio.Writer`: every file of `raw`
gets `p`, in order; a `nil` writer panics. -/
def rawWrite (p : List Nat) : List (Option Nat) → List Buffer → Except Err (List Buffer)
  | [], files => .ok files
  | none :: _, _ => .error Err.panic
  | some i :: rest, files =>
    match files.get? i with
    | none => .error Err.panic
    | some f => rawWrite p rest (files.set i (f.Write p))

/-- The loop of `Writer.Close` over the files: `WriteAt(tag, tagAt)`, then
`Close()` (which a `Buffer` answers with `nil`). -/
def patchFiles (tag : List Nat) (tagAt : Nat) : List Buffer → Except Err (List Buffer)
  | [] => .ok []
  | f :: fs =>
    match f.WriteAt tag tagAt with
    | none => .error Err.panic
    | some f2 =>
      match patchFiles tag tagAt fs with
      | .error e => .error e
      | .ok rest => .ok (f2 :: rest)

/-- The method `Writer.Close`: the error and the files after the call.  When the
call stops at an error the files are returned as they were before the step that
failed. -/
def Writer.Close (P : Prims) {ω : Type} (L : WriteLayers ω) (w : Writer ω) :
    Option Err × List Buffer :=
  match w.inner with
  | none => (some Err.panic, w.files)
  | some iw =>
    match iw.Finish P L with
    | ((_, some e), _) => (some e, w.files)
    | ((none, none), _) => (some Err.panic, w.files)
    | ((some tag, none), iw2) =>
      match rawWrite iw2.archive.Writer w.raw w.files with
      | .error e => (some e, w.files)
      | .ok flushed =>
        match patchFiles tag w.tagAt flushed with
        | .error e => (some e, flushed)
        | .ok files => (none, files)

/-! ### Password archives -/

/-- The struct `PasswordArchive`. -/
structure PasswordArchive where
  Version : Nat
  Type_ : Nat
  Iterations : Nat
  Memory : Nat
  Salt : List Nat
  Password : List Nat
  File : Buffer
  deriving DecidableEq, Repr

/-- The function `NewPasswordArchive`. -/
def NewPasswordArchive (password : List Nat) (iterations memory : Nat) (file : Buffer) :
    PasswordArchive :=
  { Version := Version, Type_ := Password, Iterations := iterations, Memory := memory
    Salt := List.replicate 32 0, Password := password, File := file }

open binary in
/-- The fields of a `PasswordArchive` as reflection lists them. -/
def PasswordArchive.fields (a : PasswordArchive) : List Field :=
  [ { kind := .Uint8, canSet := true, val := .uint a.Version }
  , { kind := .Uint8, canSet := true, val := .uint a.Type_ }
  , { kind := .Uint32, canSet := true, val := .uint a.Iterations }
  , { kind := .Uint32, canSet := true, val := .uint a.Memory }
  , { kind := .Array 1 true 32, canSet := true, val := .bytes a.Salt }
  , { kind := .Slice, canSet := true, val := .ref 0 }
  , { kind := .Interface, canSet := true, val := .ref 1 } ]

open binary in
/-- The struct after reflection has assigned the fields `fs`. -/
def PasswordArchive.assign (a : PasswordArchive) (fs : List Field) : PasswordArchive :=
  match fs.map Field.val with
  | [.uint v, .uint t, .uint i, .uint m, .bytes s, _, _] =>
    { a with Version := v, Type_ := t, Iterations := i, Memory := m, Salt := s }
  | _ => a

/-- The method `PasswordArchive.Key`. -/
def PasswordArchive.Key (P : Prims) (a : PasswordArchive) : Except Err (List Nat) :=
  argon2.Key P a.Password a.Salt (a.Iterations : Int) 1 (a.Memory : Int) KeySize

/-- The method `PasswordArchive.Reader`. -/
def PasswordArchive.Reader (P : Prims) {δ : Type} (L : ReadLayers δ) (a : PasswordArchive)
    (cuts1 cuts2 : List Nat) : ReaderResult δ :=
  match binary.Read a.File binary.ByteOrder.LE a.fields with
  | (some e, _, _) => ReaderResult.fail [Event.readHeader 0] e
  | (none, fs, file) =>
    let a : PasswordArchive := { a.assign fs with File := file }
    if a.Version ≠ Arc.Version then
      ReaderResult.fail [Event.readHeader 0] Err.ErrInvalidVersion
    else if a.Type_ = Arc.Curve448 then
      ReaderResult.fail [Event.readHeader 0] Err.ErrCurve448Archive
    else if a.Type_ = Arc.Shard then
      ReaderResult.fail [Event.readHeader 0] Err.ErrShardArchive
    else
      match a.Key P with
      | .error e => ReaderResult.fail [Event.readHeader 0, Event.deriveKey] e
      | .ok key =>
        (newArchiveReader P L key [a.File] cuts1 cuts2).after
          [Event.readHeader 0, Event.deriveKey]

/-- The method `PasswordArchive.Writer`; `rndSalt` and `rndNonce` are the
outcomes of the two `rand.Read` calls. -/
def PasswordArchive.Writer (P : Prims) {ω : Type} (L : WriteLayers ω) (a : PasswordArchive)
    (rndSalt rndNonce : Except Err (List Nat)) : Option (Writer ω) × Option Err :=
  match rndSalt with
  | .error e => (none, some e)
  | .ok salt =>
    let a := { a with Salt := fit 32 salt }
    match binary.Write binary.ByteOrder.LE a.fields with
    | .error e => (none, some e)
    | .ok out =>
      let a := { a with File := a.File.Write out }
      match a.Key P with
      | .error e => (none, some e)
      | .ok key => newArchiveWriter P L key [some 0] [a.File] rndNonce

/-! ### Curve448 archives (and the key functions of `key.go` they use) -/

/-- The function `GenerateKeypair`: `rnd` is the outcome of reading 56 random
bytes for the private key; the keys are returned also when the error is set. -/
def GenerateKeypair (P : Prims) (rnd : Except Err (List Nat)) :
    List Nat × List Nat × Option Err :=
  match rnd with
  | .error e => (List.replicate 56 0, List.replicate 56 0, some e)
  | .ok bytes =>
    let priv := fit 56 bytes
    (fit 56 (P.x448base priv), priv, none)

/-- The function `ComputeSharedKey`: the digest (`none` for `nil`) and the
error; the digest is returned also when `X448` reports a failure. -/
def ComputeSharedKey (P : Prims) (pub priv : List Nat) (size : Nat) :
    Option (List Nat) × Option Err :=
  match P.blake2bNew size with
  | some e => (none, some e)
  | none =>
    let (secret, rc) := P.x448 priv pub
    let err := if rc ≠ 0 then some Err.ErrX448 else none
    (some (P.blake2b size (fit 56 secret)), err)

/-- The struct `Curve448Archive`; a `nil` key pointer is `none`. -/
structure Curve448Archive where
  Version : Nat
  Type_ : Nat
  Ephemeral : List Nat
  PublicKey : Option (List Nat)
  PrivateKey : Option (List Nat)
  File : Buffer
  deriving DecidableEq, Repr

/-- The function `NewCurve448Archive`. -/
def NewCurve448Archive (pub priv : Option (List Nat)) (file : Buffer) : Curve448Archive :=
  { Version := Version, Type_ := Curve448, Ephemeral := List.replicate 56 0
    PublicKey := pub, PrivateKey := priv, File := file }

open binary in
/-- The fields of a `Curve448Archive` as reflection lists them. -/
def Curve448Archive.fields (a : Curve448Archive) : List Field :=
  [ { kind := .Uint8, canSet := true, val := .uint a.Version }
  , { kind := .Uint8, canSet := true, val := .uint a.Type_ }
  , { kind := .Array 1 true 56, canSet := true, val := .bytes a.Ephemeral }
  , { kind := .Ptr, canSet := true, val := .ref 0 }
  , { kind := .Ptr, canSet := true, val := .ref 1 }
  , { kind := .Interface, canSet := true, val := .ref 2 } ]

open binary in
/-- The struct after reflection has assigned the fields `fs`. -/
def Curve448Archive.assign (a : Curve448Archive) (fs : List Field) : Curve448Archive :=
  match fs.map Field.val with
  | [.uint v, .uint t, .bytes e, _, _, _] =>
    { a with Version := v, Type_ := t, Ephemeral := e }
  | _ => a

/-- The method `Curve448Archive.Reader`. -/
def Curve448Archive.Reader (P : Prims) {δ : Type} (L : ReadLayers δ) (a : Curve448Archive)
    (cuts1 cuts2 : List Nat) : ReaderResult δ :=
  match binary.Read a.File binary.ByteOrder.LE a.fields with
  | (some e, _, _) => ReaderResult.fail [Event.readHeader 0] e
  | (none, fs, file) =>
    let a : Curve448Archive := { a.assign fs with File := file }
    if a.Version ≠ Arc.Version then
      ReaderResult.fail [Event.readHeader 0] Err.ErrInvalidVersion
    else if a.Type_ = Arc.Password then
      ReaderResult.fail [Event.readHeader 0] Err.ErrPasswordArchive
    else if a.Type_ = Arc.Shard then
      ReaderResult.fail [Event.readHeader 0] Err.ErrShardArchive
    else
      match a.PrivateKey with
      | none => ReaderResult.fail [Event.readHeader 0, Event.deriveKey] Err.panic
      | some priv =>
        match ComputeSharedKey P a.Ephemeral priv KeySize with
        | (_, some e) => ReaderResult.fail [Event.readHeader 0, Event.deriveKey] e
        | (none, none) => ReaderResult.fail [Event.readHeader 0, Event.deriveKey] Err.panic
        | (some key, none) =>
          (newArchiveReader P L key [a.File] cuts1 cuts2).after
            [Event.readHeader 0, Event.deriveKey]

/-- The method `Curve448Archive.Writer`; `rndKey` and `rndNonce` are the
outcomes of the random reads for the ephemeral private key and for the nonce. -/
def Curve448Archive.Writer (P : Prims) {ω : Type} (L : WriteLayers ω) (a : Curve448Archive)
    (rndKey rndNonce : Except Err (List Nat)) : Option (Writer ω) × Option Err :=
  match GenerateKeypair P rndKey with
  | (_, _, some e) => (none, some e)
  | (ephemeralPublicKey, ephemeralPrivateKey, none) =>
    match a.PublicKey with
    | none => (none, some Err.panic)
    | some pub =>
      match ComputeSharedKey P pub ephemeralPrivateKey KeySize with
      | (_, some e) => (none, some e)
      | (none, none) => (none, some Err.panic)
      | (some key, none) =>
        let a : Curve448Archive := { a with Ephemeral := ephemeralPublicKey }
        match binary.Write binary.ByteOrder.LE a.fields with
        | .error e => (none, some e)
        | .ok out =>
          let a : Curve448Archive := { a with File := a.File.Write out }
          newArchiveWriter P L key [some 0] [a.File] rndNonce

/-! ### Shard archives -/

/-- The struct `ShardArchive`, without its field `Shards`: the methods take the
slice `a.Shards` itself, and their receiver `a` is its first element, as
`NewShardArchive` returns it. -/
structure ShardArchive where
  Version : Nat
  Type_ : Nat
  ID : Nat
  Share : List Nat
  Threshold : Int
  File : Buffer
  deriving DecidableEq, Repr

/-- The function `NewShardArchive`: the slice `shards` that every element
shares. -/
def NewShardArchive (threshold : Int) (files : List Buffer) : List ShardArchive :=
  files.map (fun file =>
    { Version := Version, Type_ := Shard, ID := 0, Share := List.replicate KeySize 0
      Threshold := threshold, File := file })

open binary in
/-- The fields of a `ShardArchive` as reflection lists them. -/
def ShardArchive.fields (a : ShardArchive) : List Field :=
  [ { kind := .Uint8, canSet := true, val := .uint a.Version }
  , { kind := .Uint8, canSet := true, val := .uint a.Type_ }
  , { kind := .Uint8, canSet := true, val := .uint a.ID }
  , { kind := .Array 1 true 32, canSet := true, val := .bytes a.Share }
  , { kind := .Int, canSet := true, val := .int a.Threshold }
  , { kind := .Interface, canSet := true, val := .ref 0 }
  , { kind := .Slice, canSet := true, val := .ref 1 } ]

open binary in
/-- The struct after reflection has assigned the fields `fs`. -/
def ShardArchive.assign (a : ShardArchive) (fs : List Field) : ShardArchive :=
  match fs.map Field.val with
  | [.uint v, .uint t, .uint i, .bytes s, _, _, _] =>
    { a with Version := v, Type_ := t, ID := i, Share := s }
  | _ => a

/-- The assignment `shares[id] = share` on a Go map, kept as a list of pairs with
one pair per key. -/
def mapSet (shares : List (Nat × List Nat)) (id : Nat) (share : List Nat) :
    List (Nat × List Nat) :=
  if shares.any (fun p => p.1 == id) then
    shares.map (fun p => if p.1 == id then (id, share) else p)
  else shares ++ [(id, share)]

/-- The loop `for _, shard := range a.Shards` of `ShardArchive.Reader`, from the
shard with index `i` on: the error that ends it early (with the calls made), or
the shares and the shards after the loop. -/
def ShardArchive.readShards :
    List ShardArchive → Nat → List (Nat × List Nat) →
      Except (Err × List Event) (List (Nat × List Nat) × List ShardArchive × List Event)
  | [], _, shares => .ok (shares, [], [])
  | shard :: rest, i, shares =>
    match binary.Read shard.File binary.ByteOrder.LE shard.fields with
    | (some e, _, _) => .error (e, [Event.readHeader i])
    | (none, fs, file) =>
      let shard : ShardArchive := { shard.assign fs with File := file }
      if shard.Version ≠ Arc.Version then .error (Err.ErrInvalidVersion, [Event.readHeader i])
      else if shard.Type_ = Arc.Password then
        .error (Err.ErrPasswordArchive, [Event.readHeader i])
      else if shard.Type_ = Arc.Curve448 then
        .error (Err.ErrCurve448Archive, [Event.readHeader i])
      else
        match ShardArchive.readShards rest (i + 1) (mapSet shares shard.ID shard.Share) with
        | .error (e, t) => .error (e, Event.readHeader i :: t)
        | .ok (shares2, rest2, t) => .ok (shares2, shard :: rest2, Event.readHeader i :: t)

/-- The method `ShardArchive.Files`. -/
def ShardArchive.Files (shards : List ShardArchive) : List Buffer :=
  shards.map (fun shard => shard.File)

/-- The method `ShardArchive.Reader`, on the slice `a.Shards`. -/
def ShardArchive.Reader (P : Prims) {δ : Type} (L : ReadLayers δ) (shards : List ShardArchive)
    (cuts1 cuts2 : List Nat) : ReaderResult δ :=
  match ShardArchive.readShards shards 0 [] with
  | .error (e, t) => ReaderResult.fail t e
  | .ok (shares, shards2, t) =>
    let key := P.combine shares
    (newArchiveReader P L key (ShardArchive.Files shards2) cuts1 cuts2).after
      (t ++ [Event.deriveKey])

/-- The loop `for id, share := range shares` of `ShardArchive.Writer`: the index
is computed in `byte` arithmetic, an index outside the slice panics.  The result
is the shards after the loop and the slice `writers` (`none` for an entry that is
still `nil`). -/
def ShardArchive.writeShards :
    List (Nat × List Nat) → List ShardArchive → List (Option Nat) →
      Except Err (List ShardArchive × List (Option Nat))
  | [], shards, writers => .ok (shards, writers)
  | (id, share) :: more, shards, writers =>
    let index := (id % 256 + 255) % 256
    match shards.get? index with
    | none => .error Err.panic
    | some shard =>
      let shard : ShardArchive :=
        { shard with ID := id % 256
                     Share := share.take 32 ++ shard.Share.drop (min 32 share.length) }
      match binary.Write binary.ByteOrder.LE shard.fields with
      | .error e => .error e
      | .ok out =>
        let shard : ShardArchive := { shard with File := shard.File.Write out }
        ShardArchive.writeShards more (shards.set index shard) (writers.set index (some index))

/-- The method `ShardArchive.Writer`, on the slice `a.Shards`; `rndKey` and
`rndNonce` are the outcomes of the random reads for the key and for the nonce.
The shards after the call are returned with the result. -/
def ShardArchive.Writer (P : Prims) {ω : Type} (L : WriteLayers ω) (shards : List ShardArchive)
    (rndKey rndNonce : Except Err (List Nat)) :
    (Option (Writer ω) × Option Err) × List ShardArchive :=
  match shards with
  | [] => ((none, some Err.panic), shards)
  | a :: _ =>
    match rndKey with
    | .error e => ((none, some e), shards)
    | .ok bytes =>
      let key := fit 32 bytes
      let n := shards.length % 256
      let k := (a.Threshold % 256).toNat
      match P.split n k key with
      | .error e => ((none, some e), shards)
      | .ok shares =>
        match ShardArchive.writeShards shares shards (List.replicate shards.length none) with
        | .error e => ((none, some e), shards)
        | .ok (shards2, writers) =>
          (newArchiveWriter P L key writers (ShardArchive.Files shards2) rndNonce, shards2)

/-! ## Key containers (`key.go`) -/

/-- The constant `Public`. -/
def Public : Nat := 1
/-- The constant `Private`. -/
def Private : Nat := 2

/-- The struct `KeyContainer`. -/
structure KeyContainer where
  Version : Nat
  Type_ : Nat
  Iterations : Nat
  Memory : Nat
  Salt : List Nat
  Tag : List Nat
  Nonce : List Nat
  Key : List Nat
  Password : List Nat
  File : Buffer
  deriving DecidableEq, Repr

/-- The function `NewKeyContainer`. -/
def NewKeyContainer (file : Buffer) (password : List Nat) (iterations memory : Nat) :
    KeyContainer :=
  { Version := 1, Type_ := 0, Iterations := iterations, Memory := memory
    Salt := List.replicate 32 0, Tag := List.replicate 16 0, Nonce := List.replicate 24 0
    Key := List.replicate 56 0, Password := password, File := file }

open binary in
/-- The fields of a `KeyContainer` as reflection lists them. -/
def KeyContainer.fields (c : KeyContainer) : List Field :=
  [ { kind := .Uint8, canSet := true, val := .uint c.Version }
  , { kind := .Uint8, canSet := true, val := .uint c.Type_ }
  , { kind := .Uint32, canSet := true, val := .uint c.Iterations }
  , { kind := .Uint32, canSet := true, val := .uint c.Memory }
  , { kind := .Array 1 true 32, canSet := true, val := .bytes c.Salt }
  , { kind := .Array 1 true 16, canSet := true, val := .bytes c.Tag }
  , { kind := .Array 1 true 24, canSet := true, val := .bytes c.Nonce }
  , { kind := .Array 1 true 56, canSet := true, val := .bytes c.Key }
  , { kind := .Slice, canSet := true, val := .ref 0 }
  , { kind := .Interface, canSet := true, val := .ref 1 } ]

open binary in
/-- The struct after reflection has assigned the fields `fs`. -/
def KeyContainer.assign (c : KeyContainer) (fs : List Field) : KeyContainer :=
  match fs.map Field.val with
  | [.uint v, .uint t, .uint i, .uint m, .bytes s, .bytes g, .bytes n, .bytes k, _, _] =>
    { c with Version := v, Type_ := t, Iterations := i, Memory := m, Salt := s, Tag := g
             Nonce := n, Key := k }
  | _ => c

/-- The method `KeyContainer.cipher`: the cipher (also returned when `Init`
fails, `none` for `nil`) and the error. -/
def KeyContainer.cipher (P : Prims) (c : KeyContainer) :
    Option xchacha20poly1305.XChaCha20Poly1305 × Option Err :=
  match argon2.Key P c.Password c.Salt (c.Iterations : Int) 1 (c.Memory : Int)
      xchacha20poly1305.KeySize with
  | .error e => (none, some e)
  | .ok key =>
    let (x, err) := xchacha20poly1305.Init P xchacha20poly1305.zero key c.Nonce
    (some x, err)

/-- The method `KeyContainer.read(t, key)`: the error, the caller's key buffer
after the call and the container after the call. -/
def KeyContainer.read (P : Prims) (c : KeyContainer) (t : Nat) (key : List Nat) :
    Option Err × List Nat × KeyContainer :=
  match binary.Read c.File binary.ByteOrder.LE c.fields with
  | (some e, _, file) => (some e, key, { c with File := file })
  | (none, fs, file) =>
    let c : KeyContainer := { c.assign fs with File := file }
    if c.Type_ ≠ t ∧ t = Arc.Public then (some Err.ErrInvalidPublicKey, key, c)
    else if c.Type_ ≠ t ∧ t = Arc.Private then (some Err.ErrInvalidPrivateKey, key, c)
    else
      match c.cipher P with
      | (_, some e) => (some e, key, c)
      | (none, none) => (some Err.panic, key, c)
      | (some x, none) =>
        let (x2, plain) := xchacha20poly1305.Decrypt P x c.Key
        let tag := xchacha20poly1305.Tag x2 []
        if c.Tag ≠ tag then (some Err.ErrInvalidPrivateKey, plain, c)
        else (none, plain, c)

/-- The method `KeyContainer.write(t, key)`; `rndSalt` and `rndNonce` are the
outcomes of the two `rand.Read` calls.  The result is the error and the
container after the call. -/
def KeyContainer.write (P : Prims) (c : KeyContainer) (t : Nat) (key : List Nat)
    (rndSalt rndNonce : Except Err (List Nat)) : Option Err × KeyContainer :=
  let c : KeyContainer := { c with Type_ := t }
  match rndSalt with
  | .error e => (some e, c)
  | .ok salt =>
    let c : KeyContainer := { c with Salt := fit 32 salt }
    match rndNonce with
    | .error e => (some e, c)
    | .ok nonce =>
      let c : KeyContainer := { c with Nonce := fit 24 nonce }
      match c.cipher P with
      | (_, some e) => (some e, c)
      | (none, none) => (some Err.panic, c)
      | (some x, none) =>
        let (x2, ct) := xchacha20poly1305.Encrypt P x (fit 56 key)
        let c : KeyContainer := { c with Key := ct, Tag := xchacha20poly1305.Tag x2 [] }
        match binary.Write binary.ByteOrder.LE c.fields with
        | .error e => (some e, c)
        | .ok out => (none, { c with File := c.File.Write out })

/-- The method `ReadPublicKey`. -/
def KeyContainer.ReadPublicKey (P : Prims) (c : KeyContainer) (key : List Nat) :
    Option Err × List Nat × KeyContainer :=
  c.read P Public key

/-- The method `ReadPrivateKey`. -/
def KeyContainer.ReadPrivateKey (P : Prims) (c : KeyContainer) (key : List Nat) :
    Option Err × List Nat × KeyContainer :=
  c.read P Private key

/-- The method `WritePublicKey`. -/
def KeyContainer.WritePublicKey (P : Prims) (c : KeyContainer) (key : List Nat)
    (rndSalt rndNonce : Except Err (List Nat)) : Option Err × KeyContainer :=
  c.write P Public key rndSalt rndNonce

/-- The method `WritePrivateKey`. -/
def KeyContainer.WritePrivateKey (P : Prims) (c : KeyContainer) (key : List Nat)
    (rndSalt rndNonce : Except Err (List Nat)) : Option Err × KeyContainer :=
  c.write P Private key rndSalt rndNonce

/-! ## A small instance of the parameters, for concrete evaluations -/

namespace Sample

/-- Stand-ins for the primitives: a key stream that depends on the key, the nonce
and the position, a key derivation that mixes password and salt, and sharing
that hands the secret to every share. -/
def prims : Prims :=
  { keystream := fun key nonce i => (key.getD (i % 32) 0 + nonce.getD (i % 24) 0 + 7 * i + 1) % 256
    argon2 := fun password salt _ _ _ keyLen => fit keyLen (password ++ salt)
    x448 := fun priv pub => (List.zipWith Nat.xor priv pub, 0)
    x448base := fun priv => priv
    blake2bNew := fun _ => none
    blake2b := fun size data => fit size data
    split := fun n _ secret => .ok ((List.range n).map (fun i => (i + 1, secret)))
    combine := fun shares => (shares.head?.map Prod.snd).getD [] }

/-- Stand-in for the tar and gzip writers: a header is framed as the length of
its name, the name and the size; a body is passed through; closing the tar
writer emits the end marker `0` and closing the gzip writer the trailer `255`. -/
def writeLayers : WriteLayers Unit :=
  { start := ()
    WriteHeader := fun _ h =>
      { st := (), chunks := [[h.Name.length % 256] ++ h.Name ++ [h.Size.toNat % 256]], err := none }
    Copy := fun _ body rerr => { st := (), chunks := [body], n := body.length, err := rerr }
    Flush := fun _ => { st := (), chunks := [], err := none }
    CloseTar := fun _ => { st := (), chunks := [[0]], err := none }
    CloseGzip := fun _ => { st := (), chunks := [[255]], err := none } }

/-- Stand-in for the gzip and tar readers, the inverse of `writeLayers`, without
a buffer of its own: it takes from the archive only the bytes it hands on.  The
state is the number of body bytes of the current entry that are still unread. -/
def readLayers : ReadLayers Nat :=
  { start := .ret (0, none)
    Next := fun _ =>
      .read 1 (fun r1 =>
        match r1 with
        | (_, some e) => .ret (0, none, some e)
        | (b, none) =>
          if b.headD 0 = 0 then .ret (0, none, some Err.EOF)
          else
            .read (b.headD 0) (fun r2 =>
              .read 1 (fun r3 =>
                .ret (r3.1.headD 0,
                  some { Name := r2.1, Size := (r3.1.headD 0 : Nat), Mode := 0, ModTime := 0
                         Typeflag := 0, Linkname := [] },
                  none))))
    Read := fun d n =>
      if d = 0 then .ret (0, [], some Err.EOF)
      else .read (min n d) (fun r => .ret (d - r.1.length, r.1, r.2)) }

/-- The header and the state that `aheadLayers` takes from the bytes it holds:
the frame of `writeLayers` at their front. -/
def frame (held : List Nat) : (List Nat × Nat) × Option Header × Option Err :=
  match held with
  | [] => (([], 0), none, some Err.EOF)
  | b :: rest =>
    if b = 0 then ((rest, 0), none, some Err.EOF)
    else
      ((rest.drop (b + 1), rest.getD b 0),
        some { Name := rest.take b, Size := (rest.getD b 0 : Nat), Mode := 0, ModTime := 0
               Typeflag := 0, Linkname := [] },
        none)

/-- Stand-in for the gzip and tar readers, the inverse of `writeLayers`, with the
read-ahead of `gzip.NewReader`, which puts a `bufio.Reader` between itself and
the archive and fills its buffer of 4096 bytes to read the gzip header: `start`
takes up to 4096 bytes from the archive, `Next` and `Read` take the frames and
the bodies from the bytes held, and `Next` fills the buffer again when it is
empty.  The state is the bytes held and the number of body bytes of the current
entry that are still unread. -/
def aheadLayers : ReadLayers (List Nat × Nat) :=
  { start := .read 4096 (fun r => .ret ((r.1, 0), r.2))
    Next := fun s =>
      if s.1 = [] then .read 4096 (fun r => .ret (frame r.1))
      else .ret (frame s.1)
    Read := fun s n =>
      if s.2 = 0 then .ret (s, [], some Err.EOF)
      else .ret ((s.1.drop (min n s.2), s.2 - min n s.2), s.1.take (min n s.2), none) }

/-- A 32-byte key. -/
def key : List Nat := List.replicate 32 5

/-- One entry, `"f"` with a body of two bytes. -/
def entries : List archive.Entry :=
  [ { header := { Name := [102], Size := 2, Mode := 0, ModTime := 0, Typeflag := 0, Linkname := [] }
      body := [7, 9] } ]

end Sample

/-! ## Notions used in the statements and proofs -/

namespace poly1305

/-- The invariant of a `Poly1305` between calls: fewer than 16 bytes are
buffered, in a buffer of 16 bytes. -/
def Poly1305.ok (st : Poly1305) : Prop :=
  st.leftover < BlockSize ∧ st.buffer.length = BlockSize

/-- The buffered bytes. -/
def Poly1305.pending (st : Poly1305) : List Nat :=
  st.buffer.take st.leftover

/-- Run the block loop over the full 16-byte blocks of `l`; the accumulator and
the bytes that do not fill a block. -/
def absorb (r : Limbs) (h : Limbs) (l : List Nat) : Limbs × List Nat :=
  (blocksLoop r (2 ^ 24) (l.length / BlockSize) h l, l.drop (l.length / BlockSize * BlockSize))

/-- The state `m` is the state `m0` after the bytes `bytes` have been written to
it, in whatever slices. -/
def MacOf (m0 : Poly1305) (bytes : List Nat) (m : Poly1305) : Prop :=
  m.ok ∧ m.impl.r = m0.impl.r ∧ m.impl.pad = m0.impl.pad
    ∧ (m.impl.h, m.pending) = absorb m0.impl.r m0.impl.h (m0.pending ++ bytes)

end poly1305

namespace archive

open xchacha20poly1305

/-- The bytes `l` xored with the key stream from byte `pos` on. -/
def xorAt (P : Prims) (key nonce : List Nat) (pos : Nat) (l : List Nat) : List Nat :=
  List.zipWith Nat.xor l (KeyStream P key nonce pos l.length)

/-- The slices the tar and gzip writers pass down during `Add(header)`, and the
state of the layers after it. -/
def emitAdd {ω : Type} (L : WriteLayers ω) (st : ω) (header : Header) : List (List Nat) × ω :=
  ((L.WriteHeader st header).chunks, (L.WriteHeader st header).st)

/-- The slices the tar and gzip writers pass down during `Copy(r, size)`, and the
state of the layers after it. -/
def emitCopy {ω : Type} (L : WriteLayers ω) (st : ω) (body : List Nat) (rerr : Option Err)
    (size : Int) : List (List Nat) × ω :=
  let o := L.Copy st body rerr
  match o.err with
  | some _ => (o.chunks, o.st)
  | none =>
    if o.n < size then (o.chunks, o.st)
    else (o.chunks ++ (L.Flush o.st).chunks, (L.Flush o.st).st)

/-- The slices the tar and gzip writers pass down during a sequence of calls,
and the state of the layers after it. -/
def emitOps {ω : Type} (L : WriteLayers ω) : List Op → ω → List (List Nat) × ω
  | [], st => ([], st)
  | .add header :: ops, st =>
    let (c, st1) := emitAdd L st header
    let (cs, st2) := emitOps L ops st1
    (c ++ cs, st2)
  | .copy body rerr size :: ops, st =>
    let (c, st1) := emitCopy L st body rerr size
    let (cs, st2) := emitOps L ops st1
    (c ++ cs, st2)

/-- The slices the tar and gzip writers pass down during `Finish`. -/
def emitFinish {ω : Type} (L : WriteLayers ω) (st : ω) : List (List Nat) :=
  let c := L.CloseTar st
  match c.err with
  | some _ => c.chunks
  | none => c.chunks ++ (L.CloseGzip c.st).chunks

/-- The byte stream the tar and gzip writers produce for the calls `ops`
followed by `Finish`: what would be the file without the archive layer. -/
def plainStream {ω : Type} (L : WriteLayers ω) (ops : List Op) : List Nat :=
  ((emitOps L ops L.start).1 ++ emitFinish L (emitOps L ops L.start).2).flatten

/-- The writing archive `a` has encrypted `plain` since `Init`: its cipher is at
the matching position, the ciphertext follows `w0` in its writer and has gone
through its MAC. -/
def WInv (P : Prims) (key nonce : List Nat) (w0 plain : List Nat) (a : Archive) : Prop :=
  a.x.key = key ∧ a.x.nonce = nonce ∧ a.x.pos = 64 + plain.length
    ∧ a.Writer = w0 ++ xorAt P key nonce 64 plain
    ∧ poly1305.MacOf (poly1305.Poly1305.Init (KeyStream P key nonce 0 32))
        (xorAt P key nonce 64 plain) a.x.mac

/-- The reading archive `a` is reading the payload `ct`: what it has consumed has
gone through its MAC and its cipher is at the matching position. -/
def RInv (P : Prims) (key nonce : List Nat) (tag ct : List Nat) (a : Archive) : Prop :=
  a.x.key = key ∧ a.x.nonce = nonce ∧ a.tag = tag
    ∧ ∃ consumed, consumed ++ a.Reader.data = ct ∧ a.x.pos = 64 + consumed.length
      ∧ poly1305.MacOf (poly1305.Poly1305.Init (KeyStream P key nonce 0 32)) consumed a.x.mac

/-- The byte stream `s` is what the reading archive `a` will deliver: the
decryption of what its reader still holds, in the same chunks. -/
def Sim (P : Prims) (a : Archive) (s : Source) : Prop :=
  s.data = xorAt P a.x.key a.x.nonce a.x.pos a.Reader.data ∧ s.cuts = a.Reader.cuts
    ∧ s.err = a.Reader.err

end archive

namespace archive

/-- The whole job of the reading layers in the tests, as one computation:
`gzip.NewReader` and `tar.NewReader`, then (unless they fail, when `NewReader`
returns the error and no reader) the loop over `n` entries.  The result is `none`
when no reader is returned, else the entries read and the error of the loop. -/
def session {δ : Type} (L : ReadLayers δ) (fuel n : Nat) :
    Pull (Option (List Entry × Option Err)) :=
  Pull.bind L.start (fun res =>
    match res with
    | (_, some _) => .ret none
    | (d, none) =>
      Pull.bind (readEntries L fuel n d) (fun res2 => .ret (some (res2.2.1, res2.2.2))))

/-- What a client gets that opens a reader with `NewReader` and, if it gets one,
reads `n` entries from it: `none` without a reader, else the entries read and the
error of the loop. -/
def openAndRead (P : Prims) {δ : Type} (L : ReadLayers δ) (fuel n : Nat) (r : Source)
    (key : List Nat) : Option (List Entry × Option Err) :=
  match NewReader P L r key with
  | (some rd, none) => some (rd.readEntries P L fuel n).1
  | _ => none

end archive

namespace Sample

/-- The output of a writer for `entries` under `key`, with the tag stored in its
first 16 bytes. -/
def file : List Nat :=
  match (archive.NewWriter prims writeLayers [] key (.ok [1, 2, 3])).1.1 with
  | none => []
  | some w0 =>
    let fin := (archive.Writer.run prims writeLayers (archive.entryOps entries) w0).2.Finish
      prims writeLayers
    archive.storeTag fin.2.archive.Writer (fin.1.1.getD [])

end Sample

/-- The `PasswordArchive` after `binary.Read` has read its header from its file
(the struct unchanged, with the file after the call, when that fails). -/
def PasswordArchive.parsed (a : PasswordArchive) : PasswordArchive :=
  match binary.Read a.File binary.ByteOrder.LE a.fields with
  | (_, fs, file) => { a.assign fs with File := file }

/-- The `Curve448Archive` after `binary.Read` has read its header from its file
(the struct unchanged, with the file after the call, when that fails). -/
def Curve448Archive.parsed (a : Curve448Archive) : Curve448Archive :=
  match binary.Read a.File binary.ByteOrder.LE a.fields with
  | (_, fs, file) => { a.assign fs with File := file }

/-- The byte at `file.offset + i`: byte `i` of what the file holds from its
current offset on. -/
def Buffer.byteAt (file : Buffer) (i : Nat) : Nat :=
  file.buffer.getD (file.offset + i) 0

/-- The result of `verify` on the first file, what `newArchiveReader` returns after it. -/
def gated {δ : Type} (v : Bool × Option Err) (r : ReaderResult δ) : Prop :=
  match v with
  | (true, none) => r.reader.isSome
  | (false, none) => r.reader.isNone ∧ r.err = some Err.ErrInvalidArchive
  | (_, some e) => r.reader.isNone ∧ r.err = some e

/-- The `ShardArchive` after `binary.Read` has read its header from its file
(the struct unchanged, with the file after the call, when that fails). -/
def ShardArchive.parsed (a : ShardArchive) : ShardArchive :=
  match binary.Read a.File binary.ByteOrder.LE a.fields with
  | (_, fs, file) => { a.assign fs with File := file }

/-- The error that names the type of an archive file: `ErrPasswordArchive` for
the type byte 1, `ErrCurve448Archive` for 2, `ErrShardArchive` for 3. -/
def typeErr (t : Nat) : Err :=
  if t = Password then Err.ErrPasswordArchive
  else if t = Curve448 then Err.ErrCurve448Archive
  else Err.ErrShardArchive

/-- A shard whose file holds, from its offset on, a 35-byte header that passes
the checks of the loop of `ShardArchive.Reader`. -/
def ShardArchive.passes (s : ShardArchive) : Prop :=
  s.File.offset + 35 ≤ s.File.buffer.length ∧ s.File.byteAt 0 % 256 = Arc.Version
    ∧ s.File.byteAt 1 % 256 ≠ Arc.Password ∧ s.File.byteAt 1 % 256 ≠ Arc.Curve448

instance (s : ShardArchive) : Decidable s.passes := by
  unfold ShardArchive.passes
  infer_instance

/-- A sequence of calls of the promoted methods `Add` and `Copy` on a `Writer` of
archive.go (on a writer without an archive the calls panic and nothing changes). -/
def Writer.run (P : Prims) {ω : Type} (L : WriteLayers ω) (ops : List archive.Op)
    (w : Writer ω) : Writer ω :=
  match w.inner with
  | none => w
  | some iw => { w with inner := some (archive.Writer.run P L ops iw).2 }

/-- The bytes of a file after `Writer()`, the calls `ops` and `Close()`, for a
driver whose `Writer()` returned `res`: empty when one of the calls failed. -/
def closedFiles (P : Prims) {ω : Type} (L : WriteLayers ω) (ops : List archive.Op)
    (res : Option (Writer ω) × Option Err) : List (List Nat) :=
  match res with
  | (some w, none) =>
    match (Writer.run P L ops w).Close P L with
    | (none, files) => files.map (fun f => f.buffer)
    | _ => []
  | _ => []

/-- The list `l` with the bit `bit` of its byte `i` flipped. -/
def flipBit (l : List Nat) (i bit : Nat) : List Nat :=
  l.set i (Nat.xor (l.getD i 0) (2 ^ bit))

namespace Sample

/-- A password archive for the password `"pw"`, with cost parameters 1 and 8, on
an empty file. -/
def passwordArchive : PasswordArchive :=
  NewPasswordArchive [112, 119] 1 8 { buffer := [], offset := 0 }

/-- The file `passwordArchive` writes for `entries`. -/
def passwordFile : List Nat :=
  (closedFiles prims writeLayers (archive.entryOps entries)
    (passwordArchive.Writer prims writeLayers (.ok [4, 5, 6]) (.ok [1, 2, 3]))).headD []

end Sample

namespace Sample

/-- A 56-byte private key. -/
def privateKey : List Nat := (List.range 56).map (fun i => (3 * i + 1) % 256)

/-- The key container file `WritePrivateKey` writes for `privateKey` under the
password `"secret"`, with cost parameters 1 and 8. -/
def privateKeyFile : List Nat :=
  ((NewKeyContainer { buffer := [], offset := 0 } [115, 101, 99, 114, 101, 116] 1 8).WritePrivateKey
    prims privateKey (.ok [9, 8, 7]) (.ok [1, 2, 3])).2.File.buffer

end Sample

/-- The state of a driver's `Writer` right after `Writer()` and what `Close()`
makes of it, for files that held nothing before: the recorded tag offset is `n`;
every file holds its header `h` of `n` bytes and stands at offset `n`; the
`bufio.Writer` holds 16 zero bytes and the nonce; and after any calls `ops`, a
`Close()` that returns nil has got a tag of 16 bytes from `Finish` and leaves in
every file its header, the tag, and from there on (the nonce first) the bytes
that were streamed through the `bufio.Writer`. -/
def Patched (P : Prims) {ω : Type} (L : WriteLayers ω) (w : Writer ω)
    (headers : List (List Nat)) (nonce : List Nat) (n : Nat) : Prop :=
  w.tagAt = n
  ∧ w.files = headers.map (fun h => { buffer := h, offset := n })
  ∧ (∀ h ∈ headers, h.length = n)
  ∧ ∃ iw, w.inner = some iw ∧ iw.archive.Writer = List.replicate 16 0 ++ nonce
    ∧ ∀ ops files, (Writer.run P L ops w).Close P L = (none, files) →
      ∃ tag, ((archive.Writer.run P L ops iw).2.Finish P L).1 = (some tag, none)
        ∧ tag.length = 16
        ∧ (((archive.Writer.run P L ops iw).2.Finish P L).2.archive.Writer).take 40
            = List.replicate 16 0 ++ nonce
        ∧ files.map (fun f => f.buffer)
            = headers.map (fun h =>
                h ++ tag ++ (((archive.Writer.run P L ops iw).2.Finish P L).2.archive.Writer).drop 16)

namespace binary

/-- The value of the field is a value of the Go type of the field, for the types
the codec serialises: a signed or unsigned integer of the width of its kind, or
a byte array of `len` elements (the elements are copied as they are, so nothing
is asked of them). -/
def Field.wellTyped (f : Field) : Prop :=
  match f.kind, f.val with
  | .Int8, .int v => -2 ^ 7 ≤ v ∧ v < 2 ^ 7
  | .Uint8, .uint v => v < 2 ^ 8
  | .Int16, .int v => -2 ^ 15 ≤ v ∧ v < 2 ^ 15
  | .Uint16, .uint v => v < 2 ^ 16
  | .Int32, .int v => -2 ^ 31 ≤ v ∧ v < 2 ^ 31
  | .Uint32, .uint v => v < 2 ^ 32
  | .Int64, .int v => -2 ^ 63 ≤ v ∧ v < 2 ^ 63
  | .Uint64, .uint v => v < 2 ^ 64
  | .Array 1 true len, .bytes b => b.length = len
  | _, _ => False

/-- The kinds of the fixed-width integers `int8` to `uint64`. -/
def isFixedInt : Kind → Bool
  | .Int8 => true
  | .Uint8 => true
  | .Int16 => true
  | .Uint16 => true
  | .Int32 => true
  | .Uint32 => true
  | .Int64 => true
  | .Uint64 => true
  | _ => false

/-- The field is an array whose element type has size 1. -/
def isByteSizedArray : Kind → Bool
  | .Array elemSize _ _ => decide (elemSize = 1)
  | _ => false

/-- The field is an array of bytes: its element type is `uint8`, of size 1. -/
def isByteArray : Kind → Bool
  | .Array elemSize elemUint8 _ => decide (elemSize = 1) && elemUint8
  | _ => false

end binary

namespace binary

/-- The unsigned number whose low `8 * Size` bits are the bits of an integer
field: the value itself for an unsigned field, its two's complement for a
signed one (the conversions `uint16(v.Int())`, `uint32(v.Uint())`, ...). -/
def Field.bits (f : Field) : Nat :=
  match f.val with
  | .int v => wrapU f.kind.Size v
  | .uint v => v % 2 ^ (8 * f.kind.Size)
  | _ => 0

/-- The destination record `d` has the type of the record `f`: field by field the
same kind and the same settability. -/
def sameType (d f : List Field) : Prop :=
  d.map (fun x => (x.kind, x.canSet)) = f.map (fun x => (x.kind, x.canSet))

/-- The destination record after `Read` has assigned the fields of `f` that are
not skipped: a skipped field keeps what the destination `d` held. -/
def merge (d f : List Field) : List Field :=
  List.zipWith (fun x y => if skip y then x else y) d f

end binary

namespace Sample

/-- A settable field of the type `[4]int8`: an array whose elements have size 1
and are not bytes. -/
def int8Array : binary.Field :=
  { kind := .Array 1 false 4, canSet := true, val := .ref 0 }

end Sample

namespace Sample

open binary in
/-- The record of `TestBinaryMinMax`: the least and the greatest value of every
signed width and the greatest value of every unsigned width. -/
def minMax : List Field :=
  [ { kind := .Int8, canSet := true, val := .int (-128) }
  , { kind := .Int8, canSet := true, val := .int 127 }
  , { kind := .Uint8, canSet := true, val := .uint 255 }
  , { kind := .Int16, canSet := true, val := .int (-32768) }
  , { kind := .Int16, canSet := true, val := .int 32767 }
  , { kind := .Uint16, canSet := true, val := .uint 65535 }
  , { kind := .Int32, canSet := true, val := .int (-2147483648) }
  , { kind := .Int32, canSet := true, val := .int 2147483647 }
  , { kind := .Uint32, canSet := true, val := .uint 4294967295 }
  , { kind := .Int64, canSet := true, val := .int (-9223372036854775808) }
  , { kind := .Int64, canSet := true, val := .int 9223372036854775807 }
  , { kind := .Uint64, canSet := true, val := .uint 18446744073709551615 }
  , { kind := .Array 1 true 3, canSet := true, val := .bytes [2, 3, 4] } ]

open binary in
/-- A record of the type of `minMax` that holds the zero values. -/
def minMaxZero : List Field :=
  minMax.map (fun f =>
    { f with val := match f.val with
        | .int _ => .int 0
        | .uint _ => .uint 0
        | .bytes b => .bytes (List.replicate b.length 0)
        | .ref i => .ref i })

open binary in
/-- The record of `TestBinaryByteOrder`. -/
def byteOrderValues : List Field :=
  [ { kind := .Uint16, canSet := true, val := .uint 0x1234 }
  , { kind := .Uint32, canSet := true, val := .uint 0x12345678 }
  , { kind := .Uint64, canSet := true, val := .uint 0x1234567890ABCDEF } ]

end Sample

/-- The encryption of a 56-byte key under the cipher key `k` and the nonce: the
key xored with the key stream from byte 64 on (block 1), as `Encrypt` leaves it
in `c.Key`. -/
def keyCiphertext (P : Prims) (k nonce key : List Nat) : List Nat :=
  archive.xorAt P k nonce 64 (fit 56 key)

/-- The authentication tag of the ciphertext `ct` under the cipher key `k` and
the nonce: the Poly1305 MAC, keyed with the first 32 bytes of the key stream,
of `ct`. -/
def keyTag (P : Prims) (k nonce ct : List Nat) : List Nat :=
  ((poly1305.Poly1305.Init (xchacha20poly1305.KeyStream P k nonce 0 32)).Write ct).Sum []

/-- The 138 bytes of a key container of type `t`: version, type, iterations,
memory, salt, tag, nonce and encrypted key, in this order. -/
def containerBytes (t it mem : Nat) (salt tag nonce ct : List Nat) : List Nat :=
  [1, t] ++ binary.putUint binary.ByteOrder.LE 4 it ++ binary.putUint binary.ByteOrder.LE 4 mem
    ++ salt ++ tag ++ nonce ++ ct

/-- The layout of the 138 bytes `b` of a key container: the version 1 at offset
0, the type at 1, the iterations at 2..6 and the memory at 6..10 (both
little-endian), the salt at 10..42, the tag at 42..58, the nonce at 58..82 and
the encrypted key at 82..138. -/
def KeyLayout (b : List Nat) (t it mem : Nat) (salt tag nonce ct : List Nat) : Prop :=
  b.length = 138 ∧ b.getD 0 0 = 1 ∧ b.getD 1 0 = t
    ∧ (b.drop 2).take 4 = [it % 256, it / 2 ^ 8 % 256, it / 2 ^ 16 % 256, it / 2 ^ 24 % 256]
    ∧ (b.drop 6).take 4 = [mem % 256, mem / 2 ^ 8 % 256, mem / 2 ^ 16 % 256, mem / 2 ^ 24 % 256]
    ∧ (b.drop 10).take 32 = salt ∧ (b.drop 42).take 16 = tag ∧ (b.drop 58).take 24 = nonce
    ∧ (b.drop 82).take 56 = ct ∧ ct.length = 56

namespace Sample

/-- The result of `ShardArchive.Writer` for two shard files that hold nothing,
with threshold 2. -/
def shardResult : (Option (Writer Unit) × Option Err) × List ShardArchive :=
  ShardArchive.Writer prims writeLayers
    (NewShardArchive 2 [{ buffer := [], offset := 0 }, { buffer := [], offset := 0 }])
    (.ok [1, 2, 3]) (.ok [4, 5, 6])

/-- What `Close()` returns for the sample shard writer after the sample entries
have been written. -/
def shardClosed : Option Err × List Buffer :=
  match shardResult.1 with
  | (some w, none) => (Writer.run prims writeLayers (archive.entryOps entries) w).Close
      prims writeLayers
  | _ => (some Err.panic, [])

/-- The two shard files after the sample entries have been written and the
writer has been closed. -/
def shardFiles : List Buffer := shardClosed.2

/-- The result of `PasswordArchive.Writer` for the sample password archive. -/
def passwordResult : Option (Writer Unit) × Option Err :=
  passwordArchive.Writer prims writeLayers (.ok [4, 5, 6]) (.ok [1, 2, 3])

/-- Primitives whose `split` checks its arguments as `sss.Split` does: the
threshold must be at least 2 and at most the number of shares. -/
def strictPrims : Prims :=
  { prims with
    split := fun n k secret =>
      if k < 2 then .error (Err.other 1)
      else if n < k then .error (Err.other 2)
      else prims.split n k secret }

end Sample

/-! ## Command-line arguments (`args.go`) -/

/-- The errors of `Args.Validate`: one for each `fmt.Errorf` of its `switch`, in
the order of the source. -/
inductive ArgsErr where
  | noOperation
  | combineCreate
  | combineList
  | combineExtract
  | combineKeygen
  | createRequires
  | listRequires
  | extractRequires
  | passwordWithKey
  | passwordWithShard
  | keyWithShard
  | tooManyShards
  | tooFewShards
  | thresholdTooLow
  | thresholdTooHigh (n : Nat)
  | needFile
  | needFileOrShard
  | fileWithShard
  | keygenRequires
  | noNames
  deriving DecidableEq, Repr

/-- The fields of `Args` that `Validate` reads; a string is the list of its
bytes, so the empty string is `[]`. -/
structure Args where
  Shards : List (List Nat)
  Names : List (List Nat)
  File : List Nat
  Key : List Nat
  Private : List Nat
  Public : List Nat
  Create : Bool
  List_ : Bool
  Extract : Bool
  Keygen : Bool
  Password : Bool
  Threshold : Int
  deriving DecidableEq, Repr

/-- The method `Args.Validate`: the first case of the `switch` that holds gives
the error; `none` for `nil`. -/
def Args.Validate (a : Args) : Option ArgsErr :=
  if !a.Create && !a.List_ && !a.Extract && !a.Keygen then some .noOperation
  else if a.Create && (a.List_ || a.Extract || a.Keygen) then some .combineCreate
  else if a.List_ && (a.Create || a.Extract || a.Keygen) then some .combineList
  else if a.Extract && (a.Create || a.List_ || a.Keygen) then some .combineExtract
  else if a.Keygen && (a.Create || a.Extract || a.List_) then some .combineKeygen
  else if a.Create && !a.Password && decide (a.Key = []) && decide (a.Shards.length = 0) then
    some .createRequires
  else if a.List_ && !a.Password && decide (a.Key = []) && decide (a.Shards.length = 0) then
    some .listRequires
  else if a.Extract && !a.Password && decide (a.Key = []) && decide (a.Shards.length = 0) then
    some .extractRequires
  else if a.Password && decide (a.Key ≠ []) then some .passwordWithKey
  else if a.Password && decide (a.Shards.length > 0) then some .passwordWithShard
  else if decide (a.Key ≠ []) && decide (a.Shards.length > 0) then some .keyWithShard
  else if a.Shards.length > 255 then some .tooManyShards
  else if a.Create && decide (a.Shards.length > 0) && decide (a.Shards.length < 2) then
    some .tooFewShards
  else if a.Create && decide (a.Shards.length > 0) && decide (a.Threshold ≤ 1) then
    some .thresholdTooLow
  else if a.Create && decide (a.Shards.length > 0)
      && decide (a.Threshold > (a.Shards.length : Int)) then
    some (.thresholdTooHigh a.Shards.length)
  else if !a.Keygen && (a.Password || decide (a.Key ≠ [])) && decide (a.File = []) then
    some .needFile
  else if !a.Keygen && !a.Password && decide (a.Key = []) && decide (a.File = [])
      && decide (a.Shards.length = 0) then
    some .needFileOrShard
  else if !a.Keygen && decide (a.File ≠ []) && decide (a.Shards.length > 0) then
    some .fileWithShard
  else if a.Keygen && (decide (a.Public = []) || decide (a.Private = [])) then
    some .keygenRequires
  else if a.Create && decide (a.Names.length = 0) then some .noNames
  else none

namespace Sample

/-- A create request with three shards, threshold 2 and one name. -/
def shardArgs : Args :=
  { Shards := [[97], [98], [99]], Names := [[102]], File := [], Key := [], Private := []
    Public := [], Create := true, List_ := false, Extract := false, Keygen := false
    Password := false, Threshold := 2 }

end Sample

/-! # Theorems -/

namespace poly1305

theorem getD_take_lt (m : List Nat) (n j : Nat) (h : j < n) :
    (m.take n).getD j 0 = m.getD j 0 := by
  simp [List.getD_eq_getElem?_getD, List.getElem?_take, h]

theorem le32_take (m : List Nat) (i : Nat) (h : i + 3 < 16) :
    le32 (m.take 16) i = le32 m i := by
  unfold le32
  rw [getD_take_lt m 16 i (by omega), getD_take_lt m 16 (i + 1) (by omega),
    getD_take_lt m 16 (i + 2) (by omega), getD_take_lt m 16 (i + 3) (by omega)]

theorem blockStep_take (r : Limbs) (hb : Nat) (h : Limbs) (m : List Nat) :
    blockStep r hb h (m.take 16) = blockStep r hb h m := by
  unfold blockStep
  rw [le32_take m 0 (by omega), le32_take m 3 (by omega), le32_take m 6 (by omega),
    le32_take m 9 (by omega), le32_take m 12 (by omega)]

theorem blockStep_congr (r : Limbs) (hb : Nat) (h : Limbs) (m m2 : List Nat)
    (e : m.take 16 = m2.take 16) : blockStep r hb h m = blockStep r hb h m2 := by
  rw [← blockStep_take r hb h m, ← blockStep_take r hb h m2, e]

theorem blocksLoop_add (r : Limbs) (hb : Nat) (a b : Nat) (h : Limbs) (m : List Nat) :
    blocksLoop r hb (a + b) h m
      = blocksLoop r hb b (blocksLoop r hb a h m) (m.drop (BlockSize * a)) := by
  induction a generalizing h m with
  | zero => simp [blocksLoop]
  | succ a ih =>
    rw [Nat.add_right_comm, blocksLoop, ih, blocksLoop, List.drop_drop]
    congr 2
    simp [BlockSize]; omega

theorem blocksLoop_append (r : Limbs) (hb : Nat) (n : Nat) (h : Limbs) (m x : List Nat)
    (hl : BlockSize * n ≤ m.length) :
    blocksLoop r hb n h (m ++ x) = blocksLoop r hb n h m := by
  induction n generalizing h m with
  | zero => simp [blocksLoop]
  | succ n ih =>
    have h16 : 16 ≤ m.length := by simp [BlockSize] at hl; omega
    rw [blocksLoop, blocksLoop]
    have e1 : blockStep r hb h (m ++ x) = blockStep r hb h m := by
      apply blockStep_congr
      rw [List.take_append_of_le_length h16]
    have e2 : (m ++ x).drop BlockSize = m.drop BlockSize ++ x := by
      simp only [BlockSize]
      rw [List.drop_append_of_le_length h16]
    rw [e1, e2]
    apply ih
    simp [BlockSize] at hl ⊢; omega

theorem absorb_append (r : Limbs) (h : Limbs) (l q : List Nat) :
    absorb r (absorb r h l).1 ((absorb r h l).2 ++ q) = absorb r h (l ++ q) := by
  unfold absorb
  simp only [BlockSize]
  set k := l.length / 16 with hk
  have hkl : 16 * k ≤ l.length := by omega
  have hlen : (List.drop (k * 16) l ++ q).length = l.length - k * 16 + q.length := by simp
  set j := (List.drop (k * 16) l ++ q).length / 16 with hj
  have hkj : (l ++ q).length / 16 = k + j := by
    simp only [List.length_append]
    rw [hj, hlen]; omega
  rw [hkj]
  have hd : (l ++ q).drop (16 * k) = l.drop (k * 16) ++ q := by
    rw [List.drop_append_of_le_length hkl, Nat.mul_comm]
  ext1
  · simp only
    have := blocksLoop_add r (2 ^ 24) k j h (l ++ q)
    simp only [BlockSize] at this
    rw [this, hd]
    congr 1
    symm
    apply blocksLoop_append
    simp only [BlockSize]; omega
  · simp only
    rw [Nat.add_mul, ← List.drop_drop, Nat.mul_comm k 16, hd, Nat.mul_comm 16 k]


theorem writeRest_view (st : Poly1305) (m : List Nat) (h0 : st.leftover = 0)
    (hb : st.buffer.length = BlockSize) :
    (st.writeRest m).ok ∧ (st.writeRest m).impl.r = st.impl.r
      ∧ (st.writeRest m).impl.pad = st.impl.pad
      ∧ ((st.writeRest m).impl.h, (st.writeRest m).pending) = absorb st.impl.r st.impl.h m := by
  simp only [BlockSize] at hb
  have hmod : m.length - m.length / 16 * 16 = m.length % 16 := by omega
  by_cases hge : m.length ≥ 16
  · by_cases hrem : m.length % 16 > 0
    · have hlt : m.length % 16 < 16 := Nat.mod_lt _ (by omega)
      have hdl : (List.drop (m.length / 16 * 16) m).length = m.length % 16 := by
        rw [List.length_drop]; omega
      simp only [Poly1305.writeRest, Poly1305.ok, Poly1305.pending, absorb, implState.blocks,
        BlockSize, store, hge, h0, hmod, hrem, if_true, List.take_zero, List.nil_append,
        Nat.zero_add, Bool.false_eq_true, if_false, Nat.mul_div_cancel, Nat.zero_lt_succ,
        List.length_append, List.length_take, List.length_drop, hb, hdl, Nat.min_self,
        List.take_of_length_le (Nat.le_of_eq hdl), List.take_left, true_and]
      refine ⟨⟨hlt, by omega⟩, ?_⟩
      congr 1
      rw [List.take_append_of_le_length (by rw [hdl]), List.take_of_length_le (Nat.le_of_eq hdl)]
    · have hz : m.length % 16 = 0 := by omega
      have hdl : List.drop (m.length / 16 * 16) m = [] := by
        apply List.drop_of_length_le; omega
      simp only [Poly1305.writeRest, Poly1305.ok, Poly1305.pending, absorb, implState.blocks,
        BlockSize, hge, h0, hmod, hz, if_true, Nat.lt_irrefl, if_false, List.take_zero, hb, hdl,
        Bool.false_eq_true, Nat.mul_div_cancel, Nat.zero_lt_succ, true_and]
  · have hlt : m.length < 16 := by omega
    have hdiv : m.length / 16 = 0 := Nat.div_eq_of_lt hlt
    by_cases hpos : m.length > 0
    · simp only [Poly1305.writeRest, Poly1305.ok, Poly1305.pending, absorb, BlockSize, store,
        hge, h0, hpos, if_true, if_false, List.take_zero, List.nil_append, Nat.zero_add, hdiv,
        blocksLoop, Nat.zero_mul, List.drop_zero, List.length_append, List.length_take,
        List.length_drop, hb, Nat.min_self, List.take_length, List.take_left, true_and]
      exact ⟨⟨hlt, by omega⟩, trivial⟩
    · have hnil : m = [] := List.length_eq_zero.mp (by omega)
      subst hnil
      simp [Poly1305.writeRest, Poly1305.ok, Poly1305.pending, absorb, BlockSize, h0, hb,
        blocksLoop]


theorem Write_view (st : Poly1305) (p : List Nat) (hok : st.ok) :
    (st.Write p).ok ∧ (st.Write p).impl.r = st.impl.r ∧ (st.Write p).impl.pad = st.impl.pad
      ∧ ((st.Write p).impl.h, (st.Write p).pending)
          = absorb st.impl.r st.impl.h (st.pending ++ p) := by
  obtain ⟨hl, hb⟩ := hok
  simp only [BlockSize] at hl hb
  by_cases h0 : st.leftover > 0
  · by_cases hfit : st.leftover + min (16 - st.leftover) p.length < 16
    · -- the bytes only fill the buffer further
      have hmin : min (16 - st.leftover) p.length = p.length := by omega
      have hlen : (List.take st.leftover st.buffer ++ p).length = st.leftover + p.length := by
        simp [List.length_take, hb]; omega
      have hdiv : (List.take st.leftover st.buffer ++ p).length / 16 = 0 := by
        rw [hlen]; apply Nat.div_eq_of_lt; omega
      have hfit2 : st.leftover + p.length < 16 := by omega
      simp only [Poly1305.Write, h0, if_true, BlockSize, hmin, hfit2, Poly1305.ok,
        Poly1305.pending, absorb, store, hdiv, blocksLoop, Nat.zero_mul, List.drop_zero,
        List.take_length, true_and]
      refine ⟨?_, ?_⟩
      · simp only [List.length_append, List.length_take, List.length_drop, hb]; omega
      · congr 1
        rw [List.take_append_of_le_length (by rw [hlen]),
          List.take_of_length_le (by rw [hlen])]
    · -- the buffer fills up: one block from the buffer, the rest from `p`
      have hmin : min (16 - st.leftover) p.length = 16 - st.leftover := by omega
      have hbuf : store st.buffer st.leftover p (16 - st.leftover)
          = st.buffer.take st.leftover ++ p.take (16 - st.leftover) := by
        unfold store
        rw [List.drop_of_length_le (by omega), List.append_nil]
      have hbl : (st.buffer.take st.leftover ++ p.take (16 - st.leftover)).length = 16 := by
        simp [List.length_take, hb]; omega
      have key := writeRest_view
        { impl := st.impl.blocks (st.buffer.take st.leftover ++ p.take (16 - st.leftover)) 16 false
          leftover := 0
          buffer := st.buffer.take st.leftover ++ p.take (16 - st.leftover) }
        (p.drop (16 - st.leftover)) rfl hbl
      have hfit2 : ¬ (st.leftover + (16 - st.leftover) < 16) := by omega
      simp only [Poly1305.Write, h0, if_true, BlockSize, hmin, hfit2, if_false, hbuf]
      refine ⟨key.1, ?_, ?_, ?_⟩
      · rw [key.2.1]; rfl
      · rw [key.2.2.1]; rfl
      · rw [key.2.2.2]
        have hsplit : st.pending ++ p
            = (st.buffer.take st.leftover ++ p.take (16 - st.leftover))
                ++ p.drop (16 - st.leftover) := by
          simp [Poly1305.pending, List.append_assoc]
        rw [hsplit]
        have h1 := absorb_append st.impl.r st.impl.h
          (st.buffer.take st.leftover ++ p.take (16 - st.leftover)) (p.drop (16 - st.leftover))
        rw [← h1]
        have h2 : absorb st.impl.r st.impl.h
            (st.buffer.take st.leftover ++ p.take (16 - st.leftover))
            = (blockStep st.impl.r (2 ^ 24) st.impl.h
                (st.buffer.take st.leftover ++ p.take (16 - st.leftover)), []) := by
          unfold absorb
          rw [hbl]
          simp [BlockSize, blocksLoop, List.drop_of_length_le (Nat.le_of_eq hbl)]
        rw [h2]
        simp [implState.blocks, BlockSize, blocksLoop]
  · have hz : st.leftover = 0 := by omega
    have key := writeRest_view st p hz hb
    simp only [Poly1305.Write, h0, if_false, Poly1305.pending, hz, List.take_zero,
      List.nil_append]
    exact key

end poly1305

namespace poly1305

theorem pending_length (st : Poly1305) (hok : st.ok) : st.pending.length = st.leftover := by
  obtain ⟨hl, hb⟩ := hok
  simp only [Poly1305.pending, List.length_take, hb]
  omega

theorem Init_ok (key : List Nat) : (Poly1305.Init key).ok := by
  simp [Poly1305.Init, Poly1305.ok, BlockSize]

theorem MacOf.refl (m0 : Poly1305) (h : m0.ok) : MacOf m0 [] m0 := by
  refine ⟨h, rfl, rfl, ?_⟩
  have hl := pending_length m0 h
  have hlt : m0.pending.length < 16 := by rw [hl]; exact h.1
  simp [absorb, BlockSize, Nat.div_eq_of_lt hlt, blocksLoop]

theorem MacOf.step {m0 m : Poly1305} {b : List Nat} (h : MacOf m0 b m) (c : List Nat) :
    MacOf m0 (b ++ c) (m.Write c) := by
  obtain ⟨hok, hr, hp, hv⟩ := h
  obtain ⟨wok, wr, wp, wv⟩ := Write_view m c hok
  refine ⟨wok, wr.trans hr, wp.trans hp, ?_⟩
  rw [wv, hr]
  have := absorb_append m0.impl.r m0.impl.h (m0.pending ++ b) c
  rw [← hv] at this
  simp only at this
  rw [this, List.append_assoc]

theorem finish_eq_of_view (m1 m2 : Poly1305) (h1 : m1.ok) (h2 : m2.ok)
    (hi : m1.impl = m2.impl) (hp : m1.pending = m2.pending) : m1.finish = m2.finish := by
  have l1 := pending_length m1 h1
  have l2 := pending_length m2 h2
  have hl : m1.leftover = m2.leftover := by rw [← l1, ← l2, hp]
  unfold Poly1305.finish
  unfold Poly1305.pending at hp
  rw [hl] at hp
  rw [hi, hl, hp]

theorem MacOf.sum_eq {m0 m1 m2 : Poly1305} {b : List Nat} (h1 : MacOf m0 b m1)
    (h2 : MacOf m0 b m2) (x : List Nat) : m1.Sum x = m2.Sum x := by
  obtain ⟨ok1, r1, p1, v1⟩ := h1
  obtain ⟨ok2, r2, p2, v2⟩ := h2
  have hv : (m1.impl.h, m1.pending) = (m2.impl.h, m2.pending) := by rw [v1, v2]
  have hh : m1.impl.h = m2.impl.h := congrArg Prod.fst hv
  have hpend : m1.pending = m2.pending := congrArg Prod.snd hv
  have hi : m1.impl = m2.impl := by
    cases hm1 : m1.impl; cases hm2 : m2.impl
    simp only [hm1, hm2] at r1 r2 p1 p2 hh
    simp [hh, r1, r2, p1, p2]
  unfold Poly1305.Sum
  rw [finish_eq_of_view m1 m2 ok1 ok2 hi hpend]

theorem finish_length (impl : implState) : impl.finish.length = 16 := by
  simp [implState.finish, putLe32]

theorem Sum_nil_length (m : Poly1305) : (m.Sum []).length = 16 := by
  unfold Poly1305.Sum Poly1305.finish
  split <;> simp [finish_length]

end poly1305

namespace archive

open xchacha20poly1305

theorem KeyStream_length (P : Prims) (key nonce : List Nat) (pos n : Nat) :
    (KeyStream P key nonce pos n).length = n := by
  simp [KeyStream]

theorem KeyStream_add (P : Prims) (key nonce : List Nat) (pos a b : Nat) :
    KeyStream P key nonce pos (a + b)
      = KeyStream P key nonce pos a ++ KeyStream P key nonce (pos + a) b := by
  simp [KeyStream, List.range_add, List.map_append, Nat.add_assoc]

theorem xorAt_length (P : Prims) (key nonce : List Nat) (pos : Nat) (l : List Nat) :
    (xorAt P key nonce pos l).length = l.length := by
  simp [xorAt, KeyStream_length]

theorem xorAt_nil (P : Prims) (key nonce : List Nat) (pos : Nat) :
    xorAt P key nonce pos [] = [] := by
  simp [xorAt]

theorem xorAt_append (P : Prims) (key nonce : List Nat) (pos : Nat) (l1 l2 : List Nat) :
    xorAt P key nonce pos (l1 ++ l2)
      = xorAt P key nonce pos l1 ++ xorAt P key nonce (pos + l1.length) l2 := by
  unfold xorAt
  rw [List.length_append, KeyStream_add]
  exact List.zipWith_append _ _ _ _ _ (by rw [KeyStream_length])

theorem zipWith_xor_cancel (l k : List Nat) (h : l.length = k.length) :
    List.zipWith Nat.xor (List.zipWith Nat.xor l k) k = l := by
  induction l generalizing k with
  | nil => simp
  | cons x xs ih =>
    cases k with
    | nil => simp at h
    | cons y ys =>
      simp only [List.zipWith_cons_cons, List.cons.injEq]
      refine ⟨?_, ih ys (by simpa using h)⟩
      exact Nat.xor_cancel_right y x

theorem xorAt_xorAt (P : Prims) (key nonce : List Nat) (pos : Nat) (l : List Nat) :
    xorAt P key nonce pos (xorAt P key nonce pos l) = l := by
  unfold xorAt
  rw [List.length_zipWith, KeyStream_length, Nat.min_self]
  exact zipWith_xor_cancel l _ (by rw [KeyStream_length])

theorem xorAt_take (P : Prims) (key nonce : List Nat) (pos k : Nat) (l : List Nat) :
    (xorAt P key nonce pos l).take k = xorAt P key nonce pos (l.take k) := by
  by_cases hk : k ≤ l.length
  · conv_lhs => rw [← List.take_append_drop k l, xorAt_append]
    have hl : (xorAt P key nonce pos (List.take k l)).length = k := by
      rw [xorAt_length, List.length_take]; omega
    rw [List.take_append_of_le_length (by rw [hl]), List.take_of_length_le (by rw [hl])]
  · rw [List.take_of_length_le (by rw [xorAt_length]; omega),
      List.take_of_length_le (by omega)]

theorem xorAt_drop (P : Prims) (key nonce : List Nat) (pos k : Nat) (l : List Nat)
    (hk : k ≤ l.length) :
    (xorAt P key nonce pos l).drop k = xorAt P key nonce (pos + k) (l.drop k) := by
  conv_lhs => rw [← List.take_append_drop k l, xorAt_append]
  have hl : (xorAt P key nonce pos (List.take k l)).length = k := by
    rw [xorAt_length, List.length_take]; omega
  rw [List.drop_append_of_le_length (by rw [hl]), List.drop_of_length_le (by rw [hl]),
    List.nil_append, List.length_take, Nat.min_eq_left hk]

/-! ### The writing side -/

theorem WInv.step_write {P : Prims} {key nonce w0 plain : List Nat} {a : Archive}
    (h : WInv P key nonce w0 plain a) (b : List Nat) :
    WInv P key nonce w0 (plain ++ b) (a.Write P b) := by
  obtain ⟨hk, hn, hp, hw, hm⟩ := h
  have hx : XORKeyStream P a.x b = xorAt P key nonce (64 + plain.length) b := by
    simp [XORKeyStream, xorAt, hk, hn, hp]
  refine ⟨?_, ?_, ?_, ?_, ?_⟩
  · simp [Archive.Write, Encrypt, hk]
  · simp [Archive.Write, Encrypt, hn]
  · simp [Archive.Write, Encrypt, hp, Nat.add_assoc]
  · simp [Archive.Write, Encrypt, hw, hx, xorAt_append]
  · simp only [Archive.Write, Encrypt, hx, xorAt_append]
    exact hm.step _

theorem WInv.writeChunks {P : Prims} {key nonce w0 : List Nat} (chunks : List (List Nat)) :
    ∀ {plain : List Nat} {a : Archive}, WInv P key nonce w0 plain a →
      WInv P key nonce w0 (plain ++ chunks.flatten) (writeChunks P a chunks) := by
  induction chunks with
  | nil => intro plain a h; simpa [writeChunks] using h
  | cons c cs ih =>
    intro plain a h
    have := ih (h.step_write c)
    simpa [writeChunks, List.append_assoc] using this

theorem writeChunks_append (P : Prims) (a : Archive) (c1 c2 : List (List Nat)) :
    writeChunks P a (c1 ++ c2) = writeChunks P (writeChunks P a c1) c2 := by
  simp [writeChunks, List.foldl_append]

theorem Writer.Add_emit (P : Prims) {ω : Type} (L : WriteLayers ω) (w : Writer ω)
    (header : Header) :
    (w.Add P L header).2
      = { layers := (emitAdd L w.layers header).2
          archive := writeChunks P w.archive (emitAdd L w.layers header).1 } := rfl

theorem Writer.Copy_emit (P : Prims) {ω : Type} (L : WriteLayers ω) (w : Writer ω)
    (body : List Nat) (rerr : Option Err) (size : Int) :
    (w.Copy P L body rerr size).2
      = { layers := (emitCopy L w.layers body rerr size).2
          archive := writeChunks P w.archive (emitCopy L w.layers body rerr size).1 } := by
  unfold Writer.Copy emitCopy
  cases h : (L.Copy w.layers body rerr).err with
  | some e => simp [h]
  | none =>
    by_cases hn : (L.Copy w.layers body rerr).n < size
    · simp [h, hn]
    · simp [h, hn, writeChunks_append]

theorem Writer.run_emit (P : Prims) {ω : Type} (L : WriteLayers ω) (ops : List Op) :
    ∀ w : Writer ω, (Writer.run P L ops w).2
      = { layers := (emitOps L ops w.layers).2
          archive := writeChunks P w.archive (emitOps L ops w.layers).1 } := by
  induction ops with
  | nil => intro w; simp [Writer.run, emitOps, writeChunks]
  | cons op ops ih =>
    intro w
    cases op with
    | add header =>
      simp only [Writer.run, emitOps]
      rw [ih, Writer.Add_emit]
      simp [writeChunks_append]
    | copy body rerr size =>
      simp only [Writer.run, emitOps]
      rw [ih, Writer.Copy_emit]
      simp [writeChunks_append]

theorem Writer.Finish_emit (P : Prims) {ω : Type} (L : WriteLayers ω) (w : Writer ω) :
    ((w.Finish P L).2).archive = writeChunks P w.archive (emitFinish L w.layers)
      ∧ ∀ tag, (w.Finish P L).1 = (some tag, none) →
          tag = Tag (writeChunks P w.archive (emitFinish L w.layers)).x [] := by
  unfold Writer.Finish emitFinish
  cases h : (L.CloseTar w.layers).err with
  | some e => simp [h]
  | none =>
    cases h2 : (L.CloseGzip (L.CloseTar w.layers).st).err with
    | some e => simp [h, h2, writeChunks_append]
    | none =>
      simp only [h, h2, writeChunks_append, true_and]
      intro tag ht
      simp only [Prod.mk.injEq, Option.some.injEq, and_true] at ht
      exact ht.symm

end archive

/-! ### Readers -/

theorem Source.Read_zero (s : Source) : s.Read 0 = (([], none), s) := by
  simp [Source.Read]

theorem Source.Read_nil (s : Source) (n : Nat) (hn : n ≠ 0) (hd : s.data = []) :
    s.Read n = (([], some (s.err.getD Err.EOF)), s) := by
  simp [Source.Read, hn, hd]

theorem Source.Read_cons (s : Source) (n : Nat) (hn : n ≠ 0) (hd : s.data ≠ []) :
    ∃ k, 0 < k ∧ k ≤ n ∧
      s.Read n = ((s.data.take k, none), { s with data := s.data.drop k, cuts := s.cuts.tail }) := by
  refine ⟨min n (max 1 (s.cuts.headD n)), by omega, by omega, ?_⟩
  simp [Source.Read, hn, hd]

theorem readFullLoop_Source (fuel : Nat) :
    ∀ (s : Source) (need : Nat) (acc : List Nat), need < fuel → need ≤ s.data.length →
      (readFullLoop Source.Read fuel s need acc).1 = (acc ++ s.data.take need, none)
        ∧ (readFullLoop Source.Read fuel s need acc).2.data = s.data.drop need
        ∧ (readFullLoop Source.Read fuel s need acc).2.err = s.err := by
  induction fuel with
  | zero => intro s need acc h; omega
  | succ fuel ih =>
    intro s need acc hf hl
    by_cases hz : need = 0
    · simp [readFullLoop, hz]
    · have hne : s.data ≠ [] := by
        intro h; rw [h] at hl; simp at hl; omega
      obtain ⟨k, hk0, hkn, hr⟩ := Source.Read_cons s need hz hne
      have hkl : k ≤ s.data.length := by omega
      have hlen : (List.take k s.data).length = k := by
        rw [List.length_take]; omega
      simp only [readFullLoop, hz, if_false, hr, hlen]
      obtain ⟨i1, i2, i3⟩ := ih { s with data := s.data.drop k, cuts := s.cuts.tail }
        (need - k) (acc ++ s.data.take k) (by omega)
        (by simp only [List.length_drop]; omega)
      refine ⟨?_, ?_, ?_⟩
      · rw [i1, List.append_assoc]
        congr 2
        simp only
        rw [← List.take_add]
        congr 1; omega
      · rw [i2]; simp only [List.drop_drop]; congr 1; omega
      · rw [i3]

theorem Source_ReadFull_spec (s : Source) (n : Nat) (h : n ≤ s.data.length) :
    (ReadFull s n).1 = (s.data.take n, none) ∧ (ReadFull s n).2.data = s.data.drop n
      ∧ (ReadFull s n).2.err = s.err := by
  have := readFullLoop_Source (n + 1) s n [] (by omega) h
  simpa [ReadFull] using this

namespace archive

open xchacha20poly1305

theorem xorAt_drop_any (P : Prims) (key nonce : List Nat) (pos k : Nat) (l : List Nat) :
    (xorAt P key nonce pos l).drop k
      = xorAt P key nonce (pos + (l.take k).length) (l.drop k) := by
  by_cases hk : k ≤ l.length
  · rw [xorAt_drop P key nonce pos k l hk, List.length_take, Nat.min_eq_left hk]
  · rw [List.drop_of_length_le (by rw [xorAt_length]; omega),
      List.drop_of_length_le (by omega), xorAt_nil]

/-- One `Archive.Read` against one `Read` of the decrypted stream. -/
theorem Sim.read_step {P : Prims} {a : Archive} {s : Source} (h : Sim P a s) (n : Nat) :
    (a.Read P n).1 = (s.Read n).1 ∧ Sim P (a.Read P n).2 (s.Read n).2 := by
  obtain ⟨hd, hc, he⟩ := h
  by_cases hn : n = 0
  · subst hn
    simp only [Archive.Read, Source.Read_zero, Decrypt, XORKeyStream, List.length_nil,
      List.zipWith_nil_left, Nat.add_zero, true_and]
    exact ⟨hd, hc, he⟩
  · by_cases hnil : a.Reader.data = []
    · have hs : s.data = [] := by rw [hd, hnil, xorAt_nil]
      simp only [Archive.Read, Source.Read_nil _ n hn hnil, Source.Read_nil _ n hn hs, Decrypt,
        XORKeyStream, List.length_nil, List.zipWith_nil_left, Nat.add_zero, he, true_and]
      exact ⟨hd, hc, he⟩
    · have hs : s.data ≠ [] := by
        intro h0
        apply hnil
        have := congrArg List.length h0
        rw [hd, xorAt_length] at this
        exact List.length_eq_zero.mp (by simpa using this)
      have e1 : a.Reader.Read n = ((a.Reader.data.take (min n (max 1 (a.Reader.cuts.headD n))),
          none), { a.Reader with
            data := a.Reader.data.drop (min n (max 1 (a.Reader.cuts.headD n)))
            cuts := a.Reader.cuts.tail }) := by
        simp [Source.Read, hn, hnil]
      have e2 : s.Read n = ((s.data.take (min n (max 1 (a.Reader.cuts.headD n))),
          none), { s with
            data := s.data.drop (min n (max 1 (a.Reader.cuts.headD n)))
            cuts := s.cuts.tail }) := by
        simp [Source.Read, hn, hs, hc]
      simp only [Archive.Read, e1, e2, Decrypt, XORKeyStream]
      refine ⟨?_, ?_, ?_, ?_⟩
      · rw [hd, xorAt_take]; rfl
      · simp only
        rw [hd, xorAt_drop_any]
      · simp only; rw [hc]
      · simp only; exact he

theorem Pull.run_read (P : Prims) {α : Type} (n : Nat) (k : List Nat × Option Err → Pull α)
    (a : Archive) :
    Pull.run P (Pull.read n k) a = Pull.run P (k (a.Read P n).1) (a.Read P n).2 := rfl

theorem Pull.runPlain_read {α : Type} (n : Nat) (k : List Nat × Option Err → Pull α)
    (s : Source) :
    Pull.runPlain (Pull.read n k) s = Pull.runPlain (k (s.Read n).1) (s.Read n).2 := rfl

/-- A computation of the reading layers sees through the archive the decrypted
stream. -/
theorem Sim.run_plain {P : Prims} {α : Type} (prog : Pull α) :
    ∀ {a : Archive} {s : Source}, Sim P a s →
      (Pull.run P prog a).1 = (Pull.runPlain prog s).1
        ∧ Sim P (Pull.run P prog a).2 (Pull.runPlain prog s).2 := by
  induction prog with
  | ret v => intro a s h; exact ⟨rfl, h⟩
  | read n k ih =>
    intro a s h
    obtain ⟨h1, h2⟩ := h.read_step n
    rw [Pull.run_read, Pull.runPlain_read, ← h1]
    exact ih (a.Read P n).1 h2

/-- One `Archive.Read` keeps the reading invariant. -/
theorem RInv.read_keeps {P : Prims} {key nonce tag ct : List Nat} {a : Archive}
    (h : RInv P key nonce tag ct a) (n : Nat) : RInv P key nonce tag ct (a.Read P n).2 := by
  obtain ⟨hk, hn, ht, consumed, hc, hp, hm⟩ := h
  have key1 : ∀ b s2 e, a.Reader.Read n = ((b, e), s2) → b ++ s2.data = a.Reader.data →
      RInv P key nonce tag ct (a.Read P n).2 := by
    intro b s2 e hr hb
    simp only [Archive.Read, hr, Decrypt]
    refine ⟨hk, hn, ht, consumed ++ b, ?_, ?_, hm.step b⟩
    · simp only; rw [List.append_assoc, hb, hc]
    · simp only [hp, List.length_append, Nat.add_assoc]
  by_cases hz : n = 0
  · subst hz
    exact key1 [] a.Reader none (Source.Read_zero _) (by simp)
  · by_cases hnil : a.Reader.data = []
    · exact key1 [] a.Reader _ (Source.Read_nil _ n hz hnil) (by simp)
    · obtain ⟨k, _, _, hr⟩ := Source.Read_cons a.Reader n hz hnil
      exact key1 _ _ _ hr (by simp)

/-- A computation of the reading layers keeps the reading invariant. -/
theorem RInv.run_keeps {P : Prims} {key nonce tag ct : List Nat} {α : Type} (prog : Pull α) :
    ∀ {a : Archive}, RInv P key nonce tag ct a → RInv P key nonce tag ct (Pull.run P prog a).2 := by
  induction prog with
  | ret v => intro a h; exact h
  | read n k ih =>
    intro a h
    rw [Pull.run_read]
    exact ih (a.Read P n).1 (h.read_keeps n)

end archive

namespace archive

open xchacha20poly1305

theorem fit_length (n : Nat) (l : List Nat) : (fit n l).length = n := by
  simp [fit]

theorem Init_ok_spec (P : Prims) (x : XChaCha20Poly1305) (key nonce : List Nat)
    (hk : key.length = 32) :
    Init P x key nonce
      = ({ key := key, nonce := nonce, pos := 64
           mac := poly1305.Poly1305.Init (KeyStream P key nonce 0 32) }, none) := by
  simp [Init, hk, xchacha20poly1305.KeySize, poly1305.KeySize]

/-- The archive that `NewArchiveForWriter` returns for a 32-byte key. -/
theorem NewArchiveForWriter_spec (P : Prims) (w key bytes : List Nat) (hk : key.length = 32) :
    ∃ a, NewArchiveForWriter P w key (.ok bytes)
        = ((some a, none), w ++ List.replicate 16 0 ++ fit 24 bytes)
      ∧ WInv P key (fit 24 bytes) (w ++ List.replicate 16 0 ++ fit 24 bytes) [] a := by
  refine ⟨{ x := { key := key, nonce := fit 24 bytes, pos := 64
                   mac := poly1305.Poly1305.Init (KeyStream P key (fit 24 bytes) 0 32) }
            tag := List.replicate 16 0, Reader := noSource
            Writer := w ++ List.replicate 16 0 ++ fit 24 bytes }, ?_, ?_⟩
  · simp only [NewArchiveForWriter, NonceSize, Init_ok_spec P zero key _ hk, TagSize]
  · refine ⟨rfl, rfl, rfl, ?_, ?_⟩
    · simp [xorAt_nil]
    · rw [xorAt_nil]
      exact poly1305.MacOf.refl _ (poly1305.Init_ok _)

/-- The archive that `NewArchiveFromReader` returns for a 32-byte key on a stream
that starts with a tag and a nonce. -/
theorem NewArchiveFromReader_spec (P : Prims) (s : Source) (key tag nonce ct : List Nat)
    (hk : key.length = 32) (ht : tag.length = 16) (hn : nonce.length = 24)
    (hd : s.data = tag ++ nonce ++ ct) :
    ∃ a, NewArchiveFromReader P s key = (some a, none)
      ∧ RInv P key nonce tag ct a ∧ a.Reader.data = ct ∧ a.Reader.err = s.err
      ∧ a.x.pos = 64 := by
  obtain ⟨r1, r2, r3⟩ := Source_ReadFull_spec s 16 (by rw [hd]; simp; omega)
  have ht2 : s.data.take 16 = tag := by
    rw [hd, List.append_assoc, List.take_append_of_le_length (by omega),
      List.take_of_length_le (by omega)]
  have hd2 : s.data.drop 16 = nonce ++ ct := by
    rw [hd, List.append_assoc, List.drop_append_of_le_length (by omega),
      List.drop_of_length_le (by omega), List.nil_append]
  rw [ht2] at r1
  rw [hd2] at r2
  obtain ⟨q1, q2, q3⟩ := Source_ReadFull_spec (ReadFull s 16).2 24 (by rw [r2]; simp; omega)
  rw [r2, List.take_append_of_le_length (by omega), List.take_of_length_le (by omega)] at q1
  rw [r2, List.drop_append_of_le_length (by omega), List.drop_of_length_le (by omega),
    List.nil_append] at q2
  rcases h1 : ReadFull s 16 with ⟨⟨b1, e1⟩, s1⟩
  rw [h1] at r1 r2 r3 q1 q2 q3
  simp only [Prod.mk.injEq] at r1
  obtain ⟨rfl, rfl⟩ := r1
  rcases h2 : ReadFull s1 24 with ⟨⟨b2, e2⟩, s2⟩
  rw [h2] at q1 q2 q3
  simp only [Prod.mk.injEq] at q1
  obtain ⟨rfl, rfl⟩ := q1
  simp only at r2 r3 q2 q3
  refine ⟨{ x := { key := key, nonce := b2, pos := 64
                   mac := poly1305.Poly1305.Init (KeyStream P key b2 0 32) }
            tag := b1, Reader := s2, Writer := [] }, ?_, ?_, ?_, ?_, ?_⟩
  · simp only [NewArchiveFromReader, TagSize, NonceSize, h1, h2, Init_ok_spec P zero key _ hk]
  · refine ⟨rfl, rfl, rfl, [], ?_, rfl, poly1305.MacOf.refl _ (poly1305.Init_ok _)⟩
    simpa using q2
  · exact q2
  · simp only; rw [q3, r3]
  · rfl

/-- The discarding copy reads the archive to the end. -/
theorem discardLoop_spec (P : Prims) (key nonce tag ct : List Nat) (fuel : Nat) :
    ∀ a : Archive, RInv P key nonce tag ct a → a.Reader.data.length < fuel →
      ∃ a2, discardLoop P fuel a
          = some (if a.Reader.err.getD Err.EOF = Err.EOF then none
              else some (a.Reader.err.getD Err.EOF), a2)
        ∧ RInv P key nonce tag ct a2 ∧ a2.Reader.data = [] := by
  induction fuel with
  | zero => intro a _ h; omega
  | succ fuel ih =>
    intro a hinv hlen
    have hinv2 := hinv.read_keeps 8192
    by_cases hnil : a.Reader.data = []
    · have hr := Source.Read_nil a.Reader 8192 (by omega) hnil
      refine ⟨(a.Read P 8192).2, ?_, hinv2, ?_⟩
      · simp only [discardLoop, Archive.Read, hr, Decrypt]
      · simp only [Archive.Read, hr, Decrypt]
        exact hnil
    · obtain ⟨k, hk0, _, hr⟩ := Source.Read_cons a.Reader 8192 (by omega) hnil
      have hpos : 0 < a.Reader.data.length := List.length_pos.mpr hnil
      have hstep : discardLoop P (fuel + 1) a = discardLoop P fuel (a.Read P 8192).2 := by
        simp only [discardLoop, Archive.Read, hr, Decrypt]
      have hdata : (a.Read P 8192).2.Reader.data = a.Reader.data.drop k := by
        simp only [Archive.Read, hr, Decrypt]
      have herr : (a.Read P 8192).2.Reader.err = a.Reader.err := by
        simp only [Archive.Read, hr, Decrypt]
      obtain ⟨a2, h1, h2, h3⟩ := ih (a.Read P 8192).2 hinv2
        (by rw [hdata, List.length_drop]; omega)
      exact ⟨a2, by rw [hstep, h1, herr], h2, h3⟩

/-- An archive that has read a payload to the end verifies exactly when its stored
tag is the tag of a MAC that has seen the same payload. -/
theorem RInv.Verify_exhausted {P : Prims} {key nonce tag ct : List Nat} {a : Archive}
    (h : RInv P key nonce tag ct a) (hnil : a.Reader.data = []) (m : poly1305.Poly1305)
    (hm : poly1305.MacOf (poly1305.Poly1305.Init (KeyStream P key nonce 0 32)) ct m) :
    a.Verify = decide (tag = m.Sum []) := by
  obtain ⟨_, _, ht, consumed, hc, _, hmac⟩ := h
  rw [hnil, List.append_nil] at hc
  subst hc
  simp only [Archive.Verify, Tag, ht, hmac.sum_eq hm]

/-- The archive of a writer after `NewWriter`, a sequence of calls and `Finish`:
its writer holds the zero tag, the nonce and the encryption of the stream of the
layers, and the tag returned is the tag of its MAC. -/
theorem Writer.pipeline (P : Prims) {ω : Type} (L : WriteLayers ω) (key bytes : List Nat)
    (ops : List Op) (hk : key.length = 32) :
    ∃ w0 : Writer ω, (NewWriter P L [] key (.ok bytes)).1 = (some w0, none)
      ∧ WInv P key (fit 24 bytes) (List.replicate 16 0 ++ fit 24 bytes) (plainStream L ops)
          ((Writer.run P L ops w0).2.Finish P L).2.archive
      ∧ ∀ tag, ((Writer.run P L ops w0).2.Finish P L).1 = (some tag, none) →
          tag = ((Writer.run P L ops w0).2.Finish P L).2.archive.x.mac.Sum [] := by
  obtain ⟨a, ha, hinv⟩ := NewArchiveForWriter_spec P [] key bytes hk
  refine ⟨{ layers := L.start, archive := a }, ?_, ?_, ?_⟩
  · simp only [NewWriter, ha]
  · obtain ⟨f1, _⟩ := Writer.Finish_emit P L (Writer.run P L ops { layers := L.start, archive := a }).2
    rw [f1, Writer.run_emit]
    simp only
    have h1 := WInv.writeChunks (emitOps L ops L.start).1 hinv
    have h2 := WInv.writeChunks (emitFinish L (emitOps L ops L.start).2) h1
    simpa [plainStream] using h2
  · intro tag ht
    obtain ⟨f1, f2⟩ := Writer.Finish_emit P L (Writer.run P L ops { layers := L.start, archive := a }).2
    rw [f1]
    exact f2 tag ht

end archive

/-! ### Headers -/

theorem Buffer.ReadFull_file (b : Buffer) (n : Nat) (h : b.offset + n ≤ b.buffer.length) :
    b.ReadFull n = (((b.buffer.drop b.offset).take n, none), { b with offset := b.offset + n }) := by
  unfold Buffer.ReadFull
  by_cases hn : n = 0
  · subst hn; simp [readFullLoop]
  · have h1 : ¬ b.offset > b.buffer.length := by omega
    have h2 : ¬ (List.drop b.offset b.buffer).length = 0 := by
      rw [List.length_drop]; omega
    have h3 : min n (List.drop b.offset b.buffer).length = n := by
      rw [List.length_drop]; omega
    have hr : b.Read n = (((b.buffer.drop b.offset).take n, none),
        { b with offset := b.offset + n }) := by
      simp only [Buffer.Read, h1, h2, if_false, h3]
    have hl : (List.take n (List.drop b.offset b.buffer)).length = n := by
      rw [List.length_take, List.length_drop]; omega
    obtain ⟨m, rfl⟩ : ∃ m, n = m + 1 := ⟨n - 1, by omega⟩
    simp only [readFullLoop, hr, hl, Nat.sub_self, List.nil_append, if_true, if_false,
      Nat.succ_ne_zero]

theorem Buffer.ReadFull_short (b : Buffer) (n : Nat) (hn : n ≠ 0)
    (h : b.buffer.length < b.offset + n) :
    ∃ bytes e file, b.ReadFull n = ((bytes, some e), file) := by
  unfold Buffer.ReadFull
  simp only [readFullLoop, hn, if_false]
  by_cases h1 : b.offset > b.buffer.length
  · simp only [Buffer.Read, h1, if_true, List.length_nil, Nat.sub_zero, hn, if_false,
      List.append_nil, gt_iff_lt, Nat.lt_irrefl, false_and]
    exact ⟨_, _, _, rfl⟩
  · by_cases h2 : (List.drop b.offset b.buffer).length = 0
    · simp only [Buffer.Read, h1, h2, if_true, if_false, List.length_nil, Nat.sub_zero, hn,
        List.append_nil, gt_iff_lt, Nat.lt_irrefl, false_and]
      exact ⟨_, _, _, rfl⟩
    · have hk : min n (List.drop b.offset b.buffer).length = b.buffer.length - b.offset := by
        rw [List.length_drop]; omega
      have hlt : b.buffer.length - b.offset < n := by omega
      have hpos : 0 < b.buffer.length - b.offset := by
        rw [List.length_drop] at h2; omega
      simp only [Buffer.Read, h1, h2, if_false, hk]
      have hl : (List.take (b.buffer.length - b.offset) (List.drop b.offset b.buffer)).length
          = b.buffer.length - b.offset := by
        rw [List.length_take, List.length_drop]; omega
      rw [hl]
      obtain ⟨m, hm⟩ : ∃ m, n = m + 1 := ⟨n - 1, by omega⟩
      subst hm
      have hneed : m + 1 - (b.buffer.length - b.offset) ≠ 0 := by omega
      have hempty : (List.drop (b.offset + (b.buffer.length - b.offset)) b.buffer).length = 0 := by
        rw [List.length_drop]; omega
      have hoff : ¬ b.offset + (b.buffer.length - b.offset) > b.buffer.length := by omega
      simp only [readFullLoop, hneed, if_false, Buffer.Read, hoff, hempty, if_true,
        List.length_nil, Nat.sub_zero, List.append_nil]
      split <;> exact ⟨_, _, _, rfl⟩

theorem getD_take_drop (l : List Nat) (off n i : Nat) (h : i < n) :
    ((l.drop off).take n).getD i 0 = l.getD (off + i) 0 := by
  simp [List.getD_eq_getElem?_getD, List.getElem?_take, h]

theorem PasswordArchive.Reader_eq_password (P : Prims) {δ : Type} (L : ReadLayers δ) (a : PasswordArchive)
    (cuts1 cuts2 : List Nat) :
    a.Reader P L cuts1 cuts2 =
      match (binary.Read a.File binary.ByteOrder.LE a.fields).1 with
      | some e => ReaderResult.fail [Event.readHeader 0] e
      | none =>
        if a.parsed.Version ≠ Arc.Version then
          ReaderResult.fail [Event.readHeader 0] Err.ErrInvalidVersion
        else if a.parsed.Type_ = Arc.Curve448 then
          ReaderResult.fail [Event.readHeader 0] Err.ErrCurve448Archive
        else if a.parsed.Type_ = Arc.Shard then
          ReaderResult.fail [Event.readHeader 0] Err.ErrShardArchive
        else
          match a.parsed.Key P with
          | .error e => ReaderResult.fail [Event.readHeader 0, Event.deriveKey] e
          | .ok key =>
            (newArchiveReader P L key [a.parsed.File] cuts1 cuts2).after
              [Event.readHeader 0, Event.deriveKey] := by
  unfold PasswordArchive.Reader PasswordArchive.parsed
  rcases binary.Read a.File binary.ByteOrder.LE a.fields with ⟨e, fs, file⟩
  cases e <;> rfl

theorem PasswordArchive.header_password (a : PasswordArchive)
    (h : a.File.offset + 42 ≤ a.File.buffer.length) :
    (binary.Read a.File binary.ByteOrder.LE a.fields).1 = none
      ∧ a.parsed.Version = a.File.byteAt 0 % 256
      ∧ a.parsed.Type_ = a.File.byteAt 1 % 256
      ∧ a.parsed.File = { a.File with offset := a.File.offset + 42 }
      ∧ a.parsed.Password = a.Password := by
  have hs : binary.size a.fields = 42 := rfl
  unfold PasswordArchive.parsed
  simp only [binary.Read, hs, Buffer.ReadFull_file a.File 42 h]
  simp [binary.readFields, binary.skip, binary.decodeField, PasswordArchive.fields,
    PasswordArchive.assign, binary.Kind.Size, Buffer.byteAt, getD_take_drop]

theorem PasswordArchive.header_short (a : PasswordArchive)
    (h : a.File.buffer.length < a.File.offset + 42) :
    ∃ e, (binary.Read a.File binary.ByteOrder.LE a.fields).1 = some e := by
  have hs : binary.size a.fields = 42 := rfl
  obtain ⟨bytes, e, file, hr⟩ := Buffer.ReadFull_short a.File 42 (by omega) h
  exact ⟨e, by simp only [binary.Read, hs, hr]⟩

theorem Curve448Archive.Reader_eq_curve (P : Prims) {δ : Type} (L : ReadLayers δ)
    (a : Curve448Archive) (cuts1 cuts2 : List Nat) :
    a.Reader P L cuts1 cuts2 =
      match (binary.Read a.File binary.ByteOrder.LE a.fields).1 with
      | some e => ReaderResult.fail [Event.readHeader 0] e
      | none =>
        if a.parsed.Version ≠ Arc.Version then
          ReaderResult.fail [Event.readHeader 0] Err.ErrInvalidVersion
        else if a.parsed.Type_ = Arc.Password then
          ReaderResult.fail [Event.readHeader 0] Err.ErrPasswordArchive
        else if a.parsed.Type_ = Arc.Shard then
          ReaderResult.fail [Event.readHeader 0] Err.ErrShardArchive
        else
          match a.parsed.PrivateKey with
          | none => ReaderResult.fail [Event.readHeader 0, Event.deriveKey] Err.panic
          | some priv =>
            match ComputeSharedKey P a.parsed.Ephemeral priv KeySize with
            | (_, some e) => ReaderResult.fail [Event.readHeader 0, Event.deriveKey] e
            | (none, none) => ReaderResult.fail [Event.readHeader 0, Event.deriveKey] Err.panic
            | (some key, none) =>
              (newArchiveReader P L key [a.parsed.File] cuts1 cuts2).after
                [Event.readHeader 0, Event.deriveKey] := by
  unfold Curve448Archive.Reader Curve448Archive.parsed
  rcases binary.Read a.File binary.ByteOrder.LE a.fields with ⟨e, fs, file⟩
  cases e <;> rfl

theorem Curve448Archive.header_curve (a : Curve448Archive)
    (h : a.File.offset + 58 ≤ a.File.buffer.length) :
    (binary.Read a.File binary.ByteOrder.LE a.fields).1 = none
      ∧ a.parsed.Version = a.File.byteAt 0 % 256
      ∧ a.parsed.Type_ = a.File.byteAt 1 % 256
      ∧ a.parsed.File = { a.File with offset := a.File.offset + 58 } := by
  have hs : binary.size a.fields = 58 := rfl
  unfold Curve448Archive.parsed
  simp only [binary.Read, hs, Buffer.ReadFull_file a.File 58 h]
  simp [binary.readFields, binary.skip, binary.decodeField, Curve448Archive.fields,
    Curve448Archive.assign, binary.Kind.Size, Buffer.byteAt, getD_take_drop]

theorem ShardArchive.header_shard (a : ShardArchive)
    (h : a.File.offset + 35 ≤ a.File.buffer.length) :
    (binary.Read a.File binary.ByteOrder.LE a.fields).1 = none
      ∧ a.parsed.Version = a.File.byteAt 0 % 256
      ∧ a.parsed.Type_ = a.File.byteAt 1 % 256
      ∧ a.parsed.File = { a.File with offset := a.File.offset + 35 } := by
  have hs : binary.size a.fields = 35 := rfl
  unfold ShardArchive.parsed
  simp only [binary.Read, hs, Buffer.ReadFull_file a.File 35 h]
  simp [binary.readFields, binary.skip, binary.decodeField, ShardArchive.fields,
    ShardArchive.assign, binary.Kind.Size, Buffer.byteAt, getD_take_drop]

theorem ShardArchive.readShards_cons (shard : ShardArchive) (rest : List ShardArchive) (i : Nat)
    (shares : List (Nat × List Nat)) :
    ShardArchive.readShards (shard :: rest) i shares =
      match (binary.Read shard.File binary.ByteOrder.LE shard.fields).1 with
      | some e => .error (e, [Event.readHeader i])
      | none =>
        if shard.parsed.Version ≠ Arc.Version then
          .error (Err.ErrInvalidVersion, [Event.readHeader i])
        else if shard.parsed.Type_ = Arc.Password then
          .error (Err.ErrPasswordArchive, [Event.readHeader i])
        else if shard.parsed.Type_ = Arc.Curve448 then
          .error (Err.ErrCurve448Archive, [Event.readHeader i])
        else
          match ShardArchive.readShards rest (i + 1)
              (mapSet shares shard.parsed.ID shard.parsed.Share) with
          | .error (e, t) => .error (e, Event.readHeader i :: t)
          | .ok (shares2, rest2, t) =>
            .ok (shares2, shard.parsed :: rest2, Event.readHeader i :: t) := by
  unfold ShardArchive.parsed
  rw [ShardArchive.readShards]
  rcases binary.Read shard.File binary.ByteOrder.LE shard.fields with ⟨e, fs, file⟩
  cases e <;> rfl

/-! ### Writers -/

theorem rawWrite_range (p : List Nat) (post : List Buffer) :
    ∀ pre : List Buffer,
      rawWrite p ((List.range' pre.length post.length).map some) (pre ++ post)
        = .ok (pre ++ post.map (fun f => f.Write p)) := by
  induction post with
  | nil => intro pre; simp [rawWrite]
  | cons f fs ih =>
    intro pre
    have hget : (pre ++ f :: fs).get? pre.length = some f := by
      rw [List.get?_eq_getElem?, List.getElem?_append_right (Nat.le_refl _)]
      simp
    have hset : (pre ++ f :: fs).set pre.length (f.Write p) = (pre ++ [f.Write p]) ++ fs := by
      simp
    simp only [List.length_cons, List.range'_succ, List.map_cons, rawWrite, hget, hset]
    have := ih (pre ++ [f.Write p])
    simp only [List.length_append, List.length_singleton] at this
    rw [this]
    simp

theorem rawWrite_all (p : List Nat) (files : List Buffer) :
    rawWrite p ((List.range files.length).map some) files
      = .ok (files.map (fun f => f.Write p)) := by
  have := rawWrite_range p files []
  simpa [List.range_eq_range'] using this

theorem patchFiles_ok (tag : List Nat) (tagAt : Nat) :
    ∀ files out, patchFiles tag tagAt files = .ok out →
      out = files.map (fun f =>
        { f with buffer := f.buffer.take tagAt ++ tag ++ f.buffer.drop (tagAt + tag.length) }) := by
  intro files
  induction files with
  | nil => intro out h; simp [patchFiles] at h; subst h; rfl
  | cons f fs ih =>
    intro out h
    simp only [patchFiles, Buffer.WriteAt] at h
    split at h
    · simp at h
    · rename_i f2 hf
      split at h
      · simp at h
      · rename_i rest hrest
        simp only [Except.ok.injEq] at h
        split at hf
        · simp only [Option.some.injEq] at hf
          rw [← h, ← hf, ih rest hrest]
          rfl
        · simp at hf

theorem NewWriter_ok_key (P : Prims) {ω : Type} (L : WriteLayers ω) (w key nonce : List Nat)
    (iw : archive.Writer ω)
    (h : (archive.NewWriter P L w key (.ok nonce)).1 = (some iw, none)) : key.length = 32 := by
  by_contra hne
  simp [archive.NewWriter, archive.NewArchiveForWriter, xchacha20poly1305.Init,
    xchacha20poly1305.KeySize, hne] at h

theorem newArchiveWriter_patched (P : Prims) {ω : Type} (L : WriteLayers ω) (key : List Nat)
    (headers : List (List Nat)) (n : Nat) (nonce : List Nat) (w : Writer ω)
    (hne : headers ≠ []) (hlen : ∀ h ∈ headers, h.length = n)
    (hw : newArchiveWriter P L key ((List.range headers.length).map some)
      (headers.map (fun h => { buffer := h, offset := n })) (.ok nonce) = (some w, none)) :
    Patched P L w headers (fit 24 nonce) n := by
  obtain ⟨h0, hs, rfl⟩ : ∃ h0 hs, headers = h0 :: hs := by
    cases headers with
    | nil => exact absurd rfl hne
    | cons a b => exact ⟨a, b, rfl⟩
  simp only [newArchiveWriter, List.map_cons, Buffer.Tell] at hw
  rcases hnw : archive.NewWriter P L [] key (.ok nonce) with ⟨⟨oiw, oe⟩, wb⟩
  rw [hnw] at hw
  simp only [Prod.mk.injEq, Option.some.injEq] at hw
  obtain ⟨hw1, rfl⟩ := hw
  have hk : key.length = 32 := by
    cases oiw with
    | none =>
      simp [archive.NewWriter] at hnw
      split at hnw <;> simp at hnw
    | some iw => exact NewWriter_ok_key P L [] key nonce iw (by rw [hnw])
  obtain ⟨w0, hw0, _, _⟩ := archive.Writer.pipeline P L key nonce [] hk
  rw [hnw] at hw0
  simp only [Prod.mk.injEq, and_true] at hw0
  subst hw0
  subst hw1
  refine ⟨rfl, rfl, hlen, w0, rfl, ?_, ?_⟩
  · obtain ⟨a, ha, hinv⟩ := archive.NewArchiveForWriter_spec P [] key nonce hk
    simp only [archive.NewWriter, ha] at hnw
    simp only [Prod.mk.injEq, Option.some.injEq, and_true] at hnw
    rw [← hnw.1]
    simpa [archive.xorAt_nil] using hinv.2.2.2.1
  · intro ops files hclose
    obtain ⟨w0', hw0', hinv, htag⟩ := archive.Writer.pipeline P L key nonce ops hk
    rw [hnw] at hw0'
    simp only [Prod.mk.injEq, Option.some.injEq, and_true] at hw0'
    subst hw0'
    simp only [Writer.Close, Writer.run] at hclose
    rcases hfin : (archive.Writer.run P L ops w0).2.Finish P L with ⟨⟨otag, oerr⟩, iw2⟩
    rw [hfin] at hclose htag hinv
    cases oerr with
    | some e => simp at hclose
    | none =>
      cases otag with
      | none => simp at hclose
      | some tag =>
        have hT := htag tag rfl
        have htl : tag.length = 16 := by rw [hT]; exact poly1305.Sum_nil_length _
        obtain ⟨_, _, _, hW, _⟩ := hinv
        simp only at hW
        have hraw := rawWrite_all iw2.archive.Writer
          (List.map (fun h => ({ buffer := h, offset := n } : Buffer)) (h0 :: hs))
        simp only [List.length_map] at hraw
        simp only [List.map_cons, List.length_cons] at hraw hclose
        rw [hraw] at hclose
        simp only at hclose
        split at hclose
        · simp at hclose
        · rename_i out hout
          simp only [Prod.mk.injEq, true_and] at hclose
          have := patchFiles_ok tag n _ out hout
          refine ⟨tag, rfl, htl, ?_, ?_⟩
          · have h40 : (List.replicate 16 0 ++ fit 24 nonce).length = 40 := by
              simp [archive.fit_length]
            rw [hW, List.take_append_of_le_length (by omega), List.take_of_length_le (by omega)]
          · rw [← hclose, this]
            have hpatch : ∀ h ∈ h0 :: hs,
                List.take n (h ++ iw2.archive.Writer) ++ tag
                    ++ List.drop (n + tag.length) (h ++ iw2.archive.Writer)
                  = h ++ tag ++ List.drop 16 iw2.archive.Writer := by
              intro h hh
              have hl := hlen h hh
              rw [List.take_append_of_le_length (by omega), List.take_of_length_le (by omega),
                htl, ← hl, List.drop_append]
            simp only [List.map_cons, List.map_map, Buffer.Write, Function.comp_def]
            have h1 := hpatch h0 (by simp)
            rw [h1]
            congr 1
            apply List.map_congr_left
            intro h hh
            exact hpatch h (by simp [hh])

theorem PasswordArchive.Write_header_password (a : PasswordArchive) :
    ∃ out, binary.Write binary.ByteOrder.LE a.fields = .ok out ∧ out.length = 42 := by
  simp [binary.Write, binary.writeFields, binary.skip, binary.encodeField,
    PasswordArchive.fields, binary.putUint, fit]

theorem Curve448Archive.Write_header_curve (a : Curve448Archive) :
    ∃ out, binary.Write binary.ByteOrder.LE a.fields = .ok out ∧ out.length = 58 := by
  simp [binary.Write, binary.writeFields, binary.skip, binary.encodeField,
    Curve448Archive.fields, fit]

theorem ShardArchive.Write_header_shard (a : ShardArchive) :
    ∃ out, binary.Write binary.ByteOrder.LE a.fields = .ok out ∧ out.length = 35 := by
  simp [binary.Write, binary.writeFields, binary.skip, binary.encodeField,
    ShardArchive.fields, fit]

theorem ShardArchive.Write_bytes_shard (a : ShardArchive) :
    binary.Write binary.ByteOrder.LE a.fields
      = .ok ([a.Version % 256, a.Type_ % 256, a.ID % 256] ++ fit 32 a.Share) := by
  simp [binary.Write, binary.writeFields, binary.skip, binary.encodeField, ShardArchive.fields]

theorem PasswordArchive.Write_bytes_password (a : PasswordArchive) :
    binary.Write binary.ByteOrder.LE a.fields
      = .ok ([a.Version % 256, a.Type_ % 256]
          ++ binary.putUint binary.ByteOrder.LE 4 (a.Iterations % 2 ^ 32)
          ++ binary.putUint binary.ByteOrder.LE 4 (a.Memory % 2 ^ 32) ++ fit 32 a.Salt) := by
  simp [binary.Write, binary.writeFields, binary.skip, binary.encodeField,
    PasswordArchive.fields]

theorem writeShards_spec (n : Nat) (hn : n ≤ 255) :
    ∀ (shares : List (Nat × List Nat)) (shards : List ShardArchive) (writers : List (Option Nat)),
      shards.length = n → writers.length = n →
      (∀ p ∈ shares, 1 ≤ p.1 ∧ p.1 ≤ n) → (shares.map Prod.fst).Nodup →
      ∃ shards2 writers2, ShardArchive.writeShards shares shards writers = .ok (shards2, writers2)
        ∧ shards2.length = n ∧ writers2.length = n
        ∧ ∀ i, i < n →
          ((i + 1 ∈ shares.map Prod.fst →
              writers2[i]? = some (some i)
              ∧ ∃ s s2 hdr, shards[i]? = some s ∧ shards2[i]? = some s2 ∧ hdr.length = 35
                  ∧ s2.File = s.File.Write hdr
                  ∧ ∃ share, (i + 1, share) ∈ shares
                    ∧ hdr = [s.Version % 256, s.Type_ % 256, (i + 1) % 256]
                        ++ fit 32 (share.take 32 ++ s.Share.drop (min 32 share.length)))
          ∧ (i + 1 ∉ shares.map Prod.fst →
              writers2[i]? = writers[i]? ∧ shards2[i]? = shards[i]?)) := by
  intro shares
  induction shares with
  | nil =>
    intro shards writers hs hw _ _
    exact ⟨shards, writers, rfl, hs, hw, fun i _ => ⟨fun h => by simp at h, fun _ => ⟨rfl, rfl⟩⟩⟩
  | cons p more ih =>
    intro shards writers hs hw hr hnd
    obtain ⟨id, share⟩ := p
    obtain ⟨h1, h2⟩ := hr (id, share) (by simp)
    simp only at h1 h2
    have hidx : (id % 256 + 255) % 256 = id - 1 := by omega
    have hlt : id - 1 < shards.length := by omega
    obtain ⟨shard, hshard⟩ : ∃ shard, shards[id - 1]? = some shard :=
      ⟨shards[id - 1], by simp [hlt]⟩
    have hget : shards.get? (id - 1) = some shard := by
      rw [List.get?_eq_getElem?]; exact hshard
    obtain ⟨out, hout, houtl⟩ := ShardArchive.Write_header_shard
      { shard with ID := id % 256
                   Share := share.take 32 ++ shard.Share.drop (min 32 share.length) }
    have houtb := ShardArchive.Write_bytes_shard
      { shard with ID := id % 256
                   Share := share.take 32 ++ shard.Share.drop (min 32 share.length) }
    rw [hout] at houtb
    simp only [Except.ok.injEq, Nat.mod_mod] at houtb
    simp only [List.map_cons, List.nodup_cons] at hnd
    obtain ⟨hnotin, hnd2⟩ := hnd
    obtain ⟨shards2, writers2, hw2, hl1, hl2, hspec⟩ := ih
      (shards.set (id - 1)
        { shard with ID := id % 256
                     Share := share.take 32 ++ shard.Share.drop (min 32 share.length)
                     File := shard.File.Write out })
      (writers.set (id - 1) (some (id - 1)))
      (by simp [hs]) (by simp [hw]) (fun q hq => hr q (by simp [hq])) hnd2
    refine ⟨shards2, writers2, ?_, hl1, hl2, ?_⟩
    · simp only [ShardArchive.writeShards, hidx, hget, hout]
      exact hw2
    · intro i hi
      obtain ⟨ha, hb⟩ := hspec i hi
      by_cases hid : i + 1 = id
      · have hi2 : i = id - 1 := by omega
        obtain ⟨hb1, hb2⟩ := hb (by rw [hid]; exact hnotin)
        constructor
        · intro _
          refine ⟨?_, shard,
            { shard with ID := id % 256
                         Share := share.take 32 ++ shard.Share.drop (min 32 share.length)
                         File := shard.File.Write out }, out, ?_, ?_, houtl, rfl,
            share, by rw [hid]; simp, by rw [hid]; exact houtb⟩
          · rw [hb1, hi2, List.getElem?_set_self (by omega)]
          · rw [hi2]; exact hshard
          · rw [hb2, hi2, List.getElem?_set_self (by omega)]
        · intro hnot
          exfalso; apply hnot; simp [hid]
      · have hne : id - 1 ≠ i := by omega
        constructor
        · intro hmem
          have hmem2 : i + 1 ∈ more.map Prod.fst := by
            simp only [List.map_cons, List.mem_cons] at hmem
            rcases hmem with h | h
            · exact absurd h hid
            · exact h
          obtain ⟨ha1, s, s2, hdr, hs1, hs2, hl, hf, sh, hsh, hhdr⟩ := ha hmem2
          refine ⟨ha1, s, s2, hdr, ?_, hs2, hl, hf, sh, by simp [hsh], hhdr⟩
          rw [← hs1, List.getElem?_set_ne hne]
        · intro hnot
          have hnot2 : i + 1 ∉ more.map Prod.fst := by
            intro h; apply hnot; simp [h]
          obtain ⟨hb1, hb2⟩ := hb hnot2
          refine ⟨?_, ?_⟩
          · rw [hb1, List.getElem?_set_ne hne]
          · rw [hb2, List.getElem?_set_ne hne]

/-! ### The scan of `verify` -/

theorem Buffer.Read_buffer (b : Buffer) (n : Nat) : (b.Read n).2.buffer = b.buffer := by
  simp only [Buffer.Read]
  split_ifs <;> rfl

theorem Buffer.Read_offset (b : Buffer) (n : Nat) (h : b.offset ≤ b.buffer.length) :
    (b.Read n).2.offset = b.offset + min n (b.buffer.length - b.offset) := by
  unfold Buffer.Read
  have h1 : ¬ b.offset > b.buffer.length := by omega
  simp only [h1, if_false, List.length_drop]
  split_ifs with h2
  · simp only [h2, Nat.min_zero, Nat.add_zero]
  · rfl

/-- What `verify` returns is what `archive.Verify` returns on the `bufio.Reader`. -/
theorem verify_fst (P : Prims) (key : List Nat) (file : Buffer) (cuts : List Nat) :
    (verify P key file cuts).1 = archive.Verify P (file.bufio cuts) key := rfl

/-- The deferred `Seek` undoes what the scan did to the file. -/
theorem verify_snd (P : Prims) (key : List Nat) (file : Buffer) (cuts : List Nat) :
    (verify P key file cuts).2 = file := by
  have hb := Buffer.Read_buffer file
    (max ((file.bufio cuts).data.length - archive.unread P (file.bufio cuts) key) 4096)
  obtain ⟨buffer, offset⟩ := file
  simp only [verify, verifyScan, Buffer.SeekTo, Buffer.Tell] at hb ⊢
  rw [hb]

theorem verify_eq (P : Prims) (key : List Nat) (file : Buffer) (cuts : List Nat) :
    verify P key file cuts = (archive.Verify P (file.bufio cuts) key, file) :=
  Prod.ext (verify_fst P key file cuts) (verify_snd P key file cuts)

namespace archive

open xchacha20poly1305

/-- The copy to `ioutil.Discard` ends only at the end of the reader. -/
theorem discardLoop_data_nil (P : Prims) (fuel : Nat) :
    ∀ (a a2 : Archive) (e : Option Err), discardLoop P fuel a = some (e, a2) →
      a2.Reader.data = [] := by
  induction fuel with
  | zero => intro a a2 e h; simp [discardLoop] at h
  | succ fuel ih =>
    intro a a2 e h
    by_cases hnil : a.Reader.data = []
    · have hr := Source.Read_nil a.Reader 8192 (by omega) hnil
      simp only [discardLoop, Archive.Read, hr, Decrypt, Option.some.injEq, Prod.mk.injEq] at h
      rw [← h.2]
      exact hnil
    · obtain ⟨k, _, _, hr⟩ := Source.Read_cons a.Reader 8192 (by omega) hnil
      simp only [discardLoop, Archive.Read, hr, Decrypt] at h
      exact ih _ a2 e h

/-- A scan that ends without an error has read its reader to the end. -/
theorem unread_of_no_error (P : Prims) (r : Source) (key : List Nat)
    (h : (Verify P r key).2 = none) : unread P r key = 0 := by
  unfold Verify NewArchiveFromReader at h
  unfold unread
  rcases h1 : ReadFull r TagSize with ⟨⟨tag, e1⟩, r1⟩
  rw [h1] at h
  cases e1 with
  | some e => simp at h
  | none =>
    simp only at h ⊢
    rcases h2 : ReadFull r1 NonceSize with ⟨⟨nonce, e2⟩, r2⟩
    rw [h2] at h
    cases e2 with
    | some e => simp at h
    | none =>
      simp only at h ⊢
      rcases h3 : Init P zero key nonce with ⟨x, e3⟩
      rw [h3] at h
      cases e3 with
      | some e => simp at h
      | none =>
        simp only at h ⊢
        rcases h4 : discardLoop P (r2.data.length + 1)
            { x := x, tag := tag, Reader := r2, Writer := [] } with _ | ⟨e4, a2⟩
        · rw [h4] at h; simp at h
        · simp only
          rw [discardLoop_data_nil P _ _ a2 e4 h4]
          rfl

end archive

/-- Where the scan of `verify` leaves the file, before the deferred `Seek`. -/
theorem verifyScan_offset (P : Prims) (key : List Nat) (file : Buffer) (cuts : List Nat)
    (h : file.offset ≤ file.buffer.length) :
    (verifyScan P key file cuts).2.offset
      = file.offset + min (max (file.buffer.length - file.offset
          - archive.unread P (file.bufio cuts) key) 4096) (file.buffer.length - file.offset) := by
  simp only [verifyScan, Buffer.Read_offset _ _ h, Buffer.bufio, List.length_drop]

theorem shard_files_headers (shards2 : List ShardArchive) (n : Nat) (hl : shards2.length = n)
    (h : ∀ i, i < n → ∃ s2 hdr, shards2[i]? = some s2 ∧ hdr.length = 35
      ∧ s2.File = { buffer := hdr, offset := 35 }) :
    ShardArchive.Files shards2
        = ((ShardArchive.Files shards2).map (fun f => f.buffer)).map
            (fun h => { buffer := h, offset := 35 })
      ∧ ∀ hd ∈ (ShardArchive.Files shards2).map (fun f => f.buffer), hd.length = 35 := by
  have key : ∀ s ∈ shards2, s.File.offset = 35 ∧ s.File.buffer.length = 35 := by
    intro s hs
    obtain ⟨i, hi, his⟩ := List.getElem_of_mem hs
    obtain ⟨s2, hdr, h1, h2, h3⟩ := h i (by omega)
    rw [List.getElem?_eq_getElem hi, his] at h1
    simp only [Option.some.injEq] at h1
    subst h1
    rw [h3]
    exact ⟨rfl, h2⟩
  constructor
  · unfold ShardArchive.Files
    rw [List.map_map, List.map_map]
    apply List.map_congr_left
    intro s hs
    obtain ⟨h1, _⟩ := key s hs
    simp only [Function.comp_def]
    rw [← h1]
  · intro hd hhd
    simp only [ShardArchive.Files, List.map_map, List.mem_map, Function.comp_def] at hhd
    obtain ⟨s, hs, rfl⟩ := hhd
    exact (key s hs).2

theorem writers_all (writers : List (Option Nat)) (n : Nat) (hl : writers.length = n)
    (h : ∀ i, i < n → writers[i]? = some (some i)) :
    writers = (List.range n).map some := by
  apply List.ext_getElem?
  intro i
  by_cases hi : i < n
  · rw [h i hi]
    simp [List.getElem?_map, List.getElem?_range hi]
  · rw [List.getElem?_eq_none (by omega), List.getElem?_eq_none (by simp; omega)]

theorem fit_self (n : Nat) (l : List Nat) (h : l.length = n) : fit n l = l := by
  unfold fit
  rw [List.take_append_of_le_length (by omega), List.take_of_length_le (by omega)]

theorem fit_share (share : List Nat) :
    fit 32 (share.take 32 ++ (List.replicate 32 0).drop (min 32 share.length)) = fit 32 share := by
  unfold fit
  apply List.ext_getElem?
  intro i
  simp only [List.getElem?_take, List.getElem?_append, List.length_take, List.getElem?_drop,
    List.getElem?_replicate, List.length_append, List.length_drop, List.length_replicate]
  by_cases hi : i < 32
  · by_cases h2 : i < share.length
    · simp [hi, h2]
    · simp only [hi, if_true]
      have h3 : ¬ i < min 32 share.length := by omega
      simp only [h3, h2, if_false]
      split_ifs <;> first | rfl | omega
  · simp [hi]

theorem PasswordArchive.Writer_patched_password (P : Prims) {ω : Type} (L : WriteLayers ω)
    (a : PasswordArchive) (salt nonce : List Nat) (w : Arc.Writer ω)
    (hf : a.File = { buffer := [], offset := 0 })
    (hw : a.Writer P L (.ok salt) (.ok nonce) = (some w, none)) :
    Patched P L w
      [[a.Version % 256, a.Type_ % 256]
        ++ binary.putUint binary.ByteOrder.LE 4 (a.Iterations % 2 ^ 32)
        ++ binary.putUint binary.ByteOrder.LE 4 (a.Memory % 2 ^ 32) ++ fit 32 salt]
      (fit 24 nonce) 42 := by
  simp only [PasswordArchive.Writer] at hw
  split at hw
  · simp at hw
  · rename_i out hout
    obtain ⟨out2, hout2, hl⟩ := PasswordArchive.Write_header_password
      { a with Salt := fit 32 salt }
    have hb := PasswordArchive.Write_bytes_password { a with Salt := fit 32 salt }
    have he := hout2.symm.trans hout
    simp only [Except.ok.injEq] at he
    subst he
    have hb2 := hout2.symm.trans hb
    simp only [Except.ok.injEq, fit_self 32 _ (archive.fit_length 32 salt)] at hb2
    split at hw
    · simp at hw
    · simp only [hf, Buffer.Write, List.nil_append, hl, Nat.zero_add] at hw
      rw [← hb2]
      exact newArchiveWriter_patched P L _ [out2] 42 nonce w (by simp) (by simp [hl]) hw

theorem Curve448Archive.Writer_patched_curve (P : Prims) {ω : Type} (L : WriteLayers ω)
    (a : Curve448Archive) (rk nonce : List Nat) (w : Arc.Writer ω)
    (hf : a.File = { buffer := [], offset := 0 })
    (hw : a.Writer P L (.ok rk) (.ok nonce) = (some w, none)) :
    ∃ hdr, Patched P L w [hdr] (fit 24 nonce) 58 := by
  simp only [Curve448Archive.Writer, GenerateKeypair] at hw
  split at hw
  · simp at hw
  · rename_i pub hpub
    split at hw
    · simp at hw
    · simp at hw
    · rename_i key hkey
      split at hw
      · simp at hw
      · rename_i out hout
        obtain ⟨out2, hout2, hl⟩ := Curve448Archive.Write_header_curve
          { a with Ephemeral := fit 56 (P.x448base (fit 56 rk)) }
        have he := hout2.symm.trans hout
        simp only [Except.ok.injEq] at he
        subst he
        simp only [hf, Buffer.Write, List.nil_append, hl, Nat.zero_add] at hw
        exact ⟨out2, newArchiveWriter_patched P L _ [out2] 58 nonce w (by simp)
          (by simp [hl]) hw⟩

theorem ShardArchive.Writer_patched_shard (P : Prims) {ω : Type} (L : WriteLayers ω)
    (k : Int) (files : List Buffer) (rk nonce : List Nat) (shares : List (Nat × List Nat))
    (w : Arc.Writer ω) (shards2 : List ShardArchive)
    (hn : files.length ≤ 255) (hempty : ∀ f ∈ files, f = { buffer := [], offset := 0 })
    (hsplit : P.split files.length (k % 256).toNat (fit 32 rk) = .ok shares)
    (hperm : (shares.map Prod.fst).Perm ((List.range files.length).map (· + 1)))
    (hw : ShardArchive.Writer P L (NewShardArchive k files) (.ok rk) (.ok nonce)
      = ((some w, none), shards2)) :
    ∃ headers, headers.length = files.length ∧ Patched P L w headers (fit 24 nonce) 35
      ∧ ∀ i, i < files.length → ∃ share, (i + 1, share) ∈ shares
          ∧ headers[i]? = some ([1, 3, i + 1] ++ fit 32 share) := by
  cases files with
  | nil => simp [ShardArchive.Writer, NewShardArchive] at hw
  | cons f0 fs =>
    set files := f0 :: fs with hfiles
    have hlen : (NewShardArchive k files).length = files.length := by
      simp [NewShardArchive]
    have hmod : files.length % 256 = files.length := Nat.mod_eq_of_lt (by omega)
    have hrange : ∀ p ∈ shares, 1 ≤ p.1 ∧ p.1 ≤ files.length := by
      intro p hp
      have : p.1 ∈ (List.range files.length).map (· + 1) :=
        hperm.mem_iff.mp (List.mem_map_of_mem _ hp)
      simp only [List.mem_map, List.mem_range] at this
      obtain ⟨j, hj, hj2⟩ := this
      omega
    have hnodup : (shares.map Prod.fst).Nodup := by
      rw [hperm.nodup_iff]
      exact (List.nodup_range files.length).map (fun a b h => by simpa using h)
    obtain ⟨sh2, wr2, hws, hl1, hl2, hspec⟩ := writeShards_spec files.length hn shares
      (NewShardArchive k files) (List.replicate (NewShardArchive k files).length none)
      hlen (by simp [hlen]) hrange hnodup
    have hall : ∀ i, i < files.length → i + 1 ∈ shares.map Prod.fst := by
      intro i hi
      rw [hperm.mem_iff]
      simp only [List.mem_map, List.mem_range]
      exact ⟨i, hi, rfl⟩
    have hw2 : ((newArchiveWriter P L (fit 32 rk) wr2 (ShardArchive.Files sh2) (.ok nonce)
        : Option (Arc.Writer ω) × Option Err), sh2) = ((some w, none), shards2) := by
      rw [← hw]
      simp only [ShardArchive.Writer, NewShardArchive, hfiles, List.map_cons,
        List.length_cons, List.length_map]
      simp only [NewShardArchive, hfiles, List.map_cons, List.length_cons,
        List.length_map] at hws hmod hsplit
      rw [hmod, hsplit]
      simp only [hws]
    simp only [Prod.mk.injEq] at hw2
    obtain ⟨hw1, _⟩ := hw2
    have hwr : wr2 = (List.range files.length).map some :=
      writers_all wr2 files.length hl2 (fun i hi => ((hspec i hi).1 (hall i hi)).1)
    have hfilesok : ∀ i, i < files.length → ∃ s2 hdr, sh2[i]? = some s2 ∧ hdr.length = 35
        ∧ s2.File = { buffer := hdr, offset := 35 }
        ∧ ∃ share, (i + 1, share) ∈ shares ∧ hdr = [1, 3, i + 1] ++ fit 32 share := by
      intro i hi
      obtain ⟨_, s, s2, hdr, hs, hs2, hl, hf, share, hshare, hhdr⟩ := (hspec i hi).1 (hall i hi)
      have hmem : s ∈ NewShardArchive k files := List.getElem?_mem hs
      simp only [NewShardArchive, List.mem_map] at hmem
      obtain ⟨f, hfm, rfl⟩ := hmem
      have hsf := hempty f hfm
      refine ⟨s2, hdr, hs2, hl, ?_, share, hshare, ?_⟩
      · rw [hf]
        simp [hsf, Buffer.Write, hl]
      · rw [hhdr]
        simp only [KeySize, fit_share, Version, Shard]
        have : (i + 1) % 256 = i + 1 := Nat.mod_eq_of_lt (by omega)
        rw [this]
        rfl
    obtain ⟨hF1, hF2⟩ := shard_files_headers sh2 files.length hl1
      (fun i hi => by
        obtain ⟨s2, hdr, h1, h2, h3, _⟩ := hfilesok i hi
        exact ⟨s2, hdr, h1, h2, h3⟩)
    refine ⟨(ShardArchive.Files sh2).map (fun f => f.buffer), by
      simp [ShardArchive.Files, hl1], ?_, ?_⟩
    · apply newArchiveWriter_patched P L (fit 32 rk) _ 35 nonce w
      · intro h
        have := congrArg List.length h
        simp [ShardArchive.Files, hl1, hfiles] at this
      · exact hF2
      · rw [← hF1]
        simp only [List.length_map, ShardArchive.Files, hl1]
        rw [← hwr]
        exact hw1
    · intro i hi
      obtain ⟨s2, hdr, h1, _, h3, share, hshare, hhdr⟩ := hfilesok i hi
      refine ⟨share, hshare, ?_⟩
      simp only [ShardArchive.Files, List.map_map, List.getElem?_map, h1, Option.map_some',
        Function.comp_apply, h3, hhdr]

/-- What `Close()` leaves in the files of a writer in the state `Patched`: every
file holds its header, the tag, the nonce and the payload. -/
theorem Patched.closed {P : Prims} {ω : Type} {L : WriteLayers ω} {w : Writer ω}
    {headers : List (List Nat)} {nonce : List Nat} {n : Nat}
    (h : Patched P L w headers nonce n)
    (ops : List archive.Op) (files : List Buffer)
    (hc : (Writer.run P L ops w).Close P L = (none, files)) :
    ∃ tag payload, tag.length = 16
      ∧ files.map (fun f => f.buffer) = headers.map (fun h => h ++ tag ++ nonce ++ payload) := by
  obtain ⟨_, _, _, iw, _, _, hcl⟩ := h
  obtain ⟨tag, _, htl, htake, hfiles⟩ := hcl ops files hc
  refine ⟨tag, (((archive.Writer.run P L ops iw).2.Finish P L).2.archive.Writer).drop 40, htl, ?_⟩
  rw [hfiles]
  apply List.map_congr_left
  intro hd _
  have hsplit : (((archive.Writer.run P L ops iw).2.Finish P L).2.archive.Writer).drop 16
      = nonce ++ (((archive.Writer.run P L ops iw).2.Finish P L).2.archive.Writer).drop 40 := by
    generalize (((archive.Writer.run P L ops iw).2.Finish P L).2.archive.Writer) = W at htake ⊢
    have h1 : W = W.take 40 ++ W.drop 40 := (List.take_append_drop 40 W).symm
    rw [htake] at h1
    conv_lhs => rw [h1]
    rw [List.append_assoc, List.drop_append_of_le_length (by simp),
      List.drop_of_length_le (by simp), List.nil_append]
  rw [hsplit]
  simp [List.append_assoc]

namespace binary

theorem putUint_length (order : ByteOrder) (n v : Nat) : (putUint order n v).length = n := by
  cases order <;> simp [putUint]

theorem getUint_putUint8 (order : ByteOrder) (v : Nat) (rest : List Nat) (hv : v < 2 ^ 64) :
    getUint order 8 (putUint order 8 v ++ rest) = v := by
  cases order <;>
    simp [getUint, putUint, List.range_succ] <;> omega

theorem getUint_putUint4 (order : ByteOrder) (v : Nat) (rest : List Nat) (hv : v < 2 ^ 32) :
    getUint order 4 (putUint order 4 v ++ rest) = v := by
  cases order <;>
    simp [getUint, putUint, List.range_succ] <;> omega

theorem getUint_putUint2 (order : ByteOrder) (v : Nat) (rest : List Nat) (hv : v < 2 ^ 16) :
    getUint order 2 (putUint order 2 v ++ rest) = v := by
  cases order <;>
    simp [getUint, putUint, List.range_succ] <;> omega

theorem wrapU_lt (n : Nat) (v : Int) : wrapU n v < 2 ^ (8 * n) := by
  unfold wrapU
  have hpos : (0 : Int) < (2 : Int) ^ (8 * n) := by positivity
  have h1 := Int.emod_lt_of_pos v hpos
  have h2 := Int.emod_nonneg v (ne_of_gt hpos)
  zify
  rw [Int.toNat_of_nonneg h2]
  exact_mod_cast h1

theorem wrapS_wrapU1 (v : Int) (h1 : -2 ^ 7 ≤ v) (h2 : v < 2 ^ 7) : wrapS 1 (wrapU 1 v) = v := by
  simp only [wrapS, wrapU]
  norm_num
  split_ifs <;> omega

theorem wrapS_wrapU2 (v : Int) (h1 : -2 ^ 15 ≤ v) (h2 : v < 2 ^ 15) :
    wrapS 2 (wrapU 2 v) = v := by
  simp only [wrapS, wrapU]
  norm_num
  split_ifs <;> omega

theorem wrapS_wrapU4 (v : Int) (h1 : -2 ^ 31 ≤ v) (h2 : v < 2 ^ 31) :
    wrapS 4 (wrapU 4 v) = v := by
  simp only [wrapS, wrapU]
  norm_num
  split_ifs <;> omega

theorem wrapS_wrapU8 (v : Int) (h1 : -2 ^ 63 ≤ v) (h2 : v < 2 ^ 63) :
    wrapS 8 (wrapU 8 v) = v := by
  simp only [wrapS, wrapU]
  norm_num
  split_ifs <;> omega

theorem size_foldl (fs : List Field) (n : Nat) :
    fs.foldl (fun acc f => if !skip f then acc + f.kind.Size else acc) n
      = n + fs.foldl (fun acc f => if !skip f then acc + f.kind.Size else acc) 0 := by
  induction fs generalizing n with
  | nil => simp
  | cons f fs ih =>
    simp only [List.foldl_cons]
    rw [ih, ih (if (!skip f) = true then 0 + f.kind.Size else 0)]
    split_ifs <;> omega

theorem size_cons (f : Field) (fs : List Field) :
    size (f :: fs) = (if skip f then 0 else f.kind.Size) + size fs := by
  unfold size
  rw [List.foldl_cons, size_foldl]
  cases skip f <;> simp

theorem size_append (a b : List Field) : size (a ++ b) = size a + size b := by
  induction a with
  | nil => simp [size]
  | cons f fs ih => rw [List.cons_append, size_cons, size_cons, ih]; omega

theorem encodeField_length (order : ByteOrder) (f : Field) (b : List Nat)
    (hs : skip f = false) (h : encodeField order f = .ok b) : b.length = f.kind.Size := by
  obtain ⟨kind, canSet, val⟩ := f
  cases kind <;> cases val <;>
    simp [encodeField, Kind.Size, skip] at h hs ⊢ <;>
    first
      | (subst h; simp [putUint_length])
      | skip
  rename_i elemSize elemUint8 len bs
  cases elemUint8
  · simp [encodeField] at h
  · simp only [encodeField, Except.ok.injEq] at h
    subst h
    cases canSet <;> simp at hs
    simp [hs, archive.fit_length]

theorem writeFields_append (order : ByteOrder) (a b : List Field) :
    writeFields order (a ++ b) =
      match writeFields order a with
      | .error e => .error e
      | .ok x =>
        match writeFields order b with
        | .error e => .error e
        | .ok y => .ok (x ++ y) := by
  induction a with
  | nil => simp only [List.nil_append, writeFields]; cases writeFields order b <;> simp
  | cons f fs ih =>
    simp only [List.cons_append, writeFields, List.append_eq]
    by_cases hs : skip f = true
    · simp only [hs, if_true, ih]
    · simp only [hs, if_false, ih, Bool.false_eq_true]
      cases encodeField order f with
      | error e => rfl
      | ok x =>
        cases writeFields order fs with
        | error e => rfl
        | ok y => cases writeFields order b <;> simp

theorem writeFields_length (order : ByteOrder) (fields : List Field) (out : List Nat)
    (h : writeFields order fields = .ok out) : out.length = size fields := by
  induction fields generalizing out with
  | nil => simp [writeFields] at h; subst h; simp [size]
  | cons f fs ih =>
    rw [size_cons]
    simp only [writeFields] at h
    by_cases hs : skip f = true
    · simp only [hs, if_true] at h ⊢
      rw [ih out h]; omega
    · simp only [hs, if_false, Bool.false_eq_true] at h ⊢
      cases he : encodeField order f with
      | error e => simp [he] at h
      | ok x =>
        cases hw : writeFields order fs with
        | error e => simp [he, hw] at h
        | ok y =>
          simp only [he, hw, Except.ok.injEq] at h
          subst h
          rw [List.length_append, ih y hw,
            encodeField_length order f x (by simpa using hs) he]

theorem writeFields_layout (order : ByteOrder) (pre post : List Field) (f : Field)
    (out : List Nat) (hs : skip f = false)
    (h : writeFields order (pre ++ f :: post) = .ok out) :
    ∃ x b y, writeFields order pre = .ok x ∧ encodeField order f = .ok b
      ∧ writeFields order post = .ok y ∧ out = x ++ b ++ y
      ∧ x.length = size pre ∧ b.length = f.kind.Size := by
  rw [writeFields_append] at h
  cases hp : writeFields order pre with
  | error e => simp [hp] at h
  | ok x =>
    simp only [hp, writeFields, hs, if_false, Bool.false_eq_true] at h
    cases he : encodeField order f with
    | error e => simp [he] at h
    | ok b =>
      cases hy : writeFields order post with
      | error e => simp [he, hy] at h
      | ok y =>
        simp only [he, hy, Except.ok.injEq] at h
        exact ⟨x, b, y, rfl, rfl, rfl, by rw [← h, List.append_assoc],
          writeFields_length order pre x hp, encodeField_length order f b hs he⟩

end binary

namespace binary

theorem size_sameType (d f : List Field) (h : sameType d f) : size d = size f := by
  induction d generalizing f with
  | nil =>
    cases f with
    | nil => rfl
    | cons _ _ => simp [sameType] at h
  | cons x xs ih =>
    cases f with
    | nil => simp [sameType] at h
    | cons y ys =>
      simp only [sameType, List.map_cons, List.cons.injEq, Prod.mk.injEq] at h
      obtain ⟨⟨hk, hc⟩, ht⟩ := h
      rw [size_cons, size_cons, ih ys ht]
      have : skip x = skip y := by simp only [skip, hk, hc]
      rw [this, hk]

theorem field_round_trip (order : ByteOrder) (f d : Field) (hc : f.canSet = true)
    (hw : f.wellTyped) (hk : d.kind = f.kind) (hdc : d.canSet = f.canSet) :
    skip f = false ∧ skip d = false
      ∧ ∃ b, encodeField order f = .ok b ∧ b.length = f.kind.Size
        ∧ ∀ rest, decodeField order d (b ++ rest) = .ok f.val := by
  obtain ⟨kind, canSet, val⟩ := f
  obtain ⟨dk, dc, dv⟩ := d
  simp only at hc hk hdc
  subst hc hk hdc
  cases dk <;> cases val <;> simp only [Field.wellTyped] at hw
  case Int8.int v =>
    refine ⟨rfl, rfl, [wrapU 1 v], rfl, rfl, fun rest => ?_⟩
    simp only [decodeField, List.singleton_append, List.getD_cons_zero,
      wrapS_wrapU1 v hw.1 hw.2]
  case Uint8.uint v =>
    refine ⟨rfl, rfl, [v % 256], rfl, rfl, fun rest => ?_⟩
    have : v % 256 % 256 = v := by omega
    simp only [decodeField, List.singleton_append, List.getD_cons_zero, this]
  case Int16.int v =>
    refine ⟨rfl, rfl, _, rfl, putUint_length _ _ _, fun rest => ?_⟩
    simp only [decodeField, getUint_putUint2 order _ rest (wrapU_lt 2 v),
      wrapS_wrapU2 v hw.1 hw.2]
  case Uint16.uint v =>
    refine ⟨rfl, rfl, _, rfl, putUint_length _ _ _, fun rest => ?_⟩
    have h2 : v % 2 ^ 16 = v := Nat.mod_eq_of_lt hw
    simp only [decodeField, h2, getUint_putUint2 order v rest hw]
  case Int32.int v =>
    refine ⟨rfl, rfl, _, rfl, putUint_length _ _ _, fun rest => ?_⟩
    simp only [decodeField, getUint_putUint4 order _ rest (wrapU_lt 4 v),
      wrapS_wrapU4 v hw.1 hw.2]
  case Uint32.uint v =>
    refine ⟨rfl, rfl, _, rfl, putUint_length _ _ _, fun rest => ?_⟩
    have h2 : v % 2 ^ 32 = v := Nat.mod_eq_of_lt hw
    simp only [decodeField, h2, getUint_putUint4 order v rest hw]
  case Int64.int v =>
    refine ⟨rfl, rfl, _, rfl, putUint_length _ _ _, fun rest => ?_⟩
    simp only [decodeField, getUint_putUint8 order _ rest (wrapU_lt 8 v),
      wrapS_wrapU8 v hw.1 hw.2]
  case Uint64.uint v =>
    refine ⟨rfl, rfl, _, rfl, putUint_length _ _ _, fun rest => ?_⟩
    have h2 : v % 2 ^ 64 = v := Nat.mod_eq_of_lt hw
    simp only [decodeField, h2, getUint_putUint8 order v rest hw]
  case Array.bytes elemSize elemUint8 len b =>
    have hx : elemSize = 1 ∧ elemUint8 = true ∧ b.length = len := by
      split at hw
      all_goals simp_all
    obtain ⟨rfl, rfl, hl⟩ := hx
    have hfit : fit len b = b := by
      unfold fit
      rw [List.take_append_of_le_length (by omega), List.take_of_length_le (by omega)]
    refine ⟨by simp [skip], by simp [skip], b, by simp [encodeField, hfit],
      by simp [Kind.Size, hl], fun rest => ?_⟩
    simp only [decodeField]
    rw [List.take_append_of_le_length (by omega), List.take_of_length_le (by omega)]

theorem readFields_writeFields_skip (order : ByteOrder) :
    ∀ (fields dst : List Field), sameType dst fields →
      (∀ f ∈ fields, skip f = true ∨ (f.canSet = true ∧ f.wellTyped)) →
      ∃ out, writeFields order fields = .ok out
        ∧ ∀ rest, readFields order dst (out ++ rest) = .ok (merge dst fields) := by
  intro fields
  induction fields with
  | nil =>
    intro dst hd _
    cases dst with
    | nil => exact ⟨[], rfl, fun _ => rfl⟩
    | cons _ _ => simp [sameType] at hd
  | cons f fs ih =>
    intro dst hd hf
    cases dst with
    | nil => simp [sameType] at hd
    | cons d ds =>
      simp only [sameType, List.map_cons, List.cons.injEq, Prod.mk.injEq] at hd
      obtain ⟨⟨hk, hc⟩, ht⟩ := hd
      obtain ⟨out, hout, hread⟩ := ih ds ht (fun g hg => hf g (by simp [hg]))
      have hsk : skip d = skip f := by simp only [skip, hk, hc]
      rcases hf f (by simp) with hs | ⟨hcs, hwt⟩
      · refine ⟨out, by simp [writeFields, hs, hout], fun rest => ?_⟩
        simp only [readFields, hsk, hs, if_true, hread, merge, List.zipWith_cons_cons]
      · obtain ⟨s1, s2, b, he, hl, hdec⟩ := field_round_trip order f d hcs hwt hk hc
        refine ⟨b ++ out, by simp [writeFields, s1, he, hout], fun rest => ?_⟩
        have hdrop : (b ++ out ++ rest).drop d.kind.Size = out ++ rest := by
          rw [hk, ← hl, List.append_assoc, List.drop_left]
        have hdf : ({ d with val := f.val } : Field) = f := by
          obtain ⟨_, _, _⟩ := f
          obtain ⟨_, _, _⟩ := d
          simp only at hk hc
          subst hk hc
          rfl
        simp only [readFields, s2, Bool.false_eq_true, if_false]
        rw [List.append_assoc] at hdrop ⊢
        rw [hdec, hdrop]
        simp only [hread, hdf, merge, List.zipWith_cons_cons, s1, Bool.false_eq_true, if_false]

theorem merge_all (fields : List Field) :
    ∀ dst : List Field, dst.length = fields.length → (∀ f ∈ fields, skip f = false) →
      merge dst fields = fields := by
  induction fields with
  | nil => intro dst _ _; cases dst <;> simp [merge]
  | cons f fs ih =>
    intro dst hl hs
    cases dst with
    | nil => simp at hl
    | cons d ds =>
      have h1 := hs f (by simp)
      have h2 := ih ds (by simpa using hl) (fun g hg => hs g (by simp [hg]))
      simp only [merge, List.zipWith_cons_cons, h1, Bool.false_eq_true, if_false] at h2 ⊢
      rw [h2]

theorem readFields_writeFields (order : ByteOrder) (fields dst : List Field)
    (hd : sameType dst fields) (hf : ∀ f ∈ fields, f.canSet = true ∧ f.wellTyped) :
    ∃ out, writeFields order fields = .ok out
      ∧ ∀ rest, readFields order dst (out ++ rest) = .ok fields := by
  obtain ⟨out, h1, h2⟩ := readFields_writeFields_skip order fields dst hd
    (fun f hm => Or.inr (hf f hm))
  refine ⟨out, h1, fun rest => ?_⟩
  have hlen : dst.length = fields.length := by
    have := congrArg List.length hd
    simpa [sameType] using this
  have hsk : ∀ f ∈ fields, skip f = false := by
    intro f hm
    obtain ⟨hc, hw⟩ := hf f hm
    exact (field_round_trip order f f hc hw rfl rfl).1
  rw [h2 rest, merge_all fields dst hlen hsk]

end binary

namespace binary

theorem readFields_skip_insert (order : ByteOrder) (f : Field) (post : List Field)
    (hs : skip f = true) :
    ∀ (pre : List Field) (buf : List Nat),
      readFields order (pre ++ f :: post) buf =
        match readFields order (pre ++ post) buf with
        | .error e => .error e
        | .ok fs => .ok (fs.take pre.length ++ f :: fs.drop pre.length) := by
  intro pre
  induction pre with
  | nil =>
    intro buf
    simp only [List.nil_append, readFields, hs, if_true, List.length_nil, List.take_zero,
      List.drop_zero]
  | cons g gs ih =>
    intro buf
    simp only [List.cons_append, readFields, List.append_eq, List.length_cons]
    by_cases hg : skip g = true
    · simp only [hg, if_true, ih]
      cases readFields order (gs ++ post) buf <;> simp
    · simp only [hg, if_false, Bool.false_eq_true, ih]
      cases decodeField order g buf with
      | error e => rfl
      | ok v => cases readFields order (gs ++ post) (List.drop g.kind.Size buf) <;> simp

theorem Read_skip_insert (order : ByteOrder) (pre post : List Field) (f : Field)
    (hs : skip f = true) (file : Buffer) :
    Read file order (pre ++ f :: post)
      = ((Read file order (pre ++ post)).1,
          (Read file order (pre ++ post)).2.1.take pre.length
            ++ f :: (Read file order (pre ++ post)).2.1.drop pre.length,
          (Read file order (pre ++ post)).2.2) := by
  have hsz : size (pre ++ f :: post) = size (pre ++ post) := by
    rw [size_append, size_append, size_cons, hs]; simp
  unfold Read
  rw [hsz]
  rcases file.ReadFull (size (pre ++ post)) with ⟨⟨buf, e⟩, file2⟩
  cases e with
  | some e => simp
  | none =>
    simp only [readFields_skip_insert order f post hs pre buf]
    cases readFields order (pre ++ post) buf <;> simp

theorem putUint_one (order : ByteOrder) (u : Nat) (h : u < 256) : putUint order 1 u = [u] := by
  cases order <;> simp [putUint, List.range_succ, Nat.mod_eq_of_lt h]

theorem encodeField_bits (order : ByteOrder) (f : Field) (b : List Nat)
    (hi : isFixedInt f.kind = true) (he : encodeField order f = .ok b) :
    b = putUint order f.kind.Size f.bits := by
  obtain ⟨kind, canSet, val⟩ := f
  cases kind <;> simp only [isFixedInt, Bool.false_eq_true] at hi <;> cases val <;>
    simp only [encodeField, Except.ok.injEq, reduceCtorEq] at he <;>
    subst he <;> simp only [Field.bits, Kind.Size]
  · rename_i v
    have hv : wrapU 1 v < 256 := wrapU_lt 1 v
    exact (putUint_one order _ hv).symm
  · exact (putUint_one order _ (by omega)).symm

/-- C18: for either byte order, for every record whose fields are settable and
hold values of the types int8, uint8, int16, uint16, int32, uint32, int64, uint64
or of a byte array type, `Write` returns the bytes `out`, and `Read` of these
bytes (wherever they stand in the file) into a record of the same type returns a
nil error and leaves in it exactly the values of the original, having consumed
exactly `out`. -/
theorem C18_binary_round_trip (order : ByteOrder) (fields dst : List Field)
    (pre post : List Nat) (hf : ∀ f ∈ fields, f.canSet = true ∧ f.wellTyped)
    (hd : sameType dst fields) :
    ∃ out, Write order fields = .ok out
      ∧ Read { buffer := pre ++ out ++ post, offset := pre.length } order dst
          = (none, fields, { buffer := pre ++ out ++ post, offset := pre.length + out.length }) := by
  obtain ⟨out, hw, hr⟩ := readFields_writeFields order fields dst hd hf
  refine ⟨out, hw, ?_⟩
  have hlen : out.length = size dst := by
    rw [writeFields_length order fields out hw, size_sameType dst fields hd]
  have hfull := Buffer.ReadFull_file { buffer := pre ++ out ++ post, offset := pre.length }
    (size dst) (by simp only [List.length_append]; omega)
  have hbuf : ((pre ++ out ++ post).drop pre.length).take (size dst) = out := by
    rw [List.append_assoc, List.drop_left, ← hlen, List.take_left]
  simp only [hbuf] at hfull
  have := hr []
  rw [List.append_nil] at this
  simp only [Read, hfull, this, hlen]

/-- C19: when `Write` returns the bytes `out` for a record, `out` is as long as
the sizes of the serialised fields add up to; every serialised field occupies
exactly its size at the offset that is the sum of the sizes of the serialised
fields before it; an integer field holds there the bytes of its value, the
least significant first under `LE` and the most significant first under `BE`. -/
theorem C19_write_layout (order : ByteOrder) (fields : List Field) (out : List Nat)
    (h : Write order fields = .ok out) :
    out.length = size fields
    ∧ (∀ pre f post, fields = pre ++ f :: post → skip f = false →
        ∃ b, encodeField order f = .ok b ∧ b.length = f.kind.Size
          ∧ (out.drop (size pre)).take f.kind.Size = b
          ∧ (isFixedInt f.kind = true → b = putUint order f.kind.Size f.bits))
    ∧ (∀ n v i, i < n →
        (putUint ByteOrder.LE n v).getD i 0 = v / 2 ^ (8 * i) % 256
        ∧ (putUint ByteOrder.BE n v).getD i 0 = v / 2 ^ (8 * (n - 1 - i)) % 256) := by
  refine ⟨writeFields_length order fields out h, ?_, ?_⟩
  · intro pre f post hfs hs
    subst hfs
    obtain ⟨x, b, y, _, he, _, ho, hx, hb⟩ := writeFields_layout order pre post f out hs h
    refine ⟨b, he, hb, ?_, ?_⟩
    · rw [ho, List.append_assoc, ← hx, List.drop_left, ← hb, List.take_left]
    · exact fun hi => encodeField_bits order f b hi he
  · intro n v i hi
    constructor
    · simp [putUint, List.getD_eq_getElem?_getD, List.getElem?_map, List.getElem?_range hi]
    · simp only [putUint, List.getD_eq_getElem?_getD]
      rw [List.getElem?_reverse (by simpa using hi)]
      simp only [List.length_map, List.length_range]
      rw [List.getElem?_map, List.getElem?_range (by omega)]
      rfl

theorem encodeField_error (order : ByteOrder) (f : Field) (e : Err)
    (h : encodeField order f = .error e) : e = Err.panic := by
  obtain ⟨kind, canSet, val⟩ := f
  cases kind <;> cases val <;> simp only [encodeField, reduceCtorEq, Except.error.injEq] at h <;>
    first
      | exact h.symm
      | skip
  rename_i elemSize elemUint8 len b
  cases elemUint8 <;> simp only [reduceCtorEq, Except.error.injEq] at h
  exact h.symm

theorem writeFields_error (order : ByteOrder) (e : Err) :
    ∀ fields : List Field, writeFields order fields = .error e → e = Err.panic := by
  intro fields
  induction fields with
  | nil => intro h; simp [writeFields] at h
  | cons f fs ih =>
    intro h
    simp only [writeFields] at h
    by_cases hs : skip f = true
    · simp only [hs, if_true] at h
      exact ih h
    · simp only [hs, if_false, Bool.false_eq_true] at h
      cases he : encodeField order f with
      | error e2 =>
        simp only [he, Except.error.injEq] at h
        subst h
        exact encodeField_error order f _ he
      | ok b =>
        simp only [he] at h
        cases hw : writeFields order fs with
        | error e2 =>
          simp only [hw, Except.error.injEq] at h
          subst h
          exact ih hw
        | ok rest => simp [hw] at h

/-- A field that is not skipped and that `Write` cannot encode makes `Write` panic,
wherever it stands in the record. -/
theorem writeFields_bad (order : ByteOrder) (f : Field) (e0 : Err) (hs : skip f = false)
    (he : encodeField order f = .error e0) (pre post : List Field) :
    writeFields order (pre ++ f :: post) = .error Err.panic := by
  have h : ∃ e, writeFields order (pre ++ f :: post) = .error e := by
    rw [writeFields_append]
    cases writeFields order pre with
    | error e => exact ⟨e, rfl⟩
    | ok x =>
      refine ⟨e0, ?_⟩
      simp only [writeFields, hs, if_false, Bool.false_eq_true, he]
  obtain ⟨e, h⟩ := h
  rw [h, writeFields_error order e _ h]

/-- A field that is not skipped and that `Read` cannot assign makes `Read` panic,
wherever it stands in the record. -/
theorem readFields_bad (order : ByteOrder) (f : Field) (hs : skip f = false)
    (hd : ∀ buf, ∃ e, decodeField order f buf = .error e) (post : List Field) :
    ∀ (pre : List Field) (buf : List Nat),
      ∃ e, readFields order (pre ++ f :: post) buf = .error e := by
  intro pre
  induction pre with
  | nil =>
    intro buf
    obtain ⟨e, he⟩ := hd buf
    exact ⟨e, by simp only [List.nil_append, readFields, hs, if_false, Bool.false_eq_true, he]⟩
  | cons g gs ih =>
    intro buf
    simp only [List.cons_append, readFields, List.append_eq]
    by_cases hg : skip g = true
    · obtain ⟨e, he⟩ := ih buf
      exact ⟨e, by simp only [hg, if_true, he]⟩
    · simp only [hg, if_false, Bool.false_eq_true]
      cases decodeField order g buf with
      | error e => exact ⟨e, rfl⟩
      | ok v =>
        obtain ⟨e, he⟩ := ih (List.drop g.kind.Size buf)
        exact ⟨e, by simp only [he]⟩

/-- What `Write` encodes is a settable integer of 1, 2, 4 or 8 bytes or a
settable array of bytes. -/
theorem encodeField_ok_kind (order : ByteOrder) (f : Field) (b : List Nat)
    (hs : skip f = false) (he : encodeField order f = .ok b) :
    f.canSet = true ∧ (isFixedInt f.kind = true ∨ isByteArray f.kind = true) := by
  obtain ⟨kind, canSet, val⟩ := f
  cases canSet
  · simp [skip] at hs
  · refine ⟨rfl, ?_⟩
    cases kind <;> cases val <;>
      simp only [encodeField, reduceCtorEq, isFixedInt, true_or] at he ⊢
    rename_i elemSize elemUint8 len b2
    cases elemUint8
    · simp only [reduceCtorEq] at he
    · simp only [skip, Bool.not_true, Bool.false_eq_true, if_false, ne_eq, decide_not,
        Bool.not_eq_false', decide_eq_true_eq] at hs
      simp [isByteArray, hs]

theorem wellTyped_kind (f : Field) (hw : f.wellTyped) :
    isFixedInt f.kind = true ∨ isByteArray f.kind = true := by
  obtain ⟨kind, canSet, val⟩ := f
  cases kind <;> cases val <;> simp only [Field.wellTyped, isFixedInt, true_or] at hw ⊢
  rename_i elemSize elemUint8 len b
  right
  split at hw <;> simp_all [isByteArray]

/-- C20, amended: `skip` lets a field through exactly when the field is settable
and is an integer of 1, 2, 4 or 8 bytes or an array whose elements have size 1.
Of these, the integers and the arrays of bytes are serialised: whenever `Write`
returns bytes, every field it did not skip is one of them and stands in the
output with its size, and a record whose other fields are skipped is written.  A
settable array whose elements have size 1 and are not bytes is let through as
well, and then `Write` panics and `Read` fails and leaves the record as it was.
A field that is skipped adds nothing to the output of `Write`, nothing to the
size that `Read` consumes, and `Read` leaves it as it is in the destination
record, whatever it does with the fields around it. -/
theorem C20_skipped_fields_amended (order : ByteOrder) :
    (∀ f : Field, skip f = false ↔
      (f.canSet = true ∧ (isFixedInt f.kind = true ∨ isByteSizedArray f.kind = true)))
    ∧ (∀ (fields : List Field) (out : List Nat), Write order fields = .ok out →
        ∀ pre f post, fields = pre ++ f :: post → skip f = false →
          f.canSet = true ∧ (isFixedInt f.kind = true ∨ isByteArray f.kind = true)
          ∧ ∃ b, encodeField order f = .ok b ∧ b.length = f.kind.Size
              ∧ (out.drop (size pre)).take f.kind.Size = b)
    ∧ (∀ f : Field, f.canSet = true → f.wellTyped →
        skip f = false ∧ (isFixedInt f.kind = true ∨ isByteArray f.kind = true))
    ∧ (∀ fields : List Field,
        (∀ g ∈ fields, skip g = true ∨ (g.canSet = true ∧ g.wellTyped)) →
          ∃ out, Write order fields = .ok out ∧ out.length = size fields)
    ∧ (∀ f : Field, f.canSet = true → isByteSizedArray f.kind = true →
        isByteArray f.kind = false →
          skip f = false
          ∧ ∀ pre post : List Field,
              Write order (pre ++ f :: post) = .error Err.panic
              ∧ ∀ file : Buffer,
                  (Read file order (pre ++ f :: post)).1 ≠ none
                  ∧ (Read file order (pre ++ f :: post)).2.1 = pre ++ f :: post)
    ∧ (∀ (pre post : List Field) (f : Field), skip f = true →
        Write order (pre ++ f :: post) = Write order (pre ++ post)
        ∧ size (pre ++ f :: post) = size (pre ++ post)
        ∧ ∀ file : Buffer,
            Read file order (pre ++ f :: post)
              = ((Read file order (pre ++ post)).1,
                  (Read file order (pre ++ post)).2.1.take pre.length
                    ++ f :: (Read file order (pre ++ post)).2.1.drop pre.length,
                  (Read file order (pre ++ post)).2.2)) := by
  refine ⟨?_, ?_, ?_, ?_, ?_, ?_⟩
  · intro f
    obtain ⟨kind, canSet, val⟩ := f
    cases canSet <;> cases kind <;> simp [skip, isFixedInt, isByteSizedArray]
  · intro fields out h pre f post hfs hs
    subst hfs
    obtain ⟨x, b, y, _, he, _, ho, hx, hb⟩ := writeFields_layout order pre post f out hs h
    obtain ⟨hc, hk⟩ := encodeField_ok_kind order f b hs he
    refine ⟨hc, hk, b, he, hb, ?_⟩
    rw [ho, List.append_assoc, ← hx, List.drop_left, ← hb, List.take_left]
  · intro f hc hw
    exact ⟨(field_round_trip order f f hc hw rfl rfl).1, wellTyped_kind f hw⟩
  · intro fields hf
    obtain ⟨out, hw, _⟩ := readFields_writeFields_skip order fields fields rfl hf
    exact ⟨out, hw, writeFields_length order fields out hw⟩
  · intro f hc ha hb
    obtain ⟨kind, canSet, val⟩ := f
    simp only at hc
    subst hc
    cases kind <;> simp only [isByteSizedArray, Bool.false_eq_true] at ha
    rename_i elemSize elemUint8 len
    simp only [decide_eq_true_eq] at ha
    subst ha
    cases elemUint8
    · have hs : skip { kind := .Array 1 false len, canSet := true, val := val } = false := by
        simp [skip]
      have he : encodeField order { kind := .Array 1 false len, canSet := true, val := val }
          = .error Err.panic := by
        cases val <;> rfl
      have hd : ∀ buf, ∃ e, decodeField order
          { kind := .Array 1 false len, canSet := true, val := val } buf = .error e :=
        fun _ => ⟨Err.panic, rfl⟩
      refine ⟨hs, fun pre post => ⟨writeFields_bad order _ _ hs he pre post, fun file => ?_⟩⟩
      unfold Read
      rcases file.ReadFull (size (pre ++ _ :: post)) with ⟨⟨buf, e⟩, file2⟩
      cases e with
      | some e => simp
      | none =>
        obtain ⟨e, hr⟩ := readFields_bad order _ hs hd post pre buf
        simp only [hr]
        simp
    · simp [isByteArray] at hb
  · intro pre post f hs
    refine ⟨?_, ?_, Read_skip_insert order pre post f hs⟩
    · unfold Write
      rw [writeFields_append, writeFields_append]
      simp only [writeFields, hs, if_true]
    · rw [size_append, size_append, size_cons, hs]; simp

/-- C20, counterexample: a settable field of the type `[4]int8` is an array whose
elements have size 1, and `skip` lets it through; but it is not serialised:
`Write` of the record that holds it panics under either byte order, and `Read`
into it panics after taking 4 bytes from the file. -/
theorem C20_skipped_fields_counterexample :
    Sample.int8Array.canSet = true
    ∧ isByteSizedArray Sample.int8Array.kind = true
    ∧ skip Sample.int8Array = false
    ∧ size [Sample.int8Array] = 4
    ∧ Write ByteOrder.LE [Sample.int8Array] = .error Err.panic
    ∧ Write ByteOrder.BE [Sample.int8Array] = .error Err.panic
    ∧ Read { buffer := [1, 2, 3, 4], offset := 0 } ByteOrder.LE [Sample.int8Array]
        = (some Err.panic, [Sample.int8Array], { buffer := [1, 2, 3, 4], offset := 4 }) :=
  ⟨rfl, rfl, rfl, rfl, rfl, rfl, rfl⟩

end binary

namespace binary

/-- C18, witness: the record of the least and greatest values, written and read
back in little-endian order into a record of zero values. -/
theorem C18_binary_round_trip_witness :
    ∃ out, Write ByteOrder.LE Sample.minMax = .ok out
      ∧ Read { buffer := [] ++ out ++ [], offset := ([] : List Nat).length } ByteOrder.LE
          Sample.minMaxZero
          = (none, Sample.minMax,
              { buffer := [] ++ out ++ [], offset := ([] : List Nat).length + out.length }) :=
  C18_binary_round_trip ByteOrder.LE Sample.minMax Sample.minMaxZero [] []
    (by simp [Sample.minMax, Field.wellTyped]) rfl

/-- C19, witness: the record of `TestBinaryByteOrder` in big-endian order. -/
theorem C19_write_layout_witness :
    Write ByteOrder.BE Sample.byteOrderValues
        = .ok [0x12, 0x34, 0x12, 0x34, 0x56, 0x78, 0x12, 0x34, 0x56, 0x78, 0x90, 0xAB, 0xCD, 0xEF]
    ∧ [0x12, 0x34, 0x12, 0x34, 0x56, 0x78, 0x12, 0x34, 0x56, 0x78, 0x90, 0xAB, 0xCD, 0xEF].length
        = size Sample.byteOrderValues :=
  ⟨rfl,
    (C19_write_layout ByteOrder.BE Sample.byteOrderValues
      [0x12, 0x34, 0x12, 0x34, 0x56, 0x78, 0x12, 0x34, 0x56, 0x78, 0x90, 0xAB, 0xCD, 0xEF]
      rfl).1⟩

end binary

theorem newArchiveReader_gated (P : Prims) {δ : Type} (L : ReadLayers δ) (key : List Nat)
    (f0 : Buffer) (rest : List Buffer) (cuts1 cuts2 : List Nat) (t : List Event) :
    gated (verify P key f0 cuts1).1 ((newArchiveReader P L key (f0 :: rest) cuts1 cuts2).after t)
      ∧ Event.verify ∈ ((newArchiveReader P L key (f0 :: rest) cuts1 cuts2).after t).trace := by
  unfold newArchiveReader
  rcases hv : verify P key f0 cuts1 with ⟨⟨b, e⟩, f⟩
  cases e with
  | some e => cases b <;> simp [hv, gated, ReaderResult.after]
  | none => cases b <;> simp [hv, gated, ReaderResult.after]

theorem readShards_trace (shards : List ShardArchive) :
    ∀ (i : Nat) (shares : List (Nat × List Nat)),
      match ShardArchive.readShards shards i shares with
      | .error (_, t) => Event.verify ∉ t ∧ Event.deriveKey ∉ t
      | .ok (_, _, t) => Event.verify ∉ t ∧ Event.deriveKey ∉ t := by
  induction shards with
  | nil => intro i shares; simp [ShardArchive.readShards]
  | cons s rest ih =>
    intro i shares
    rw [ShardArchive.readShards_cons]
    cases (binary.Read s.File binary.ByteOrder.LE s.fields).1 with
    | some e => simp
    | none =>
      simp only
      split_ifs
      · simp
      · simp
      · simp
      · have := ih (i + 1) (mapSet shares s.parsed.ID s.parsed.Share)
        rcases hr : ShardArchive.readShards rest (i + 1)
            (mapSet shares s.parsed.ID s.parsed.Share) with ⟨e, t⟩ | ⟨sh, r2, t⟩
        · rw [hr] at this; simpa using this
        · rw [hr] at this; simpa using this

/-- C1: for each of the three drivers, `Reader()` returns a reader only after the
`verify` scan of the first file, from the end of its header on and under the key
the driver derived, and only if that scan returned true; when the scan returns
false the result is `(nil, ErrInvalidArchive)`, when it returns an error the
result is `(nil, that error)`. -/
theorem C1_reader_gated_by_verify (P : Prims) {δ : Type} (L : ReadLayers δ)
    (cuts1 cuts2 : List Nat) :
    (∀ a : PasswordArchive,
      ((a.Reader P L cuts1 cuts2).reader.isSome → Event.verify ∈ (a.Reader P L cuts1 cuts2).trace)
      ∧ (Event.verify ∈ (a.Reader P L cuts1 cuts2).trace →
          ∃ key, a.parsed.Key P = .ok key
            ∧ gated (verify P key a.parsed.File cuts1).1 (a.Reader P L cuts1 cuts2)))
    ∧ (∀ a : Curve448Archive,
      ((a.Reader P L cuts1 cuts2).reader.isSome → Event.verify ∈ (a.Reader P L cuts1 cuts2).trace)
      ∧ (Event.verify ∈ (a.Reader P L cuts1 cuts2).trace →
          ∃ priv key, a.parsed.PrivateKey = some priv
            ∧ ComputeSharedKey P a.parsed.Ephemeral priv KeySize = (some key, none)
            ∧ gated (verify P key a.parsed.File cuts1).1 (a.Reader P L cuts1 cuts2)))
    ∧ (∀ shards : List ShardArchive,
      ((ShardArchive.Reader P L shards cuts1 cuts2).reader.isSome →
          Event.verify ∈ (ShardArchive.Reader P L shards cuts1 cuts2).trace)
      ∧ (Event.verify ∈ (ShardArchive.Reader P L shards cuts1 cuts2).trace →
          ∃ shares shards2 t f0 rest,
            ShardArchive.readShards shards 0 [] = .ok (shares, shards2, t)
            ∧ ShardArchive.Files shards2 = f0 :: rest
            ∧ gated (verify P (P.combine shares) f0 cuts1).1
                (ShardArchive.Reader P L shards cuts1 cuts2))) := by
  refine ⟨?_, ?_, ?_⟩
  · intro a
    rw [PasswordArchive.Reader_eq_password]
    cases (binary.Read a.File binary.ByteOrder.LE a.fields).1 with
    | some e => simp [ReaderResult.fail]
    | none =>
      simp only
      split_ifs
      · simp [ReaderResult.fail]
      · simp [ReaderResult.fail]
      · simp [ReaderResult.fail]
      · cases hk : a.parsed.Key P with
        | error e => simp [ReaderResult.fail]
        | ok key =>
          simp only
          obtain ⟨g, m⟩ := newArchiveReader_gated P L key a.parsed.File [] cuts1 cuts2
            [Event.readHeader 0, Event.deriveKey]
          exact ⟨fun _ => m, fun _ => ⟨key, rfl, g⟩⟩
  · intro a
    rw [Curve448Archive.Reader_eq_curve]
    cases (binary.Read a.File binary.ByteOrder.LE a.fields).1 with
    | some e => simp [ReaderResult.fail]
    | none =>
      simp only
      split_ifs
      · simp [ReaderResult.fail]
      · simp [ReaderResult.fail]
      · simp [ReaderResult.fail]
      · cases hp : a.parsed.PrivateKey with
        | none => simp [ReaderResult.fail]
        | some priv =>
          simp only
          rcases hc : ComputeSharedKey P a.parsed.Ephemeral priv KeySize with ⟨k, e⟩
          cases e with
          | some e => simp [ReaderResult.fail]
          | none =>
            cases k with
            | none => simp [ReaderResult.fail]
            | some key =>
              simp only
              obtain ⟨g, m⟩ := newArchiveReader_gated P L key a.parsed.File [] cuts1 cuts2
                [Event.readHeader 0, Event.deriveKey]
              exact ⟨fun _ => m, fun _ => ⟨priv, key, rfl, hc, g⟩⟩
  · intro shards
    unfold ShardArchive.Reader
    have ht := readShards_trace shards 0 []
    rcases hr : ShardArchive.readShards shards 0 [] with ⟨e, t⟩ | ⟨shares, shards2, t⟩
    · rw [hr] at ht
      simp only at ht
      simp [ReaderResult.fail, ht.1]
    · rw [hr] at ht
      simp only at ht
      simp only
      cases hf : ShardArchive.Files shards2 with
      | nil =>
        simp [newArchiveReader, ReaderResult.after, ht.1]
      | cons f0 rest =>
        obtain ⟨g, m⟩ := newArchiveReader_gated P L (P.combine shares) f0 rest cuts1 cuts2
          (t ++ [Event.deriveKey])
        exact ⟨fun _ => m, fun _ => ⟨shares, shards2, t, f0, rest, rfl, hf, g⟩⟩

namespace archive

open xchacha20poly1305

theorem storeTag_eq (tag rest : List Nat) (ht : tag.length = 16) (w : List Nat)
    (hw : w = List.replicate 16 0 ++ rest) : storeTag w tag = tag ++ rest := by
  subst hw
  unfold storeTag
  rw [ht, Nat.min_self]
  simp only [List.length_append, List.length_replicate]
  rw [Nat.min_eq_left (by omega), List.take_of_length_le (by omega),
    List.drop_append_of_le_length (by simp), List.drop_of_length_le (by simp), List.nil_append]

/-- A stream that holds a tag, a nonce and a payload verifies, under a 32-byte
key, exactly when the tag is the tag of a MAC that has seen the payload. -/
theorem Verify_eq (P : Prims) (key tag nonce ct cuts : List Nat) (m : poly1305.Poly1305)
    (hk : key.length = 32) (ht : tag.length = 16) (hn : nonce.length = 24)
    (hm : poly1305.MacOf (poly1305.Poly1305.Init (KeyStream P key nonce 0 32)) ct m) :
    Verify P { data := tag ++ nonce ++ ct, cuts := cuts, err := none } key
      = (decide (tag = m.Sum []), none) := by
  obtain ⟨a, ha, hinv, hdata, herr, _⟩ := NewArchiveFromReader_spec P
    { data := tag ++ nonce ++ ct, cuts := cuts, err := none } key tag nonce ct hk ht hn rfl
  obtain ⟨a2, hl, hinv2, hnil⟩ := discardLoop_spec P key nonce tag ct (a.Reader.data.length + 1) a
    hinv (by omega)
  simp only at herr
  simp only [Verify, ha, hl, herr, Option.getD_none, if_true]
  rw [hinv2.Verify_exhausted hnil m hm]

/-- C4: for every 32-byte key and every sequence of `Add` and `Copy` calls made
on a writer from `NewWriter`, `Finish` having returned a tag, the output with that
tag stored in its first 16 bytes makes `archive.Verify` return `(true, nil)`,
whatever the slices in which the layers wrote and in which the verifier reads. -/
theorem C4_finished_archive_verifies (P : Prims) {ω : Type} (L : WriteLayers ω)
    (key bytes : List Nat) (ops : List Op) (cuts : List Nat) (hk : key.length = 32) :
    ∃ w0 : Writer ω, (NewWriter P L [] key (.ok bytes)).1 = (some w0, none)
      ∧ ∀ tag, ((Writer.run P L ops w0).2.Finish P L).1 = (some tag, none) →
          Verify P
            { data := storeTag ((Writer.run P L ops w0).2.Finish P L).2.archive.Writer tag
              cuts := cuts, err := none } key = (true, none) := by
  obtain ⟨w0, h0, hinv, htag⟩ := Writer.pipeline P L key bytes ops hk
  refine ⟨w0, h0, ?_⟩
  intro tag ht
  have hT := htag tag ht
  obtain ⟨_, _, _, hw, hm⟩ := hinv
  have hlen : tag.length = 16 := by rw [hT]; exact poly1305.Sum_nil_length _
  rw [storeTag_eq tag (fit 24 bytes ++ xorAt P key (fit 24 bytes) 64 (plainStream L ops)) hlen _
    (by rw [hw, List.append_assoc]), ← List.append_assoc,
    Verify_eq P key tag (fit 24 bytes) _ cuts _ hk hlen (fit_length _ _) hm]
  simp [hT]

/-- C4, witness: a 32-byte key and one entry; `Finish` returns a tag and the
patched output verifies. -/
theorem C4_finished_archive_verifies_witness :
    Sample.key.length = 32 ∧
    ∃ (w0 : Writer Unit) (tag : List Nat),
      (NewWriter Sample.prims Sample.writeLayers [] Sample.key (.ok [1, 2, 3])).1 = (some w0, none)
      ∧ ((Writer.run Sample.prims Sample.writeLayers (entryOps Sample.entries) w0).2.Finish
            Sample.prims Sample.writeLayers).1 = (some tag, none)
      ∧ Verify Sample.prims
          { data := storeTag
              ((Writer.run Sample.prims Sample.writeLayers (entryOps Sample.entries) w0).2.Finish
                Sample.prims Sample.writeLayers).2.archive.Writer tag
            cuts := [3, 1], err := none } Sample.key = (true, none) := by
  refine ⟨by decide, ?_⟩
  obtain ⟨w0, h0, h⟩ := C4_finished_archive_verifies Sample.prims Sample.writeLayers Sample.key
    [1, 2, 3] (entryOps Sample.entries) [3, 1] (by decide)
  exact ⟨w0, _, h0, rfl, h _ rfl⟩

end archive

namespace archive

open xchacha20poly1305

theorem Pull.run_bind (P : Prims) {α β : Type} (m : Pull α) (f : α → Pull β) :
    ∀ a : Archive, Pull.run P (Pull.bind m f) a
      = Pull.run P (f (Pull.run P m a).1) (Pull.run P m a).2 := by
  induction m with
  | ret v => intro a; rfl
  | read n k ih =>
    intro a
    simp only [Pull.bind]
    rw [Pull.run_read, Pull.run_read, ih]

/-- Opening a reader and reading `n` entries is the run of `session` against the
archive that `NewArchiveFromReader` returns. -/
theorem openAndRead_eq (P : Prims) {δ : Type} (L : ReadLayers δ) (fuel n : Nat) (r : Source)
    (key : List Nat) (a : Archive) (h : NewArchiveFromReader P r key = (some a, none)) :
    openAndRead P L fuel n r key = (Pull.run P (session L fuel n) a).1 := by
  unfold openAndRead NewReader session
  rw [h, Pull.run_bind]
  rcases hs : Pull.run P L.start a with ⟨⟨d, e⟩, a2⟩
  cases e with
  | some e => simp only [hs]; rfl
  | none =>
    simp only [hs, Reader.readEntries]
    rw [Pull.run_bind]
    rfl

theorem NewReader_archive (P : Prims) {δ : Type} (L : ReadLayers δ) (src : Source)
    (key : List Nat) (a : Archive) (r : Reader δ)
    (ha : NewArchiveFromReader P src key = (some a, none))
    (hr : NewReader P L src key = (some r, none)) :
    r.archive = (Pull.run P L.start a).2 := by
  simp only [NewReader, ha] at hr
  split at hr
  · simp at hr
  · rename_i d a2 heq
    simp only [Prod.mk.injEq, Option.some.injEq, and_true] at hr
    rw [← hr, heq]

/-- C2: for every 32-byte key and entries written with `NewWriter`, `Add`, `Copy`
and `Finish` (the tag stored in bytes 0..16), a client that opens the output
with `NewReader` under the same key and reads `n` entries gets exactly what the
tar and gzip readers yield on the byte stream the tar and gzip writers produced
(so the same entries in the same order, with their names, sizes and bodies, as
tar and gzip round-trip); and `Reader.Verify()` then returns true, the gzip
reader having by then taken the ciphertext from the archive to its end. -/
theorem C2_round_trip (P : Prims) {ω δ : Type} (LW : WriteLayers ω)
    (LR : ReadLayers δ) (key bytes : List Nat) (es : List Entry) (cuts : List Nat)
    (fuel n : Nat) (hk : key.length = 32) :
    ∃ w0 : Writer ω, (NewWriter P LW [] key (.ok bytes)).1 = (some w0, none)
      ∧ ∀ tag, ((Writer.run P LW (entryOps es) w0).2.Finish P LW).1 = (some tag, none) →
          (∃ cuts2,
            openAndRead P LR fuel n
                { data := storeTag ((Writer.run P LW (entryOps es) w0).2.Finish P LW).2.archive.Writer
                    tag
                  cuts := cuts, err := none } key
              = (Pull.runPlain (session LR fuel n)
                  { data := plainStream LW (entryOps es), cuts := cuts2, err := none }).1)
          ∧ ∀ r : Reader δ,
              NewReader P LR
                  { data := storeTag
                      ((Writer.run P LW (entryOps es) w0).2.Finish P LW).2.archive.Writer tag
                    cuts := cuts, err := none } key = (some r, none) →
              (r.readEntries P LR fuel n).2.archive.Reader.data = [] →
              (r.readEntries P LR fuel n).2.Verify = true := by
  obtain ⟨w0, h0, hinv, htag⟩ := Writer.pipeline P LW key bytes (entryOps es) hk
  refine ⟨w0, h0, ?_⟩
  intro tag ht
  have hT := htag tag ht
  obtain ⟨_, _, _, hw, hm⟩ := hinv
  have hlen : tag.length = 16 := by rw [hT]; exact poly1305.Sum_nil_length _
  have hfile := storeTag_eq tag
    (fit 24 bytes ++ xorAt P key (fit 24 bytes) 64 (plainStream LW (entryOps es))) hlen
    ((Writer.run P LW (entryOps es) w0).2.Finish P LW).2.archive.Writer
    (by rw [hw, List.append_assoc])
  rw [hfile, ← List.append_assoc]
  obtain ⟨a, ha, hinvR, hdata, herr, hpos⟩ := NewArchiveFromReader_spec P
    { data := tag ++ fit 24 bytes ++ xorAt P key (fit 24 bytes) 64 (plainStream LW (entryOps es))
      cuts := cuts, err := none } key tag (fit 24 bytes) _ hk hlen (fit_length _ _) rfl
  have hsim : Sim P a { data := plainStream LW (entryOps es), cuts := a.Reader.cuts, err := none } := by
    refine ⟨?_, rfl, ?_⟩
    · simp only
      rw [hdata, hinvR.1, hinvR.2.1, hpos, xorAt_xorAt]
    · simp only; rw [herr]
  refine ⟨⟨a.Reader.cuts, ?_⟩, ?_⟩
  · rw [openAndRead_eq P LR fuel n _ key a ha]
    exact (Sim.run_plain (session LR fuel n) hsim).1
  · intro r hr hnil
    have hra : r.archive = (Pull.run P LR.start a).2 := NewReader_archive P LR _ key a r ha hr
    have hinv1 : RInv P key (fit 24 bytes) tag
        (xorAt P key (fit 24 bytes) 64 (plainStream LW (entryOps es))) r.archive := by
      rw [hra]; exact RInv.run_keeps LR.start hinvR
    have hinv2 : RInv P key (fit 24 bytes) tag
        (xorAt P key (fit 24 bytes) 64 (plainStream LW (entryOps es)))
        (r.readEntries P LR fuel n).2.archive :=
      RInv.run_keeps (readEntries LR fuel n r.layers) hinv1
    unfold Reader.Verify
    rw [hinv2.Verify_exhausted hnil _ hm]
    simp [hT]

/-- C2, witness: a 32-byte key and one entry, read through layers with the
read-ahead of `gzip.NewReader`; there the client reads back the entry that was
written, the ciphertext has been taken to its end, and `Verify()` returns true. -/
theorem C2_round_trip_witness :
    Sample.key.length = 32
    ∧ (∃ w0 : Writer Unit,
      (NewWriter Sample.prims Sample.writeLayers [] Sample.key (.ok [1, 2, 3])).1 = (some w0, none)
      ∧ ∀ tag,
          ((Writer.run Sample.prims Sample.writeLayers (entryOps Sample.entries) w0).2.Finish
            Sample.prims Sample.writeLayers).1 = (some tag, none) →
          (∃ cuts2,
            openAndRead Sample.prims Sample.aheadLayers 10 1
                { data := storeTag
                    ((Writer.run Sample.prims Sample.writeLayers (entryOps Sample.entries) w0).2.Finish
                      Sample.prims Sample.writeLayers).2.archive.Writer tag
                  cuts := [], err := none } Sample.key
              = (Pull.runPlain (session Sample.aheadLayers 10 1)
                  { data := plainStream Sample.writeLayers (entryOps Sample.entries), cuts := cuts2
                    err := none }).1)
          ∧ ∀ r : Reader (List Nat × Nat),
              NewReader Sample.prims Sample.aheadLayers
                  { data := storeTag
                      ((Writer.run Sample.prims Sample.writeLayers (entryOps Sample.entries)
                        w0).2.Finish Sample.prims Sample.writeLayers).2.archive.Writer tag
                    cuts := [], err := none } Sample.key = (some r, none) →
              (r.readEntries Sample.prims Sample.aheadLayers 10 1).2.archive.Reader.data = [] →
              (r.readEntries Sample.prims Sample.aheadLayers 10 1).2.Verify = true)
    ∧ ∃ r : Reader (List Nat × Nat),
        NewReader Sample.prims Sample.aheadLayers
            { data := Sample.file, cuts := [], err := none } Sample.key = (some r, none)
        ∧ (r.readEntries Sample.prims Sample.aheadLayers 10 1).1 = (Sample.entries, none)
        ∧ (r.readEntries Sample.prims Sample.aheadLayers 10 1).2.archive.Reader.data = []
        ∧ (r.readEntries Sample.prims Sample.aheadLayers 10 1).2.Verify = true :=
  ⟨by decide, C2_round_trip Sample.prims Sample.writeLayers Sample.aheadLayers Sample.key
    [1, 2, 3] Sample.entries [] 10 1 (by decide),
    (NewReader Sample.prims Sample.aheadLayers
      { data := Sample.file, cuts := [], err := none } Sample.key).1.getD
        { layers := ([], 0)
          archive := { x := zero, tag := [], Reader := noSource, Writer := [] } },
    rfl, by decide, by decide, by decide⟩

end archive

theorem readShards_passes (pre : List ShardArchive) (hp : ∀ x ∈ pre, x.passes)
    (tail : List ShardArchive) (e : Err) :
    (∀ j sh, ∃ t, ShardArchive.readShards tail j sh = .error (e, t)) →
    ∀ i shares, ∃ t, ShardArchive.readShards (pre ++ tail) i shares = .error (e, t) := by
  intro htail
  induction pre with
  | nil => intro i shares; simpa using htail i shares
  | cons s rest ih =>
    intro i shares
    obtain ⟨hlen, hv, ht1, ht2⟩ := hp s (by simp)
    obtain ⟨h1, h2, h3, _⟩ := ShardArchive.header_shard s hlen
    obtain ⟨t, ht⟩ := ih (fun x hx => hp x (by simp [hx])) (i + 1)
      (mapSet shares s.parsed.ID s.parsed.Share)
    refine ⟨Event.readHeader i :: t, ?_⟩
    rw [List.cons_append, ShardArchive.readShards_cons, h1]
    simp only [h2, h3, hv, ht1, ht2, ne_eq, not_true_eq_false, if_false, ht]

theorem readShards_head (s : ShardArchive) (rest : List ShardArchive) (e : Err)
    (hlen : s.File.offset + 35 ≤ s.File.buffer.length)
    (hrej : (s.File.byteAt 0 % 256 ≠ Version ∧ e = Err.ErrInvalidVersion)
      ∨ (s.File.byteAt 0 % 256 = Version ∧ s.File.byteAt 1 % 256 = Password
          ∧ e = Err.ErrPasswordArchive)
      ∨ (s.File.byteAt 0 % 256 = Version ∧ s.File.byteAt 1 % 256 = Curve448
          ∧ e = Err.ErrCurve448Archive)) (j : Nat) (sh : List (Nat × List Nat)) :
    ShardArchive.readShards (s :: rest) j sh = .error (e, [Event.readHeader j]) := by
  obtain ⟨h1, h2, h3, _⟩ := ShardArchive.header_shard s hlen
  rw [ShardArchive.readShards_cons, h1]
  rcases hrej with ⟨hv, rfl⟩ | ⟨hv, ht, rfl⟩ | ⟨hv, ht, rfl⟩
  · simp [h2, hv]
  · simp [h2, h3, hv, ht]
  · simp [h2, h3, hv, ht, Curve448, Password]

/-- C6: a file that holds the driver's header with version byte 1 and type byte
`T` among 1, 2, 3, opened by a driver of another mode, makes `Reader()` return
`nil` and the error that names the type `T`; that error is not
`ErrInvalidArchive`, and it is returned before a key is derived or a scan is
made.  For the shard driver the file may come after shards whose headers pass
the checks. -/
theorem C6_type_separation (P : Prims) {δ : Type} (L : ReadLayers δ) (cuts1 cuts2 : List Nat)
    (T : Nat) :
    (∀ a : PasswordArchive, a.File.offset + 42 ≤ a.File.buffer.length →
      a.File.byteAt 0 = 1 → a.File.byteAt 1 = T → (T = 2 ∨ T = 3) →
      (a.Reader P L cuts1 cuts2).reader.isNone
        ∧ (a.Reader P L cuts1 cuts2).err = some (typeErr T)
        ∧ typeErr T ≠ Err.ErrInvalidArchive
        ∧ Event.deriveKey ∉ (a.Reader P L cuts1 cuts2).trace
        ∧ Event.verify ∉ (a.Reader P L cuts1 cuts2).trace)
    ∧ (∀ a : Curve448Archive, a.File.offset + 58 ≤ a.File.buffer.length →
      a.File.byteAt 0 = 1 → a.File.byteAt 1 = T → (T = 1 ∨ T = 3) →
      (a.Reader P L cuts1 cuts2).reader.isNone
        ∧ (a.Reader P L cuts1 cuts2).err = some (typeErr T)
        ∧ typeErr T ≠ Err.ErrInvalidArchive
        ∧ Event.deriveKey ∉ (a.Reader P L cuts1 cuts2).trace
        ∧ Event.verify ∉ (a.Reader P L cuts1 cuts2).trace)
    ∧ (∀ (pre : List ShardArchive) (s : ShardArchive) (post : List ShardArchive),
      (∀ x ∈ pre, x.passes) → s.File.offset + 35 ≤ s.File.buffer.length →
      s.File.byteAt 0 = 1 → s.File.byteAt 1 = T → (T = 1 ∨ T = 2) →
      (ShardArchive.Reader P L (pre ++ s :: post) cuts1 cuts2).reader.isNone
        ∧ (ShardArchive.Reader P L (pre ++ s :: post) cuts1 cuts2).err = some (typeErr T)
        ∧ typeErr T ≠ Err.ErrInvalidArchive
        ∧ Event.deriveKey ∉ (ShardArchive.Reader P L (pre ++ s :: post) cuts1 cuts2).trace
        ∧ Event.verify ∉ (ShardArchive.Reader P L (pre ++ s :: post) cuts1 cuts2).trace) := by
  refine ⟨?_, ?_, ?_⟩
  · intro a hlen hv ht hT
    obtain ⟨h1, h2, h3, _⟩ := PasswordArchive.header_password a hlen
    rw [PasswordArchive.Reader_eq_password, h1]
    rcases hT with rfl | rfl <;>
      simp [h2, h3, hv, ht, Version, Curve448, Shard, Password, typeErr, ReaderResult.fail]
  · intro a hlen hv ht hT
    obtain ⟨h1, h2, h3, _⟩ := Curve448Archive.header_curve a hlen
    rw [Curve448Archive.Reader_eq_curve, h1]
    rcases hT with rfl | rfl <;>
      simp [h2, h3, hv, ht, Version, Curve448, Shard, Password, typeErr, ReaderResult.fail]
  · intro pre s post hpre hlen hv ht hT
    have hrej : ∀ j sh, ∃ t, ShardArchive.readShards (s :: post) j sh
        = .error (typeErr T, t) := by
      intro j sh
      refine ⟨[Event.readHeader j], readShards_head s post _ hlen ?_ j sh⟩
      rcases hT with rfl | rfl
      · right; left; simp [hv, ht, Version, Password, typeErr]
      · right; right; simp [hv, ht, Version, Curve448, Password, typeErr]
    obtain ⟨t, hr⟩ := readShards_passes pre hpre (s :: post) (typeErr T) hrej 0 []
    have htr := readShards_trace (pre ++ s :: post) 0 []
    rw [hr] at htr
    simp only at htr
    unfold ShardArchive.Reader
    rw [hr]
    refine ⟨rfl, rfl, ?_, htr.2, htr.1⟩
    rcases hT with rfl | rfl <;> simp [typeErr, Password, Curve448]

/-- C6, witness: a file with the type byte 2 opened by the password driver, a
file with the type byte 3 opened by the Curve448 driver, and a file with the type
byte 2 opened as the second shard, each applied to the matching part. -/
theorem C6_type_separation_witness :
    ((NewPasswordArchive [112] 1 8 { buffer := [1, 2] ++ List.replicate 98 0, offset := 0 }).Reader
        Sample.prims Sample.readLayers [] []).err = some Err.ErrCurve448Archive
    ∧ ((NewCurve448Archive none none { buffer := [1, 3] ++ List.replicate 98 0, offset := 0 }).Reader
        Sample.prims Sample.readLayers [] []).err = some Err.ErrShardArchive
    ∧ (ShardArchive.Reader Sample.prims Sample.readLayers
        (NewShardArchive 2 [{ buffer := [1, 3] ++ List.replicate 98 0, offset := 0 },
          { buffer := [1, 2] ++ List.replicate 98 0, offset := 0 }]) [] []).err
        = some Err.ErrCurve448Archive := by
  have h := C6_type_separation Sample.prims Sample.readLayers [] []
  refine ⟨?_, ?_, ?_⟩
  · exact ((h 2).1 _ (by decide) (by decide) (by decide) (by decide)).2.1
  · exact ((h 3).2.1 _ (by decide) (by decide) (by decide) (by decide)).2.1
  · exact ((h 2).2.2
      (NewShardArchive 2 [{ buffer := [1, 3] ++ List.replicate 98 0, offset := 0 }])
      { Version := 1, Type_ := 3, ID := 0, Share := List.replicate 32 0, Threshold := 2
        File := { buffer := [1, 2] ++ List.replicate 98 0, offset := 0 } } []
      (by decide) (by decide) (by decide) (by decide) (by decide)).2.1

/-- C8: when the version byte of the header of the (first) file is not 1, each
driver's `Reader()` returns `nil` and `ErrInvalidVersion`, whatever the type byte,
and the only call it has made is the read of that header. -/
theorem C8_version_checked_first (P : Prims) {δ : Type} (L : ReadLayers δ)
    (cuts1 cuts2 : List Nat) :
    (∀ a : PasswordArchive, a.File.offset + 42 ≤ a.File.buffer.length →
      a.File.byteAt 0 < 256 → a.File.byteAt 0 ≠ 1 →
      (a.Reader P L cuts1 cuts2).reader.isNone
        ∧ (a.Reader P L cuts1 cuts2).err = some Err.ErrInvalidVersion
        ∧ (a.Reader P L cuts1 cuts2).trace = [Event.readHeader 0])
    ∧ (∀ a : Curve448Archive, a.File.offset + 58 ≤ a.File.buffer.length →
      a.File.byteAt 0 < 256 → a.File.byteAt 0 ≠ 1 →
      (a.Reader P L cuts1 cuts2).reader.isNone
        ∧ (a.Reader P L cuts1 cuts2).err = some Err.ErrInvalidVersion
        ∧ (a.Reader P L cuts1 cuts2).trace = [Event.readHeader 0])
    ∧ (∀ (s : ShardArchive) (rest : List ShardArchive),
      s.File.offset + 35 ≤ s.File.buffer.length →
      s.File.byteAt 0 < 256 → s.File.byteAt 0 ≠ 1 →
      (ShardArchive.Reader P L (s :: rest) cuts1 cuts2).reader.isNone
        ∧ (ShardArchive.Reader P L (s :: rest) cuts1 cuts2).err = some Err.ErrInvalidVersion
        ∧ (ShardArchive.Reader P L (s :: rest) cuts1 cuts2).trace = [Event.readHeader 0]) := by
  refine ⟨?_, ?_, ?_⟩
  · intro a hlen hb hv
    obtain ⟨h1, h2, _⟩ := PasswordArchive.header_password a hlen
    rw [PasswordArchive.Reader_eq_password, h1]
    simp [h2, Nat.mod_eq_of_lt hb, hv, Version, ReaderResult.fail]
  · intro a hlen hb hv
    obtain ⟨h1, h2, _⟩ := Curve448Archive.header_curve a hlen
    rw [Curve448Archive.Reader_eq_curve, h1]
    simp [h2, Nat.mod_eq_of_lt hb, hv, Version, ReaderResult.fail]
  · intro s rest hlen hb hv
    have hr := readShards_head s rest Err.ErrInvalidVersion hlen
      (Or.inl ⟨by rw [Nat.mod_eq_of_lt hb]; exact hv, rfl⟩) 0 []
    unfold ShardArchive.Reader
    rw [hr]
    exact ⟨rfl, rfl, rfl⟩

/-- C8, witness: files with the version byte 2 and the type bytes 1, 2 and 3. -/
theorem C8_version_checked_first_witness :
    ((NewPasswordArchive [112] 1 8 { buffer := [2, 1] ++ List.replicate 98 0, offset := 0 }).Reader
        Sample.prims Sample.readLayers [] []).err = some Err.ErrInvalidVersion
    ∧ ((NewCurve448Archive none none { buffer := [2, 2] ++ List.replicate 98 0, offset := 0 }).Reader
        Sample.prims Sample.readLayers [] []).err = some Err.ErrInvalidVersion
    ∧ (ShardArchive.Reader Sample.prims Sample.readLayers
        (NewShardArchive 2 [{ buffer := [2, 3] ++ List.replicate 98 0, offset := 0 }]) [] []).err
        = some Err.ErrInvalidVersion := by
  have h := C8_version_checked_first Sample.prims Sample.readLayers [] []
  refine ⟨?_, ?_, ?_⟩
  · exact (h.1 _ (by decide) (by decide) (by decide)).2.1
  · exact (h.2.1 _ (by decide) (by decide) (by decide)).2.1
  · exact (h.2.2
      { Version := 1, Type_ := 3, ID := 0, Share := List.replicate 32 0, Threshold := 2
        File := { buffer := [2, 3] ++ List.replicate 98 0, offset := 0 } } []
      (by decide) (by decide) (by decide)).2.1

/-- C7, amended: on a header with version byte 1, `PasswordArchive.Reader` rejects
the type bytes Curve448 (2) and Shard (3), with the error that names the type and
before it derives a key; for every other type byte, 1 or not, it goes on to
derive the key. -/
theorem C7_password_type_check_amended (P : Prims) {δ : Type} (L : ReadLayers δ)
    (cuts1 cuts2 : List Nat) (a : PasswordArchive)
    (hlen : a.File.offset + 42 ≤ a.File.buffer.length) (hv : a.File.byteAt 0 = 1)
    (hb : a.File.byteAt 1 < 256) :
    ((a.File.byteAt 1 = 2 ∨ a.File.byteAt 1 = 3) →
      (a.Reader P L cuts1 cuts2).reader.isNone
        ∧ (a.Reader P L cuts1 cuts2).err = some (typeErr (a.File.byteAt 1))
        ∧ (a.Reader P L cuts1 cuts2).trace = [Event.readHeader 0])
    ∧ (a.File.byteAt 1 ≠ 2 → a.File.byteAt 1 ≠ 3 →
        Event.deriveKey ∈ (a.Reader P L cuts1 cuts2).trace) := by
  obtain ⟨h1, h2, h3, _⟩ := PasswordArchive.header_password a hlen
  rw [PasswordArchive.Reader_eq_password, h1]
  simp only [h2, h3, hv, Nat.mod_eq_of_lt hb]
  refine ⟨?_, ?_⟩
  · intro hT
    rcases hT with h | h <;>
      simp [h, Version, Curve448, Shard, Password, typeErr, ReaderResult.fail]
  · intro n2 n3
    simp only [Version, Curve448, Shard, n2, n3, ne_eq, not_true_eq_false, if_false,
      Nat.one_mod]
    cases a.parsed.Key P with
    | error e => simp [ReaderResult.fail]
    | ok key => simp [ReaderResult.after]

/-- C7, witness: the written sample file with its type byte set to 0. -/
theorem C7_password_type_check_amended_witness :
    Event.deriveKey ∈
      ((NewPasswordArchive [112, 119] 1 8
          { buffer := Sample.passwordFile.set 1 0, offset := 0 }).Reader
        Sample.prims Sample.readLayers [] []).trace :=
  (C7_password_type_check_amended Sample.prims Sample.readLayers [] []
    (NewPasswordArchive [112, 119] 1 8 { buffer := Sample.passwordFile.set 1 0, offset := 0 })
    (by decide) (by decide) (by decide)).2 (by decide) (by decide)

/-- C7, counterexample: the file the password driver wrote for the sample, with
its type byte set to 0 instead of Password (1), is not rejected: `Reader()`
derives the key, runs the scan and returns a reader and a nil error. -/
theorem C7_password_type_check_counterexample :
    (Sample.passwordFile.set 1 0).getD 1 7 = 0
    ∧ ((NewPasswordArchive [112, 119] 1 8
          { buffer := Sample.passwordFile.set 1 0, offset := 0 }).Reader
        Sample.prims Sample.readLayers [] []).reader.isSome = true
    ∧ ((NewPasswordArchive [112, 119] 1 8
          { buffer := Sample.passwordFile.set 1 0, offset := 0 }).Reader
        Sample.prims Sample.readLayers [] []).err = none
    ∧ ((NewPasswordArchive [112, 119] 1 8
          { buffer := Sample.passwordFile.set 1 0, offset := 0 }).Reader
        Sample.prims Sample.readLayers [] []).trace
        = [Event.readHeader 0, Event.deriveKey, Event.verify, Event.newReader] := by
  decide

theorem take_drop_set_drop_one (buf : List Nat) (off n v : Nat) :
    (((buf.set off v).drop off).take n).drop 1 = ((buf.drop off).take n).drop 1 := by
  apply List.ext_getElem?
  intro i
  simp only [List.getElem?_drop, List.getElem?_take, List.getElem?_set]
  have : ¬ off = off + (1 + i) := by omega
  simp [this]

theorem KeyContainer.readFields_key (c : KeyContainer) (hdr : List Nat) :
    ∃ fs, binary.readFields binary.ByteOrder.LE c.fields hdr = .ok fs
      ∧ c.assign fs =
        { c with Version := hdr.getD 0 0 % 256
                 Type_ := (hdr.drop 1).getD 0 0 % 256
                 Iterations := binary.getUint binary.ByteOrder.LE 4 ((hdr.drop 1).drop 1)
                 Memory := binary.getUint binary.ByteOrder.LE 4 ((hdr.drop 1).drop 5)
                 Salt := ((hdr.drop 1).drop 9).take 32
                 Tag := ((hdr.drop 1).drop 41).take 16
                 Nonce := ((hdr.drop 1).drop 57).take 24
                 Key := ((hdr.drop 1).drop 81).take 56 } := by
  simp [binary.readFields, binary.skip, binary.decodeField, KeyContainer.fields,
    KeyContainer.assign, binary.Kind.Size]

/-- What `KeyContainer.read` returns apart from the container, the error and the
caller's key buffer, is a function of the header bytes after the version byte. -/
theorem KeyContainer.read_outcome (P : Prims) (c : KeyContainer) (t : Nat) (key : List Nat)
    (hlen : c.File.offset + 138 ≤ c.File.buffer.length) :
    ∃ g : List Nat → Option Err × List Nat,
      ∀ v, (({ c with File := { c.File with buffer := c.File.buffer.set c.File.offset v } }
          : KeyContainer).read P t key).1
          = (g (((c.File.buffer.drop c.File.offset).take 138).drop 1)).1
        ∧ (({ c with File := { c.File with buffer := c.File.buffer.set c.File.offset v } }
          : KeyContainer).read P t key).2.1
          = (g (((c.File.buffer.drop c.File.offset).take 138).drop 1)).2 := by
  refine ⟨fun rest =>
    let c2 : KeyContainer :=
      { c with Type_ := rest.getD 0 0 % 256
               Iterations := binary.getUint binary.ByteOrder.LE 4 (rest.drop 1)
               Memory := binary.getUint binary.ByteOrder.LE 4 (rest.drop 5)
               Salt := (rest.drop 9).take 32
               Tag := (rest.drop 41).take 16
               Nonce := (rest.drop 57).take 24
               Key := (rest.drop 81).take 56 }
    if c2.Type_ ≠ t ∧ t = Arc.Public then (some Err.ErrInvalidPublicKey, key)
    else if c2.Type_ ≠ t ∧ t = Arc.Private then (some Err.ErrInvalidPrivateKey, key)
    else
      match c2.cipher P with
      | (_, some e) => (some e, key)
      | (none, none) => (some Err.panic, key)
      | (some x, none) =>
        if c2.Tag ≠ xchacha20poly1305.Tag (xchacha20poly1305.Decrypt P x c2.Key).1 [] then
          (some Err.ErrInvalidPrivateKey, (xchacha20poly1305.Decrypt P x c2.Key).2)
        else (none, (xchacha20poly1305.Decrypt P x c2.Key).2), ?_⟩
  intro v
  have hs : ∀ c : KeyContainer, binary.size c.fields = 138 := fun _ => rfl
  have hlen2 : c.File.offset + 138 ≤ (c.File.buffer.set c.File.offset v).length := by
    simpa using hlen
  rw [← take_drop_set_drop_one c.File.buffer c.File.offset 138 v]
  generalize hh : ((c.File.buffer.set c.File.offset v).drop c.File.offset).take 138 = hdr
  obtain ⟨fs, hfs, has⟩ := KeyContainer.readFields_key
    { c with File := { c.File with buffer := c.File.buffer.set c.File.offset v } } hdr
  simp only [KeyContainer.read, binary.Read, hs,
    Buffer.ReadFull_file { c.File with buffer := c.File.buffer.set c.File.offset v } 138 hlen2,
    hh, hfs, has, KeyContainer.cipher]
  constructor
  · split_ifs <;> first | rfl | (split <;> first | rfl | (split_ifs <;> rfl))
  · split_ifs <;> first | rfl | (split <;> first | rfl | (split_ifs <;> rfl))

/-- C9, amended: `ReadPublicKey` and `ReadPrivateKey` do not look at the version
byte.  For every container file that holds the 138 bytes, the error they return
and the key they deliver are the same whatever value the version byte has. -/
theorem C9_key_container_version_ignored (P : Prims) (c : KeyContainer) (key : List Nat)
    (v1 v2 : Nat) (hlen : c.File.offset + 138 ≤ c.File.buffer.length) :
    ((({ c with File := { c.File with buffer := c.File.buffer.set c.File.offset v1 } }
        : KeyContainer).ReadPublicKey P key).1
      = (({ c with File := { c.File with buffer := c.File.buffer.set c.File.offset v2 } }
        : KeyContainer).ReadPublicKey P key).1
    ∧ (({ c with File := { c.File with buffer := c.File.buffer.set c.File.offset v1 } }
        : KeyContainer).ReadPublicKey P key).2.1
      = (({ c with File := { c.File with buffer := c.File.buffer.set c.File.offset v2 } }
        : KeyContainer).ReadPublicKey P key).2.1)
    ∧ ((({ c with File := { c.File with buffer := c.File.buffer.set c.File.offset v1 } }
        : KeyContainer).ReadPrivateKey P key).1
      = (({ c with File := { c.File with buffer := c.File.buffer.set c.File.offset v2 } }
        : KeyContainer).ReadPrivateKey P key).1
    ∧ (({ c with File := { c.File with buffer := c.File.buffer.set c.File.offset v1 } }
        : KeyContainer).ReadPrivateKey P key).2.1
      = (({ c with File := { c.File with buffer := c.File.buffer.set c.File.offset v2 } }
        : KeyContainer).ReadPrivateKey P key).2.1) := by
  obtain ⟨g1, h1⟩ := KeyContainer.read_outcome P c Public key hlen
  obtain ⟨g2, h2⟩ := KeyContainer.read_outcome P c Private key hlen
  unfold KeyContainer.ReadPublicKey KeyContainer.ReadPrivateKey
  refine ⟨⟨?_, ?_⟩, ?_, ?_⟩
  · rw [(h1 v1).1, (h1 v2).1]
  · rw [(h1 v1).2, (h1 v2).2]
  · rw [(h2 v1).1, (h2 v2).1]
  · rw [(h2 v1).2, (h2 v2).2]

set_option maxRecDepth 100000 in
/-- C9, witness: the sample container with the version bytes 1 and 2. -/
theorem C9_key_container_version_ignored_witness :
    ((NewKeyContainer { buffer := Sample.privateKeyFile.set 0 1, offset := 0 }
          [115, 101, 99, 114, 101, 116] 1 8).ReadPrivateKey Sample.prims
          (List.replicate 56 0)).1
      = ((NewKeyContainer { buffer := Sample.privateKeyFile.set 0 2, offset := 0 }
          [115, 101, 99, 114, 101, 116] 1 8).ReadPrivateKey Sample.prims
          (List.replicate 56 0)).1 :=
  (C9_key_container_version_ignored Sample.prims
    (NewKeyContainer { buffer := Sample.privateKeyFile, offset := 0 }
      [115, 101, 99, 114, 101, 116] 1 8) (List.replicate 56 0) 1 2 (by decide)).2.1

set_option maxRecDepth 100000 in
/-- C9, counterexample: the container `WritePrivateKey` wrote for the sample key
is 138 bytes long; with its version byte set to 2, `ReadPrivateKey` returns a nil
error and delivers the key; with the type byte set to Public as well,
`ReadPublicKey` returns a nil error too. -/
theorem C9_key_container_version_counterexample :
    Sample.privateKeyFile.length = 138
    ∧ (Sample.privateKeyFile.set 0 2).getD 0 0 = 2
    ∧ ((NewKeyContainer { buffer := Sample.privateKeyFile.set 0 2, offset := 0 }
          [115, 101, 99, 114, 101, 116] 1 8).ReadPrivateKey Sample.prims
          (List.replicate 56 0)).1 = none
    ∧ ((NewKeyContainer { buffer := Sample.privateKeyFile.set 0 2, offset := 0 }
          [115, 101, 99, 114, 101, 116] 1 8).ReadPrivateKey Sample.prims
          (List.replicate 56 0)).2.1 = Sample.privateKey
    ∧ ((NewKeyContainer { buffer := (Sample.privateKeyFile.set 0 2).set 1 1, offset := 0 }
          [115, 101, 99, 114, 101, 116] 1 8).ReadPublicKey Sample.prims
          (List.replicate 56 0)).1 = none := by
  decide

theorem xor_pow_ne (b bit : Nat) : Nat.xor b (2 ^ bit) ≠ b := by
  intro h
  have h2 : b ^^^ 2 ^ bit = b ^^^ 0 := by rw [Nat.xor_zero]; exact h
  have h3 := Nat.xor_right_injective h2
  exact absurd h3 (by positivity)

theorem flipBit_mid (pre mid post : List Nat) (i bit : Nat) (hi : i < mid.length) :
    flipBit (pre ++ mid ++ post) (pre.length + i) bit = pre ++ flipBit mid i bit ++ post := by
  unfold flipBit
  have hg : (pre ++ mid ++ post).getD (pre.length + i) 0 = mid.getD i 0 := by
    simp [List.getD_eq_getElem?_getD, List.append_assoc, List.getElem?_append_right,
      List.getElem?_append_left hi]
  rw [hg, List.append_assoc, List.set_append_right _ _ (by omega), Nat.add_sub_cancel_left,
    List.set_append_left _ _ hi]
  simp

theorem flipBit_ne (l : List Nat) (i bit : Nat) (hi : i < l.length) :
    flipBit l i bit ≠ l ∧ (flipBit l i bit).length = l.length := by
  refine ⟨?_, by simp [flipBit]⟩
  intro h
  have h1 : (flipBit l i bit)[i]? = l[i]? := by rw [h]
  simp only [flipBit, List.getElem?_set_self hi, List.getD_eq_getElem?_getD,
    List.getElem?_eq_getElem hi, Option.getD_some, Option.some.injEq] at h1
  exact xor_pow_ne _ _ h1

theorem argon2.core_length (P : Prims) (password salt : List Nat) (p m n keyLen : Nat)
    (key : List Nat) (h : argon2.argon2 P keyLen password salt p m n = .ok key) :
    key.length = keyLen := by
  unfold argon2.argon2 at h
  split_ifs at h
  simp only [Except.ok.injEq] at h
  rw [← h]
  exact archive.fit_length _ _

theorem argon2.Key_length (P : Prims) (password salt : List Nat) (n par mem : Int) (keyLen : Nat)
    (key : List Nat) (h : argon2.Key P password salt n par mem keyLen = .ok key) :
    key.length = keyLen := by
  unfold argon2.Key at h
  split_ifs at h
  exact argon2.core_length P _ _ _ _ _ _ key h

theorem PasswordArchive.parsed_of_header (P : Prims) (a : PasswordArchive) (hdr rest : List Nat)
    (hh : hdr.length = 42) (f : Buffer) (hf : f = { buffer := hdr ++ rest, offset := 0 }) :
    (binary.Read f binary.ByteOrder.LE a.fields).1 = none
      ∧ (PasswordArchive.parsed { a with File := f }).File
          = { buffer := hdr ++ rest, offset := 42 }
      ∧ (PasswordArchive.parsed { a with File := f }).Key P
          = (PasswordArchive.parsed { a with File := { buffer := hdr, offset := 0 } }).Key P
      ∧ (PasswordArchive.parsed { a with File := f }).Version = hdr.getD 0 0 % 256
      ∧ (PasswordArchive.parsed { a with File := f }).Type_ = hdr.getD 1 0 % 256 := by
  subst hf
  have hs : binary.size a.fields = 42 := rfl
  have hs2 : ∀ g : Buffer, binary.size (PasswordArchive.fields { a with File := g }) = 42 :=
    fun _ => rfl
  have r1 := Buffer.ReadFull_file { buffer := hdr ++ rest, offset := 0 } 42
    (by simp; omega)
  have r2 := Buffer.ReadFull_file { buffer := hdr, offset := 0 } 42 (by simp; omega)
  have t1 : List.take 42 (hdr ++ rest) = hdr := by
    rw [List.take_append_of_le_length (by omega), List.take_of_length_le (by omega)]
  have t2 : List.take 42 hdr = hdr := List.take_of_length_le (by omega)
  simp only [List.drop_zero, t1, t2, Nat.zero_add] at r1 r2
  unfold PasswordArchive.parsed
  simp only [binary.Read, hs, hs2, r1, r2]
  simp [binary.readFields, binary.skip, binary.decodeField, PasswordArchive.fields,
    PasswordArchive.assign, binary.Kind.Size, PasswordArchive.Key]

theorem verify_at (P : Prims) (key pre tag nonce ct cuts : List Nat)
    (hk : key.length = 32) (ht : tag.length = 16) (hn : nonce.length = 24) :
    verify P key { buffer := pre ++ tag ++ nonce ++ ct, offset := pre.length } cuts
      = ((decide (tag = ((poly1305.Poly1305.Init
            (xchacha20poly1305.KeyStream P key nonce 0 32)).Write ct).Sum []), none),
          { buffer := pre ++ tag ++ nonce ++ ct, offset := pre.length }) := by
  have hm : poly1305.MacOf (poly1305.Poly1305.Init (xchacha20poly1305.KeyStream P key nonce 0 32))
      ct ((poly1305.Poly1305.Init (xchacha20poly1305.KeyStream P key nonce 0 32)).Write ct) := by
    have := (poly1305.MacOf.refl _ (poly1305.Init_ok
      (xchacha20poly1305.KeyStream P key nonce 0 32))).step ct
    simpa using this
  have hv := archive.Verify_eq P key tag nonce ct cuts _ hk ht hn hm
  have hd : List.drop pre.length (pre ++ tag ++ nonce ++ ct) = tag ++ nonce ++ ct := by
    simp [List.append_assoc]
  have hle : ¬ (pre.length > (pre ++ tag ++ nonce ++ ct).length) := by
    simp only [List.length_append]; omega
  rw [verify_eq]
  simp only [Buffer.bufio, hd, hle, if_false, hv]

theorem newArchiveReader_flip (P : Prims) {δ : Type} (L : ReadLayers δ)
    (key pre tag tag2 nonce ct : List Nat) (rest rest2 : List Buffer)
    (cuts1 cuts2 cuts3 cuts4 : List Nat)
    (hk : key.length = 32) (ht : tag.length = 16) (hn : nonce.length = 24)
    (ht2 : tag2.length = 16) (hne : tag2 ≠ tag)
    (hacc : (newArchiveReader P L key
      ({ buffer := pre ++ tag ++ nonce ++ ct, offset := pre.length } :: rest) cuts1 cuts2).err
        = none) :
    newArchiveReader P L key
        ({ buffer := pre ++ tag2 ++ nonce ++ ct, offset := pre.length } :: rest2) cuts3 cuts4
      = { reader := none, err := some Err.ErrInvalidArchive, trace := [Event.verify] } := by
  have h1 := verify_at P key pre tag nonce ct cuts1 hk ht hn
  have h2 := verify_at P key pre tag2 nonce ct cuts3 hk ht2 hn
  by_cases hT : tag = ((poly1305.Poly1305.Init
      (xchacha20poly1305.KeyStream P key nonce 0 32)).Write ct).Sum []
  · have hF : ¬ (tag2 = ((poly1305.Poly1305.Init
        (xchacha20poly1305.KeyStream P key nonce 0 32)).Write ct).Sum []) := by
      rw [← hT]; exact hne
    simp only [newArchiveReader, h2, hF, decide_False]
  · simp only [newArchiveReader, h1, hT, decide_False] at hacc
    simp at hacc

theorem PasswordArchive.Reader_split (P : Prims) {δ : Type} (L : ReadLayers δ)
    (a : PasswordArchive) (hdr rest : List Nat) (cuts1 cuts2 : List Nat)
    (hh : hdr.length = 42) :
    PasswordArchive.Reader P L { a with File := { buffer := hdr ++ rest, offset := 0 } }
        cuts1 cuts2 =
      if hdr.getD 0 0 % 256 ≠ Arc.Version then
        ReaderResult.fail [Event.readHeader 0] Err.ErrInvalidVersion
      else if hdr.getD 1 0 % 256 = Arc.Curve448 then
        ReaderResult.fail [Event.readHeader 0] Err.ErrCurve448Archive
      else if hdr.getD 1 0 % 256 = Arc.Shard then
        ReaderResult.fail [Event.readHeader 0] Err.ErrShardArchive
      else
        match (PasswordArchive.parsed { a with File := { buffer := hdr, offset := 0 } }).Key P with
        | .error e => ReaderResult.fail [Event.readHeader 0, Event.deriveKey] e
        | .ok key =>
          (newArchiveReader P L key [{ buffer := hdr ++ rest, offset := 42 }] cuts1 cuts2).after
            [Event.readHeader 0, Event.deriveKey] := by
  obtain ⟨p1, p2, p3, p4, p5⟩ := PasswordArchive.parsed_of_header P a hdr rest hh _ rfl
  rw [PasswordArchive.Reader_eq_password]
  have p1b : (binary.Read (PasswordArchive.File
      { a with File := { buffer := hdr ++ rest, offset := 0 } }) binary.ByteOrder.LE
      (PasswordArchive.fields { a with File := { buffer := hdr ++ rest, offset := 0 } })).1
        = none := p1
  rw [p1b]
  simp only [p2, p3, p4, p5]

/-- C3, amended: when `PasswordArchive.Reader` accepts a file (nil error), the same
file with one bit flipped in any of the 16 bytes of the stored tag, opened with the
same password, is rejected with `ErrInvalidArchive` and no reader, and the same
file with one bit of its version byte flipped is rejected with
`ErrInvalidVersion`.  The type byte is not covered: the counterexample flips a
bit of it and the file is still accepted. -/
theorem C3_bit_flip_amended (P : Prims) {δ : Type} (L : ReadLayers δ) (a : PasswordArchive)
    (hdr tag nonce ct cuts1 cuts2 cuts3 cuts4 : List Nat)
    (hh : hdr.length = 42) (ht : tag.length = 16) (hn : nonce.length = 24)
    (hb : hdr.getD 0 0 < 256)
    (hacc : (PasswordArchive.Reader P L
      { a with File := { buffer := hdr ++ tag ++ nonce ++ ct, offset := 0 } } cuts1 cuts2).err
        = none) :
    (∀ i bit, i < 16 →
      (PasswordArchive.Reader P L
        { a with File := { buffer := flipBit (hdr ++ tag ++ nonce ++ ct) (42 + i) bit
                           offset := 0 } } cuts3 cuts4).reader.isNone
      ∧ (PasswordArchive.Reader P L
        { a with File := { buffer := flipBit (hdr ++ tag ++ nonce ++ ct) (42 + i) bit
                           offset := 0 } } cuts3 cuts4).err = some Err.ErrInvalidArchive)
    ∧ (∀ bit, bit < 8 →
      (PasswordArchive.Reader P L
        { a with File := { buffer := flipBit (hdr ++ tag ++ nonce ++ ct) 0 bit
                           offset := 0 } } cuts3 cuts4).reader.isNone
      ∧ (PasswordArchive.Reader P L
        { a with File := { buffer := flipBit (hdr ++ tag ++ nonce ++ ct) 0 bit
                           offset := 0 } } cuts3 cuts4).err = some Err.ErrInvalidVersion) := by
  have e1 : hdr ++ tag ++ nonce ++ ct = hdr ++ (tag ++ nonce ++ ct) := by
    simp [List.append_assoc]
  rw [e1, PasswordArchive.Reader_split P L a hdr _ cuts1 cuts2 hh] at hacc
  by_cases c1 : hdr.getD 0 0 % 256 ≠ Arc.Version
  · rw [if_pos c1] at hacc
    exact absurd hacc (by simp [ReaderResult.fail])
  by_cases c2 : hdr.getD 1 0 % 256 = Arc.Curve448
  · rw [if_neg c1, if_pos c2] at hacc
    exact absurd hacc (by simp [ReaderResult.fail])
  by_cases c3 : hdr.getD 1 0 % 256 = Arc.Shard
  · rw [if_neg c1, if_neg c2, if_pos c3] at hacc
    exact absurd hacc (by simp [ReaderResult.fail])
  rw [if_neg c1, if_neg c2, if_neg c3] at hacc
  refine ⟨?_, ?_⟩
  · intro i bit hi
    have e2 : flipBit (hdr ++ tag ++ nonce ++ ct) (42 + i) bit
        = hdr ++ (flipBit tag i bit ++ nonce ++ ct) := by
      have := flipBit_mid hdr tag (nonce ++ ct) i bit (by omega)
      rw [hh] at this
      simp only [List.append_assoc] at this ⊢
      exact this
    rw [e2, PasswordArchive.Reader_split P L a hdr _ cuts3 cuts4 hh, if_neg c1, if_neg c2,
      if_neg c3]
    cases hk : (PasswordArchive.parsed { a with File := { buffer := hdr, offset := 0 } }).Key P with
    | error e => rw [hk] at hacc; simp [ReaderResult.fail] at hacc
    | ok key =>
      rw [hk] at hacc
      simp only [ReaderResult.after] at hacc ⊢
      have hkl : key.length = 32 := argon2.Key_length P _ _ _ _ _ _ key hk
      obtain ⟨hne, hl2⟩ := flipBit_ne tag i bit (by omega)
      have hfl := newArchiveReader_flip P L key hdr tag (flipBit tag i bit) nonce ct [] []
        cuts1 cuts2 cuts3 cuts4 hkl ht hn (by rw [hl2, ht]) hne
        (by simpa [hh, List.append_assoc] using hacc)
      simp only [hh, List.append_assoc] at hfl
      simp only [List.append_assoc, hfl]
      simp
  · intro bit hbit
    have hv : hdr.getD 0 0 = 1 := by
      simp only [Version, ne_eq, not_not] at c1
      omega
    cases hdr with
    | nil => simp at hh
    | cons b0 tl =>
      simp only [List.getD_cons_zero] at hv
      subst hv
      have e3 : flipBit (1 :: tl ++ tag ++ nonce ++ ct) 0 bit
          = (Nat.xor 1 (2 ^ bit) :: tl) ++ (tag ++ nonce ++ ct) := by
        simp [flipBit, List.append_assoc]
      rw [e3, PasswordArchive.Reader_split P L a _ _ cuts3 cuts4 (by simpa using hh)]
      have hx : Nat.xor 1 (2 ^ bit) % 256 ≠ Arc.Version := by
        have : bit = 0 ∨ bit = 1 ∨ bit = 2 ∨ bit = 3 ∨ bit = 4 ∨ bit = 5 ∨ bit = 6 ∨ bit = 7 := by
          omega
        rcases this with h | h | h | h | h | h | h | h <;> subst h <;> decide
      rw [if_pos (by simpa using hx)]
      exact ⟨rfl, rfl⟩

/-- C3, witness: the written sample file is accepted, and with bit 3 of the
second byte of its tag flipped it is rejected with `ErrInvalidArchive`. -/
theorem C3_bit_flip_amended_witness :
    ((NewPasswordArchive [112, 119] 1 8
        { buffer := Sample.passwordFile, offset := 0 }).Reader
      Sample.prims Sample.readLayers [] []).err = none
    ∧ ((NewPasswordArchive [112, 119] 1 8
        { buffer := flipBit Sample.passwordFile 43 3, offset := 0 }).Reader
      Sample.prims Sample.readLayers [] []).err = some Err.ErrInvalidArchive :=
  ⟨by decide,
    ((C3_bit_flip_amended Sample.prims Sample.readLayers
      (NewPasswordArchive [112, 119] 1 8 { buffer := [], offset := 0 })
      (Sample.passwordFile.take 42) ((Sample.passwordFile.drop 42).take 16)
      ((Sample.passwordFile.drop 58).take 24) (Sample.passwordFile.drop 82) [] [] [] []
      (by decide) (by decide) (by decide) (by decide) (by decide)).1 1 3 (by decide)).2⟩

/-- C3, counterexample: in the file the password driver wrote for the sample,
flipping bit 0 of the byte at offset 1 (the type byte of the outer header, 1
becomes 0) leaves a file that the same password opens: `Reader()` returns a
reader and a nil error. -/
theorem C3_bit_flip_counterexample :
    Sample.passwordFile.getD 1 0 = 1
    ∧ (flipBit Sample.passwordFile 1 0).getD 1 0 = 0
    ∧ ((NewPasswordArchive [112, 119] 1 8
          { buffer := flipBit Sample.passwordFile 1 0, offset := 0 }).Reader
        Sample.prims Sample.readLayers [] []).reader.isSome = true
    ∧ ((NewPasswordArchive [112, 119] 1 8
          { buffer := flipBit Sample.passwordFile 1 0, offset := 0 }).Reader
        Sample.prims Sample.readLayers [] []).err = none := by
  decide

/-- C10: for each driver, `Writer()` on files that hold nothing records as tag
offset the length of the outer header (42 for Password, 58 for Curve448, 35 for
Shard, where `sss.Split` has returned the shares 1 to n); at that point every file
holds its header and the `bufio.Writer` holds 16 zero bytes followed by the
24-byte nonce; and after a `Close()` that returns nil every file holds, at that
offset, the 16 bytes of the tag `Finish` returned, and everywhere else the
bytes that were streamed to it. -/
theorem C10_deferred_tag_patch (P : Prims) {ω : Type} (L : WriteLayers ω) :
    (∀ (a : PasswordArchive) (salt nonce : List Nat) (w : Writer ω),
      a.File = { buffer := [], offset := 0 } →
      a.Writer P L (.ok salt) (.ok nonce) = (some w, none) →
      ∃ hdr, Patched P L w [hdr] (fit 24 nonce) 42)
    ∧ (∀ (a : Curve448Archive) (rk nonce : List Nat) (w : Writer ω),
      a.File = { buffer := [], offset := 0 } →
      a.Writer P L (.ok rk) (.ok nonce) = (some w, none) →
      ∃ hdr, Patched P L w [hdr] (fit 24 nonce) 58)
    ∧ (∀ (k : Int) (files : List Buffer) (rk nonce : List Nat) (shares : List (Nat × List Nat))
        (w : Writer ω) (shards2 : List ShardArchive),
      files.length ≤ 255 → (∀ f ∈ files, f = { buffer := [], offset := 0 }) →
      P.split files.length (k % 256).toNat (fit 32 rk) = .ok shares →
      (shares.map Prod.fst).Perm ((List.range files.length).map (· + 1)) →
      ShardArchive.Writer P L (NewShardArchive k files) (.ok rk) (.ok nonce)
        = ((some w, none), shards2) →
      ∃ headers, headers.length = files.length ∧ Patched P L w headers (fit 24 nonce) 35) := by
  refine ⟨?_, ?_, ?_⟩
  · intro a salt nonce w hf hw
    exact ⟨_, PasswordArchive.Writer_patched_password P L a salt nonce w hf hw⟩
  · intro a rk nonce w hf hw
    exact Curve448Archive.Writer_patched_curve P L a rk nonce w hf hw
  · intro k files rk nonce shares w shards2 hn hempty hsplit hperm hw
    obtain ⟨headers, h1, h2, _⟩ := ShardArchive.Writer_patched_shard P L k files rk nonce shares w
      shards2 hn hempty hsplit hperm hw
    exact ⟨headers, h1, h2⟩

/-- C10, witness: the writer of the sample password archive. -/
theorem C10_deferred_tag_patch_witness :
    ∃ w hdr, Sample.passwordResult = (some w, none)
      ∧ Patched Sample.prims Sample.writeLayers w [hdr] (fit 24 [1, 2, 3]) 42 := by
  have e1 : Sample.passwordResult.1.isSome = true := by decide
  have e2 : Sample.passwordResult.2 = none := by decide
  rcases h : Sample.passwordResult with ⟨ow, oe⟩
  rw [h] at e1 e2
  simp only at e1 e2
  subst e2
  obtain ⟨w, rfl⟩ := Option.isSome_iff_exists.mp e1
  obtain ⟨hdr, hp⟩ := (C10_deferred_tag_patch Sample.prims Sample.writeLayers).1
    Sample.passwordArchive [4, 5, 6] [1, 2, 3] w rfl h
  exact ⟨w, hdr, rfl, hp⟩

/-- C11: for shard files that hold nothing (at most 255 of them, `sss.Split`
having returned the shares 1 to n), after `ShardArchive.Writer()`, any calls of
`Add` and `Copy`, and a `Close()` that returns nil, there are as many files as
before, each holds a header of 35 bytes followed by the same tag, the same nonce
and the same payload: the files have the same length and are equal from offset
35 on. -/
theorem C11_shard_multiplex (P : Prims) {ω : Type} (L : WriteLayers ω) (k : Int)
    (files : List Buffer) (rk nonce : List Nat) (shares : List (Nat × List Nat))
    (w : Writer ω) (shards2 : List ShardArchive) (ops : List archive.Op) (out : List Buffer)
    (hn : files.length ≤ 255) (hempty : ∀ f ∈ files, f = { buffer := [], offset := 0 })
    (hsplit : P.split files.length (k % 256).toNat (fit 32 rk) = .ok shares)
    (hperm : (shares.map Prod.fst).Perm ((List.range files.length).map (· + 1)))
    (hw : ShardArchive.Writer P L (NewShardArchive k files) (.ok rk) (.ok nonce)
      = ((some w, none), shards2))
    (hc : (Writer.run P L ops w).Close P L = (none, out)) :
    out.length = files.length
      ∧ (∃ tag payload, tag.length = 16 ∧ ∀ f ∈ out, 35 ≤ f.buffer.length
          ∧ f.buffer.drop 35 = tag ++ fit 24 nonce ++ payload)
      ∧ ∀ f ∈ out, ∀ g ∈ out, f.buffer.length = g.buffer.length
          ∧ f.buffer.drop 35 = g.buffer.drop 35 := by
  obtain ⟨headers, h1, h2, _⟩ := ShardArchive.Writer_patched_shard P L k files rk nonce shares w
    shards2 hn hempty hsplit hperm hw
  obtain ⟨tag, payload, htl, hfiles⟩ := h2.closed ops out hc
  have hhl : ∀ h ∈ headers, h.length = 35 := h2.2.2.1
  have hlen : out.length = headers.length := by
    have := congrArg List.length hfiles
    simpa using this
  have hall : ∀ f ∈ out, ∃ h ∈ headers, f.buffer = h ++ tag ++ fit 24 nonce ++ payload := by
    intro f hf
    have : f.buffer ∈ out.map (fun f => f.buffer) := List.mem_map_of_mem _ hf
    rw [hfiles] at this
    simpa [eq_comm] using this
  have hdrop : ∀ f ∈ out, 35 ≤ f.buffer.length
      ∧ f.buffer.drop 35 = tag ++ fit 24 nonce ++ payload := by
    intro f hf
    obtain ⟨h, hh, hb⟩ := hall f hf
    have h35 := hhl h hh
    rw [hb]
    refine ⟨by simp only [List.length_append]; omega, ?_⟩
    rw [List.append_assoc, List.append_assoc, ← h35, List.drop_left, List.append_assoc]
  refine ⟨by rw [hlen, h1], ⟨tag, payload, htl, hdrop⟩, ?_⟩
  intro f hf g hg
  obtain ⟨lf, df⟩ := hdrop f hf
  obtain ⟨lg, dg⟩ := hdrop g hg
  refine ⟨?_, by rw [df, dg]⟩
  have e1 : f.buffer.length = 35 + (f.buffer.drop 35).length := by
    rw [List.length_drop]; omega
  have e2 : g.buffer.length = 35 + (g.buffer.drop 35).length := by
    rw [List.length_drop]; omega
  rw [e1, e2, df, dg]

/-- C11, witness: the two sample shard files are equal from offset 35 on. -/
theorem C11_shard_multiplex_witness :
    Sample.shardFiles.length = 2
      ∧ ∀ f ∈ Sample.shardFiles, ∀ g ∈ Sample.shardFiles,
          f.buffer.length = g.buffer.length ∧ f.buffer.drop 35 = g.buffer.drop 35 := by
  have e1 : Sample.shardResult.1.1.isSome = true := by decide
  have e2 : Sample.shardResult.1.2 = none := by decide
  have e3 : ∀ w, Sample.shardResult.1 = (some w, none) →
      (Writer.run Sample.prims Sample.writeLayers (archive.entryOps Sample.entries)
        w).Close Sample.prims Sample.writeLayers = Sample.shardClosed := by
    intro w hw
    unfold Sample.shardClosed
    rw [hw]
  have e4 : Sample.shardClosed.1 = none := by decide
  rcases h : Sample.shardResult with ⟨⟨ow, oe⟩, s2⟩
  rw [h] at e1 e2 e3
  simp only at e1 e2 e3
  subst e2
  obtain ⟨w, rfl⟩ := Option.isSome_iff_exists.mp e1
  have hc : (Writer.run Sample.prims Sample.writeLayers (archive.entryOps Sample.entries)
      w).Close Sample.prims Sample.writeLayers = (none, Sample.shardFiles) := by
    rw [e3 w rfl, ← e4]
    rfl
  have h2 := C11_shard_multiplex Sample.prims Sample.writeLayers 2
    [{ buffer := [], offset := 0 }, { buffer := [], offset := 0 }] [1, 2, 3] [4, 5, 6]
    [(1, fit 32 [1, 2, 3]), (2, fit 32 [1, 2, 3])] w s2 (archive.entryOps Sample.entries)
    Sample.shardFiles (by decide) (by decide) rfl (List.Perm.refl _) h hc
  exact ⟨h2.1, h2.2.2⟩

theorem KeyContainer.Write_bytes_key (c : KeyContainer) :
    binary.Write binary.ByteOrder.LE c.fields
      = .ok ([c.Version % 256, c.Type_ % 256]
          ++ binary.putUint binary.ByteOrder.LE 4 (c.Iterations % 2 ^ 32)
          ++ binary.putUint binary.ByteOrder.LE 4 (c.Memory % 2 ^ 32)
          ++ fit 32 c.Salt ++ fit 16 c.Tag ++ fit 24 c.Nonce ++ fit 56 c.Key) := by
  simp [binary.Write, binary.writeFields, binary.skip, binary.encodeField, KeyContainer.fields]

theorem keyTag_length (P : Prims) (k nonce ct : List Nat) : (keyTag P k nonce ct).length = 16 :=
  poly1305.Sum_nil_length _

theorem keyCiphertext_length (P : Prims) (k nonce key : List Nat) :
    (keyCiphertext P k nonce key).length = 56 := by
  simp [keyCiphertext, archive.xorAt_length, archive.fit_length]

/-- What `write` leaves behind when it returns nil: the key derived, and the
container with the file extended by the 138 bytes. -/
theorem KeyContainer.write_spec (P : Prims) (c c2 : KeyContainer) (t : Nat)
    (key salt nonce : List Nat)
    (h : c.write P t key (.ok salt) (.ok nonce) = (none, c2)) :
    ∃ k, argon2.Key P c.Password (fit 32 salt) (c.Iterations : Int) 1 (c.Memory : Int) 32 = .ok k
      ∧ k.length = 32
      ∧ c2 = { c with Type_ := t, Salt := fit 32 salt, Nonce := fit 24 nonce
                      Key := keyCiphertext P k (fit 24 nonce) key
                      Tag := keyTag P k (fit 24 nonce) (keyCiphertext P k (fit 24 nonce) key)
                      File := c.File.Write
                        ([c.Version % 256, t % 256]
                          ++ binary.putUint binary.ByteOrder.LE 4 (c.Iterations % 2 ^ 32)
                          ++ binary.putUint binary.ByteOrder.LE 4 (c.Memory % 2 ^ 32)
                          ++ fit 32 salt
                          ++ keyTag P k (fit 24 nonce) (keyCiphertext P k (fit 24 nonce) key)
                          ++ fit 24 nonce ++ keyCiphertext P k (fit 24 nonce) key) } := by
  simp only [KeyContainer.write, KeyContainer.cipher, xchacha20poly1305.KeySize] at h
  cases hk : argon2.Key P c.Password (fit 32 salt) (c.Iterations : Int) 1 (c.Memory : Int) 32 with
  | error e => simp [hk] at h
  | ok k =>
    have hkl : k.length = 32 := argon2.Key_length P _ _ _ _ _ _ k hk
    refine ⟨k, rfl, hkl, ?_⟩
    simp only [hk, archive.Init_ok_spec P _ k _ hkl, xchacha20poly1305.Encrypt,
      xchacha20poly1305.Tag, KeyContainer.Write_bytes_key] at h
    simp only [Prod.mk.injEq, true_and] at h
    have hct : xchacha20poly1305.XORKeyStream P
        { key := k, nonce := fit 24 nonce, pos := 64
          mac := poly1305.Poly1305.Init (xchacha20poly1305.KeyStream P k (fit 24 nonce) 0 32) }
        (fit 56 key) = keyCiphertext P k (fit 24 nonce) key := rfl
    rw [hct] at h
    have htag : ((poly1305.Poly1305.Init (xchacha20poly1305.KeyStream P k (fit 24 nonce) 0 32)).Write
        (keyCiphertext P k (fit 24 nonce) key)).Sum []
          = keyTag P k (fit 24 nonce) (keyCiphertext P k (fit 24 nonce) key) := rfl
    rw [htag, fit_self 32 _ (archive.fit_length 32 salt),
      fit_self 24 _ (archive.fit_length 24 nonce), fit_self 16 _ (keyTag_length P _ _ _),
      fit_self 56 _ (keyCiphertext_length P _ _ _)] at h
    exact h.symm

/-- The entry checks of the core `argon2` pass for the parameters `Key` hands to
it when `par = 1`. -/
theorem argon2.core_ok (P : Prims) (password salt : List Nat) (n mem : Nat) (keyLen : Nat)
    (hn1 : 1 ≤ n) (hn2 : n < 2 ^ 32) (hm1 : 8 ≤ mem) (hm2 : mem < 2 ^ 32) :
    argon2.argon2 P keyLen password salt ((1 : Int).toNat % 2 ^ 32)
        ((if (mem : Int) / (4 * 1) * (4 * 1) < 8 * 1 then (8 * 1 : Int)
          else (mem : Int) / (4 * 1) * (4 * 1)).toNat % 2 ^ 32) ((n : Int).toNat % 2 ^ 32)
      = .ok (fit keyLen (P.argon2 password salt 1 (mem / 4 * 4) n keyLen)) := by
  have e4 : (4 * 1 : Int) = 4 := by norm_num
  have e8 : (8 * 1 : Int) = 8 := by norm_num
  rw [e4, e8]
  have h8 : ¬ ((mem : Int) / 4 * 4 < 8) := by omega
  have hm : ((mem : Int) / 4 * 4).toNat = mem / 4 * 4 := by omega
  have hmm : mem / 4 * 4 % 2 ^ 32 = mem / 4 * 4 := Nat.mod_eq_of_lt (by omega)
  have hnn : (n : Int).toNat % 2 ^ 32 = n := by
    rw [Int.toNat_ofNat]; exact Nat.mod_eq_of_lt hn2
  have h1 : (1 : Int).toNat % 2 ^ 32 = 1 := by decide
  rw [if_neg h8, hm, hmm, hnn, h1]
  unfold argon2.argon2
  have e : (1 * 4 % 2 ^ 32 : Nat) = 4 := by norm_num
  rw [e, if_neg (by omega), if_neg (by decide), if_neg (by omega)]

theorem argon2.Key_ok (P : Prims) (password salt : List Nat) (n mem : Nat) (keyLen : Nat)
    (hp : password.length < 2 ^ 32) (hs : salt.length = 32)
    (hn1 : 1 ≤ n) (hn2 : n < 2 ^ 32) (hm1 : 8 ≤ mem) (hm2 : mem < 2 ^ 32) :
    ∃ k, argon2.Key P password salt (n : Int) 1 (mem : Int) keyLen = .ok k := by
  unfold argon2.Key
  rw [if_neg (by omega), if_neg (by omega), if_neg (by omega), if_neg (by omega),
    if_neg (by omega), if_neg (by omega)]
  exact ⟨_, argon2.core_ok P password salt n mem keyLen hn1 hn2 hm1 hm2⟩

theorem KeyContainer.write_ok (P : Prims) (c : KeyContainer) (t : Nat) (key salt nonce : List Nat)
    (hp : c.Password.length < 2 ^ 32) (hn1 : 1 ≤ c.Iterations) (hn2 : c.Iterations < 2 ^ 32)
    (hm1 : 8 ≤ c.Memory) (hm2 : c.Memory < 2 ^ 32) :
    ∃ c2, c.write P t key (.ok salt) (.ok nonce) = (none, c2) := by
  obtain ⟨k, hk⟩ := argon2.Key_ok P c.Password (fit 32 salt) c.Iterations c.Memory 32 hp
    (archive.fit_length _ _) hn1 hn2 hm1 hm2
  have hkl : k.length = 32 := argon2.Key_length P _ _ _ _ _ _ k hk
  simp only [KeyContainer.write, KeyContainer.cipher, xchacha20poly1305.KeySize, hk,
    archive.Init_ok_spec P _ k _ hkl, xchacha20poly1305.Encrypt, KeyContainer.Write_bytes_key]
  exact ⟨_, rfl⟩

/-- Reading back what `write` wrote: a container with the same password whose
file holds the 138 bytes from its offset on gets a nil error and the key. -/
theorem KeyContainer.read_written (P : Prims) (r : KeyContainer) (t it mem : Nat)
    (key salt nonce k buf pre : List Nat)
    (hk : argon2.Key P r.Password salt (it : Int) 1 (mem : Int) 32 = .ok k)
    (ht : t < 256) (hit : it < 2 ^ 32) (hmem : mem < 2 ^ 32)
    (hs : salt.length = 32) (hn : nonce.length = 24) (hkey : key.length = 56)
    (hf : r.File = { buffer := (pre ++ containerBytes t it mem salt
        (keyTag P k nonce (keyCiphertext P k nonce key)) nonce (keyCiphertext P k nonce key))
                     offset := pre.length }) :
    (r.read P t buf).1 = none ∧ (r.read P t buf).2.1 = key := by
  let c2 : KeyContainer :=
    { r with Version := 1, Type_ := t, Iterations := it, Memory := mem, Salt := salt
             Tag := keyTag P k nonce (keyCiphertext P k nonce key), Nonce := nonce
             Key := keyCiphertext P k nonce key }
  have hkl : k.length = 32 := argon2.Key_length P _ _ _ _ _ _ k hk
  have hw : binary.Write binary.ByteOrder.LE c2.fields
      = .ok (containerBytes t it mem salt (keyTag P k nonce (keyCiphertext P k nonce key))
          nonce (keyCiphertext P k nonce key)) := by
    rw [KeyContainer.Write_bytes_key]
    simp only [c2, containerBytes, fit_self 32 salt hs, fit_self 24 nonce hn,
      fit_self 16 _ (keyTag_length P _ _ _), fit_self 56 _ (keyCiphertext_length P _ _ _),
      Nat.mod_eq_of_lt ht, Nat.mod_eq_of_lt hit, Nat.mod_eq_of_lt hmem]
  obtain ⟨out, ho, hr⟩ := binary.readFields_writeFields_skip binary.ByteOrder.LE c2.fields
    r.fields rfl (by
      intro f hm
      simp only [KeyContainer.fields, List.mem_cons, List.mem_singleton, List.not_mem_nil,
        or_false, c2] at hm
      rcases hm with h | h | h | h | h | h | h | h | h | h <;> subst h <;>
        first
          | (simp [binary.skip, binary.Field.wellTyped, ht, hs, hn,
              keyTag_length, keyCiphertext_length]; done)
          | (simp [binary.skip, binary.Field.wellTyped]; omega))
  have hoo : out = containerBytes t it mem salt (keyTag P k nonce (keyCiphertext P k nonce key))
      nonce (keyCiphertext P k nonce key) := by
    have := ho.symm.trans hw
    simpa using this
  have hlen : out.length = 138 := by
    have := binary.writeFields_length _ _ _ ho
    rw [this]; rfl
  have hsz : binary.size r.fields = 138 := rfl
  have hfull := Buffer.ReadFull_file r.File 138 (by rw [hf, ← hoo]; simp; omega)
  have hbuf : (r.File.buffer.drop r.File.offset).take 138 = out := by
    rw [hf, ← hoo]
    simp only
    rw [List.drop_left, ← hlen, List.take_length]
  rw [hbuf] at hfull
  have hr2 := hr []
  rw [List.append_nil] at hr2
  have hassign : r.assign (binary.merge r.fields c2.fields) = c2 := by
    simp [KeyContainer.assign, binary.merge, KeyContainer.fields, binary.skip, c2]
  have hdec : archive.xorAt P k nonce 64 (keyCiphertext P k nonce key) = key := by
    unfold keyCiphertext
    rw [archive.xorAt_xorAt, fit_self 56 key hkey]
  simp only [KeyContainer.read, binary.Read, hsz, hfull, hr2, hassign]
  simp only [c2, KeyContainer.cipher, xchacha20poly1305.KeySize, hk,
    archive.Init_ok_spec P _ k _ hkl, xchacha20poly1305.Decrypt, xchacha20poly1305.Tag]
  have hct : xchacha20poly1305.XORKeyStream P
      { key := k, nonce := nonce, pos := 64
        mac := poly1305.Poly1305.Init (xchacha20poly1305.KeyStream P k nonce 0 32) }
      (keyCiphertext P k nonce key) = key := hdec
  have htag : ((poly1305.Poly1305.Init (xchacha20poly1305.KeyStream P k nonce 0 32)).Write
      (keyCiphertext P k nonce key)).Sum [] = keyTag P k nonce (keyCiphertext P k nonce key) := rfl
  simp [hct, htag]

theorem putUint_LE4 (v : Nat) :
    binary.putUint binary.ByteOrder.LE 4 v
      = [v % 256, v / 2 ^ 8 % 256, v / 2 ^ 16 % 256, v / 2 ^ 24 % 256] := by
  simp [binary.putUint, List.range_succ]

theorem containerBytes_layout (t it mem : Nat) (salt tag nonce ct : List Nat)
    (hs : salt.length = 32) (ht : tag.length = 16) (hn : nonce.length = 24)
    (hc : ct.length = 56) :
    KeyLayout (containerBytes t it mem salt tag nonce ct) t it mem salt tag nonce ct := by
  unfold KeyLayout containerBytes
  rw [putUint_LE4, putUint_LE4]
  refine ⟨by simp; omega, rfl, rfl, rfl, rfl, ?_, ?_, ?_, ?_, hc⟩
  · simp only [List.cons_append, List.nil_append, List.append_assoc, List.drop_succ_cons,
      List.drop_zero]
    rw [List.take_append_of_le_length (by omega), List.take_of_length_le (by omega)]
  · simp only [List.cons_append, List.nil_append, List.append_assoc, List.drop_succ_cons]
    rw [List.drop_append_of_le_length (by omega), List.drop_of_length_le (by omega),
      List.nil_append, List.take_append_of_le_length (by omega),
      List.take_of_length_le (by omega)]
  · simp only [List.cons_append, List.nil_append, List.append_assoc, List.drop_succ_cons]
    rw [List.drop_append_eq_append_drop, List.drop_of_length_le (by omega), List.nil_append, hs,
      List.drop_append_eq_append_drop, List.drop_of_length_le (by omega), List.nil_append, ht,
      List.drop_zero, List.take_append_of_le_length (by omega),
      List.take_of_length_le (by omega)]
  · simp only [List.cons_append, List.nil_append, List.append_assoc, List.drop_succ_cons]
    rw [List.drop_append_eq_append_drop, List.drop_of_length_le (by omega), List.nil_append, hs,
      List.drop_append_eq_append_drop, List.drop_of_length_le (by omega), List.nil_append, ht,
      List.drop_append_eq_append_drop, List.drop_of_length_le (by omega), List.nil_append, hn,
      List.drop_zero, List.take_of_length_le (by omega)]

theorem KeyContainer.write_layout (P : Prims) (file : Buffer) (password key salt nonce : List Nat)
    (it mem t : Nat) (c2 : KeyContainer) (ht : t < 256) (hit : it < 2 ^ 32) (hmem : mem < 2 ^ 32)
    (h : (NewKeyContainer file password it mem).write P t key (.ok salt) (.ok nonce)
      = (none, c2)) :
    ∃ k b, argon2.Key P password (fit 32 salt) (it : Int) 1 (mem : Int) 32 = .ok k
      ∧ c2.File.buffer = file.buffer ++ b
      ∧ b = containerBytes t it mem (fit 32 salt)
          (keyTag P k (fit 24 nonce) (keyCiphertext P k (fit 24 nonce) key)) (fit 24 nonce)
          (keyCiphertext P k (fit 24 nonce) key)
      ∧ c2.File.offset = file.offset + 138 := by
  obtain ⟨k, hk, _, hc2⟩ := KeyContainer.write_spec P _ c2 t key salt nonce h
  refine ⟨k, _, hk, ?_, rfl, ?_⟩
  · rw [hc2]
    simp only [NewKeyContainer, Buffer.Write, containerBytes, Nat.mod_eq_of_lt ht,
      Nat.mod_eq_of_lt hit, Nat.mod_eq_of_lt hmem]
  · rw [hc2]
    simp [NewKeyContainer, Buffer.Write, binary.putUint_length, archive.fit_length,
      keyTag_length, keyCiphertext_length]

/-- C15: when `WritePublicKey` or `WritePrivateKey` returns nil, it has appended
exactly 138 bytes to the file: the version 1, the type (1 for Public, 2 for
Private), the iterations and the memory as little-endian 32-bit numbers, the
32-byte salt, the 16-byte tag of the ciphertext, the 24-byte nonce, and the 56
bytes of the encrypted key. -/
theorem C15_key_container_layout (P : Prims) (password key salt nonce : List Nat)
    (it mem : Nat) (hit : it < 2 ^ 32) (hmem : mem < 2 ^ 32) :
    (∀ (file : Buffer) (c2 : KeyContainer),
      (NewKeyContainer file password it mem).WritePublicKey P key (.ok salt) (.ok nonce)
        = (none, c2) →
      ∃ k b, argon2.Key P password (fit 32 salt) (it : Int) 1 (mem : Int) 32 = .ok k
        ∧ c2.File.buffer = file.buffer ++ b
        ∧ KeyLayout b Public it mem (fit 32 salt)
            (keyTag P k (fit 24 nonce) (keyCiphertext P k (fit 24 nonce) key)) (fit 24 nonce)
            (keyCiphertext P k (fit 24 nonce) key))
    ∧ (∀ (file : Buffer) (c2 : KeyContainer),
      (NewKeyContainer file password it mem).WritePrivateKey P key (.ok salt) (.ok nonce)
        = (none, c2) →
      ∃ k b, argon2.Key P password (fit 32 salt) (it : Int) 1 (mem : Int) 32 = .ok k
        ∧ c2.File.buffer = file.buffer ++ b
        ∧ KeyLayout b Private it mem (fit 32 salt)
            (keyTag P k (fit 24 nonce) (keyCiphertext P k (fit 24 nonce) key)) (fit 24 nonce)
            (keyCiphertext P k (fit 24 nonce) key)) := by
  refine ⟨?_, ?_⟩
  all_goals
    intro file c2 h
    obtain ⟨k, b, hk, hb, hbb, _⟩ := KeyContainer.write_layout P file password key salt nonce
      it mem _ c2 (by decide) hit hmem h
    refine ⟨k, b, hk, hb, ?_⟩
    rw [hbb]
    exact containerBytes_layout _ it mem _ _ _ _ (archive.fit_length _ _)
      (keyTag_length P _ _ _) (archive.fit_length _ _) (keyCiphertext_length P _ _ _)

set_option maxRecDepth 100000 in
/-- C15, witness: the container written for the sample private key holds 138
bytes, the type byte 2 at offset 1 and the nonce at 58..82. -/
theorem C15_key_container_layout_witness :
    Sample.privateKeyFile.length = 138 ∧ Sample.privateKeyFile.getD 1 0 = 2
      ∧ (Sample.privateKeyFile.drop 58).take 24 = fit 24 [1, 2, 3] := by
  obtain ⟨k, b, _, hb, hl⟩ := (C15_key_container_layout Sample.prims [115, 101, 99, 114, 101, 116]
    Sample.privateKey [9, 8, 7] [1, 2, 3] 1 8 (by decide) (by decide)).2
    { buffer := [], offset := 0 } _ rfl
  have hb2 : Sample.privateKeyFile = b := by
    rw [← List.nil_append b, ← hb]; rfl
  rw [hb2]
  exact ⟨hl.1, hl.2.2.1, hl.2.2.2.2.2.2.2.1⟩

/-- C16: for every key of 56 bytes, every password (of less than 2^32 bytes),
iterations from 1 and memory from 8 (both 32-bit), `WritePrivateKey` and
`WritePublicKey` return nil, and any container with the same password that reads
the written bytes with `ReadPrivateKey` (`ReadPublicKey`) gets a nil error and
exactly the 56 bytes of the key. -/
theorem C16_key_round_trip (P : Prims) (password key salt nonce buf pre : List Nat)
    (it mem : Nat) (hkey : key.length = 56) (hp : password.length < 2 ^ 32)
    (h1 : 1 ≤ it) (h2 : it < 2 ^ 32) (h3 : 8 ≤ mem) (h4 : mem < 2 ^ 32) :
    (∃ c2, (NewKeyContainer { buffer := pre, offset := pre.length } password it mem).WritePrivateKey
          P key (.ok salt) (.ok nonce) = (none, c2)
        ∧ ∀ r : KeyContainer, r.Password = password → r.File = c2.File.SeekTo pre.length →
            (r.ReadPrivateKey P buf).1 = none ∧ (r.ReadPrivateKey P buf).2.1 = key)
    ∧ (∃ c2, (NewKeyContainer { buffer := pre, offset := pre.length } password it mem).WritePublicKey
          P key (.ok salt) (.ok nonce) = (none, c2)
        ∧ ∀ r : KeyContainer, r.Password = password → r.File = c2.File.SeekTo pre.length →
            (r.ReadPublicKey P buf).1 = none ∧ (r.ReadPublicKey P buf).2.1 = key) := by
  refine ⟨?_, ?_⟩
  all_goals
    obtain ⟨c2, hc2⟩ := KeyContainer.write_ok P
      (NewKeyContainer { buffer := pre, offset := pre.length } password it mem) _ key salt nonce
      hp h1 h2 h3 h4
    refine ⟨c2, hc2, ?_⟩
    intro r hrp hrf
    obtain ⟨k, b, hk, hb, hbb, _⟩ := KeyContainer.write_layout P _ password key salt nonce
      it mem _ c2 (by decide) h2 h4 hc2
    rw [← hrp] at hk
    exact KeyContainer.read_written P r _ it mem key (fit 32 salt) (fit 24 nonce) k buf pre hk
      (by decide) h2 h4 (archive.fit_length _ _) (archive.fit_length _ _) hkey
      (by rw [hrf, Buffer.SeekTo, hb, hbb])

set_option maxRecDepth 100000 in
/-- C16, witness: the sample private key under the password `"secret"`. -/
theorem C16_key_round_trip_witness :
    ∃ c2, (NewKeyContainer { buffer := [], offset := ([] : List Nat).length }
          [115, 101, 99, 114, 101, 116] 1 8).WritePrivateKey
          Sample.prims Sample.privateKey (.ok [9, 8, 7]) (.ok [1, 2, 3]) = (none, c2)
        ∧ ∀ r : KeyContainer, r.Password = [115, 101, 99, 114, 101, 116] →
            r.File = c2.File.SeekTo ([] : List Nat).length →
            (r.ReadPrivateKey Sample.prims (List.replicate 56 0)).1 = none
              ∧ (r.ReadPrivateKey Sample.prims (List.replicate 56 0)).2.1 = Sample.privateKey :=
  (C16_key_round_trip Sample.prims [115, 101, 99, 114, 101, 116] Sample.privateKey [9, 8, 7]
    [1, 2, 3] (List.replicate 56 0) [] 1 8 (by decide) (by decide) (by decide) (by decide)
    (by decide) (by decide)).1

theorem KeyContainer.read_type (P : Prims) (c : KeyContainer) (t : Nat) (key : List Nat)
    (hlen : c.File.offset + 138 ≤ c.File.buffer.length)
    (hne : c.File.byteAt 1 % 256 ≠ t) (ht : t = Public ∨ t = Private) :
    (c.read P t key).1
        = some (if t = Public then Err.ErrInvalidPublicKey else Err.ErrInvalidPrivateKey)
      ∧ (c.read P t key).2.1 = key
      ∧ ∀ P2 : Prims, c.read P2 t key = c.read P t key := by
  have hs : binary.size c.fields = 138 := rfl
  obtain ⟨fs, hfs, has⟩ := KeyContainer.readFields_key c ((c.File.buffer.drop c.File.offset).take 138)
  have hty : (((c.File.buffer.drop c.File.offset).take 138).drop 1).getD 0 0
      = c.File.byteAt 1 := by
    simp [Buffer.byteAt, List.getD_eq_getElem?_getD, List.getElem?_take]
  rw [hty] at has
  have hgen : ∀ Q : Prims, c.read Q t key
      = (some (if t = Public then Err.ErrInvalidPublicKey else Err.ErrInvalidPrivateKey), key,
          { c.assign fs with File := { c.File with offset := c.File.offset + 138 } }) := by
    intro Q
    simp only [KeyContainer.read, binary.Read, hs, Buffer.ReadFull_file c.File 138 hlen, hfs, has]
    rcases ht with h | h
    · subst h
      have hne2 : c.File.byteAt 1 % 256 ≠ 1 := hne
      simp [hne2, Public]
    · subst h
      have hne2 : c.File.byteAt 1 % 256 ≠ 2 := hne
      simp [hne2, Public, Private]
  refine ⟨by rw [hgen P], by rw [hgen P], fun P2 => by rw [hgen P2, hgen P]⟩

/-- C17: on a container file that holds the 138 bytes, `ReadPrivateKey` returns
`ErrInvalidPrivateKey` when the type byte is not Private, and `ReadPublicKey`
returns `ErrInvalidPublicKey` when the type byte is not Public; the caller's key
buffer is as it was, and the result does not depend on the primitives: no key
is derived and nothing is decrypted. -/
theorem C17_key_type_check (P : Prims) (c : KeyContainer) (key : List Nat)
    (hlen : c.File.offset + 138 ≤ c.File.buffer.length) (hb : c.File.byteAt 1 < 256) :
    (c.File.byteAt 1 ≠ Private →
      (c.ReadPrivateKey P key).1 = some Err.ErrInvalidPrivateKey
        ∧ (c.ReadPrivateKey P key).2.1 = key
        ∧ ∀ P2 : Prims, c.ReadPrivateKey P2 key = c.ReadPrivateKey P key)
    ∧ (c.File.byteAt 1 ≠ Public →
      (c.ReadPublicKey P key).1 = some Err.ErrInvalidPublicKey
        ∧ (c.ReadPublicKey P key).2.1 = key
        ∧ ∀ P2 : Prims, c.ReadPublicKey P2 key = c.ReadPublicKey P key) := by
  refine ⟨?_, ?_⟩
  · intro hne
    have h := KeyContainer.read_type P c Private key hlen
      (by rw [Nat.mod_eq_of_lt hb]; exact hne) (Or.inr rfl)
    simpa [KeyContainer.ReadPrivateKey, Public, Private] using h
  · intro hne
    have h := KeyContainer.read_type P c Public key hlen
      (by rw [Nat.mod_eq_of_lt hb]; exact hne) (Or.inl rfl)
    simpa [KeyContainer.ReadPublicKey] using h

set_option maxRecDepth 100000 in
/-- C17, witness: the container written for the sample private key, read with
`ReadPublicKey`. -/
theorem C17_key_type_check_witness :
    ((NewKeyContainer { buffer := Sample.privateKeyFile, offset := 0 }
        [115, 101, 99, 114, 101, 116] 1 8).ReadPublicKey Sample.prims (List.replicate 56 0)).1
      = some Err.ErrInvalidPublicKey
    ∧ ((NewKeyContainer { buffer := Sample.privateKeyFile, offset := 0 }
        [115, 101, 99, 114, 101, 116] 1 8).ReadPublicKey Sample.prims (List.replicate 56 0)).2.1
      = List.replicate 56 0 :=
  ⟨((C17_key_type_check Sample.prims (NewKeyContainer { buffer := Sample.privateKeyFile, offset := 0 }
      [115, 101, 99, 114, 101, 116] 1 8) (List.replicate 56 0) (by decide) (by decide)).2
      (by decide)).1,
    ((C17_key_type_check Sample.prims (NewKeyContainer { buffer := Sample.privateKeyFile, offset := 0 }
      [115, 101, 99, 114, 101, 116] 1 8) (List.replicate 56 0) (by decide) (by decide)).2
      (by decide)).2.1⟩

/-- C13: for every password, iterations and memory (32-bit numbers), the writer
that `PasswordArchive.Writer()` returns for a file that held nothing has
recorded the tag offset 42 and has written to the file exactly 42 bytes: the
version 1, the type 1, the iterations and the memory least significant byte
first, and the 32 bytes of the salt (the password and the file contribute
nothing); the `bufio.Writer` then holds the 16 zero bytes of the tag slot and the
24 bytes of the nonce; and after `Close()` has returned nil the file holds these
42 bytes, the tag at 42..58, the nonce at 58..82 and the payload from 82 on. -/
theorem C13_password_header_layout (P : Prims) {ω : Type} (L : WriteLayers ω)
    (password salt nonce : List Nat) (it mem : Nat) (w : Writer ω)
    (hit : it < 2 ^ 32) (hmem : mem < 2 ^ 32)
    (hw : (NewPasswordArchive password it mem { buffer := [], offset := 0 }).Writer P L
      (.ok salt) (.ok nonce) = (some w, none)) :
    w.tagAt = 42
      ∧ w.files = [{ buffer := [1, 1, it % 256, it / 2 ^ 8 % 256, it / 2 ^ 16 % 256,
                          it / 2 ^ 24 % 256, mem % 256, mem / 2 ^ 8 % 256, mem / 2 ^ 16 % 256,
                          mem / 2 ^ 24 % 256] ++ fit 32 salt
                     offset := 42 }]
      ∧ (∃ iw, w.inner = some iw
          ∧ iw.archive.Writer = List.replicate 16 0 ++ fit 24 nonce)
      ∧ ∀ ops out, (Writer.run P L ops w).Close P L = (none, out) →
          ∃ tag payload, tag.length = 16
            ∧ out.map (fun f => f.buffer)
                = [[1, 1, it % 256, it / 2 ^ 8 % 256, it / 2 ^ 16 % 256, it / 2 ^ 24 % 256,
                    mem % 256, mem / 2 ^ 8 % 256, mem / 2 ^ 16 % 256, mem / 2 ^ 24 % 256]
                    ++ fit 32 salt ++ tag ++ fit 24 nonce ++ payload] := by
  have hp := PasswordArchive.Writer_patched_password P L _ salt nonce w rfl hw
  have hhdr : [(NewPasswordArchive password it mem { buffer := [], offset := 0 }).Version % 256,
        (NewPasswordArchive password it mem { buffer := [], offset := 0 }).Type_ % 256]
        ++ binary.putUint binary.ByteOrder.LE 4
          ((NewPasswordArchive password it mem { buffer := [], offset := 0 }).Iterations % 2 ^ 32)
        ++ binary.putUint binary.ByteOrder.LE 4
          ((NewPasswordArchive password it mem { buffer := [], offset := 0 }).Memory % 2 ^ 32)
        ++ fit 32 salt
      = [1, 1, it % 256, it / 2 ^ 8 % 256, it / 2 ^ 16 % 256, it / 2 ^ 24 % 256,
          mem % 256, mem / 2 ^ 8 % 256, mem / 2 ^ 16 % 256, mem / 2 ^ 24 % 256]
        ++ fit 32 salt := by
    simp only [NewPasswordArchive, Nat.mod_eq_of_lt hit, Nat.mod_eq_of_lt hmem, putUint_LE4,
      Version, Password]
    rfl
  rw [hhdr] at hp
  have hp2 := hp
  obtain ⟨h1, h2, _, iw, h4, h5, _⟩ := hp
  refine ⟨h1, by simpa using h2, ⟨iw, h4, h5⟩, ?_⟩
  intro ops out hc
  obtain ⟨tag, payload, htl, hfiles⟩ := Patched.closed
    hp2 ops out hc
  exact ⟨tag, payload, htl, by simpa using hfiles⟩

/-- C13, witness: the writer of the sample password archive, with 1 iteration
and memory 8. -/
theorem C13_password_header_layout_witness :
    ∃ w, Sample.passwordResult = (some w, none) ∧ w.tagAt = 42
      ∧ w.files = [{ buffer := [1, 1, 1 % 256, 1 / 2 ^ 8 % 256, 1 / 2 ^ 16 % 256,
                          1 / 2 ^ 24 % 256, 8 % 256, 8 / 2 ^ 8 % 256, 8 / 2 ^ 16 % 256,
                          8 / 2 ^ 24 % 256] ++ fit 32 [4, 5, 6]
                     offset := 42 }] := by
  have e1 : Sample.passwordResult.1.isSome = true := by decide
  have e2 : Sample.passwordResult.2 = none := by decide
  rcases h : Sample.passwordResult with ⟨ow, oe⟩
  rw [h] at e1 e2
  simp only at e1 e2
  subst e2
  obtain ⟨w, rfl⟩ := Option.isSome_iff_exists.mp e1
  have h2 := C13_password_header_layout Sample.prims Sample.writeLayers [112, 119] [4, 5, 6]
    [1, 2, 3] 1 8 w (by decide) (by decide) h
  exact ⟨w, rfl, h2.1, h2.2.1⟩

/-- C14: for shard files that hold nothing (at most 255 of them, `sss.Split`
having returned the shares 1 to n), `ShardArchive.Writer()` has written to file
`i` (counted from 0) exactly 35 bytes: the version 1, the type 3, the share id
`i + 1`, and the 32 bytes of the share with that id.  The threshold is not among
them; and after `Close()` has returned nil the file still starts with these 35
bytes. -/
theorem C14_shard_header_layout (P : Prims) {ω : Type} (L : WriteLayers ω) (k : Int)
    (files : List Buffer) (rk nonce : List Nat) (shares : List (Nat × List Nat))
    (w : Writer ω) (shards2 : List ShardArchive)
    (hn : files.length ≤ 255) (hempty : ∀ f ∈ files, f = { buffer := [], offset := 0 })
    (hsplit : P.split files.length (k % 256).toNat (fit 32 rk) = .ok shares)
    (hperm : (shares.map Prod.fst).Perm ((List.range files.length).map (· + 1)))
    (hw : ShardArchive.Writer P L (NewShardArchive k files) (.ok rk) (.ok nonce)
      = ((some w, none), shards2)) :
    w.files.length = files.length
      ∧ (∀ i, i < files.length → ∃ share, (i + 1, share) ∈ shares
          ∧ w.files[i]? = some { buffer := [1, 3, i + 1] ++ fit 32 share, offset := 35 })
      ∧ ∀ ops out, (Writer.run P L ops w).Close P L = (none, out) →
          ∀ i, i < files.length → ∃ share f, (i + 1, share) ∈ shares ∧ out[i]? = some f
            ∧ f.buffer.take 35 = [1, 3, i + 1] ++ fit 32 share := by
  obtain ⟨headers, h1, h2, h3⟩ := ShardArchive.Writer_patched_shard P L k files rk nonce shares w
    shards2 hn hempty hsplit hperm hw
  have hfiles : w.files = headers.map (fun h => { buffer := h, offset := 35 }) := h2.2.1
  refine ⟨by rw [hfiles, List.length_map, h1], ?_, ?_⟩
  · intro i hi
    obtain ⟨share, hs, hh⟩ := h3 i hi
    exact ⟨share, hs, by rw [hfiles, List.getElem?_map, hh]; rfl⟩
  · intro ops out hc i hi
    obtain ⟨share, hs, hh⟩ := h3 i hi
    obtain ⟨tag, payload, _, hout⟩ := h2.closed ops out hc
    have hlen : out.length = headers.length := by
      have := congrArg List.length hout
      simpa using this
    have hi2 : i < out.length := by omega
    refine ⟨share, out[i], hs, List.getElem?_eq_getElem hi2, ?_⟩
    have hget := congrArg (fun l => l[i]?) hout
    simp only [List.getElem?_map, List.getElem?_eq_getElem hi2, hh, Option.map_some',
      Option.some.injEq] at hget
    rw [hget]
    have h35 : ([1, 3, i + 1] ++ fit 32 share).length = 35 := by
      simp [archive.fit_length]
    rw [List.append_assoc, List.append_assoc, List.take_append_of_le_length (by omega),
      List.take_of_length_le (by omega)]

/-- C14, witness: the two sample shard files, with the shares 1 and 2. -/
theorem C14_shard_header_layout_witness :
    ∃ w, Sample.shardResult.1 = (some w, none)
      ∧ w.files.length = 2
      ∧ ∃ share, (1, share) ∈ [(1, fit 32 [1, 2, 3]), (2, fit 32 [1, 2, 3])]
          ∧ w.files[0]? = some { buffer := [1, 3, 0 + 1] ++ fit 32 share, offset := 35 } := by
  have e1 : Sample.shardResult.1.1.isSome = true := by decide
  have e2 : Sample.shardResult.1.2 = none := by decide
  rcases h : Sample.shardResult with ⟨⟨ow, oe⟩, s2⟩
  rw [h] at e1 e2
  simp only at e1 e2
  subst e2
  obtain ⟨w, rfl⟩ := Option.isSome_iff_exists.mp e1
  have h2 := C14_shard_header_layout Sample.prims Sample.writeLayers 2
    [{ buffer := [], offset := 0 }, { buffer := [], offset := 0 }] [1, 2, 3] [4, 5, 6]
    [(1, fit 32 [1, 2, 3]), (2, fit 32 [1, 2, 3])] w s2 (by decide) (by decide) rfl
    (List.Perm.refl _) h
  exact ⟨w, rfl, h2.1, h2.2.1 0 (by decide)⟩

/-- C12, amended: `ShardArchive.Writer` converts the number of files and the
threshold to bytes and leaves the check of the range to `sss.Split`.  With a
`Split` that rejects a threshold below 2 or above the number of shares, for every
threshold from 0 to 255 and every number of files up to 255 outside
`2 <= k <= n`, `Writer()` returns an error and no writer, and the shards with
their files are as they were. -/
theorem C12_shard_writer_range_amended (P : Prims) {ω : Type} (L : WriteLayers ω) (k : Int)
    (files : List Buffer) (rndKey rndNonce : Except Err (List Nat))
    (hP : ∀ n t key, ¬ (2 ≤ t ∧ t ≤ n) → ∃ e, P.split n t key = .error e)
    (hk0 : 0 ≤ k) (hk : k ≤ 255) (hn : files.length ≤ 255)
    (hout : ¬ (2 ≤ k ∧ k ≤ (files.length : Int))) :
    ∃ e, ShardArchive.Writer P L (NewShardArchive k files) rndKey rndNonce
      = ((none, some e), NewShardArchive k files) := by
  cases files with
  | nil => exact ⟨Err.panic, rfl⟩
  | cons f fs =>
    cases rndKey with
    | error e => exact ⟨e, rfl⟩
    | ok bytes =>
      have hkk : (k % 256).toNat = k.toNat := by
        rw [Int.emod_eq_of_lt hk0 (by omega)]
      have hnn : (f :: fs).length % 256 = (f :: fs).length := Nat.mod_eq_of_lt (by omega)
      obtain ⟨e, he⟩ := hP ((f :: fs).length) k.toNat (fit 32 bytes) (by
        intro ⟨h1, h2⟩
        apply hout
        constructor <;> omega)
      refine ⟨e, ?_⟩
      simp only [ShardArchive.Writer, NewShardArchive, List.map_cons, List.length_cons,
        List.length_map] at he hnn ⊢
      rw [hnn, hkk, he]

/-- C12, witness: `Split` of the sample with the range check, threshold 1 and
two files. -/
theorem C12_shard_writer_range_amended_witness :
    ∃ e, ShardArchive.Writer Sample.strictPrims Sample.writeLayers
        (NewShardArchive 1 [{ buffer := [], offset := 0 }, { buffer := [], offset := 0 }])
        (.ok [1, 2, 3]) (.ok [4, 5, 6])
      = ((none, some e),
          NewShardArchive 1 [{ buffer := [], offset := 0 }, { buffer := [], offset := 0 }]) :=
  C12_shard_writer_range_amended Sample.strictPrims Sample.writeLayers 1
    [{ buffer := [], offset := 0 }, { buffer := [], offset := 0 }] (.ok [1, 2, 3]) (.ok [4, 5, 6])
    (by
      intro n t key h
      simp only [Sample.strictPrims]
      by_cases h1 : t < 2
      · exact ⟨_, if_pos h1⟩
      · by_cases h2 : n < t
        · exact ⟨_, by rw [if_neg h1, if_pos h2]⟩
        · exact absurd ⟨by omega, by omega⟩ h)
    (by decide) (by decide) (by decide) (by decide)

/-- C12, counterexample: with a `Split` that checks `2 <= k <= n`, the threshold
258 on three files that hold nothing is not rejected: it is converted to the
byte 2, `Writer()` returns a writer and a nil error, and each of the three files
holds its 35 header bytes. -/
theorem C12_shard_writer_range_counterexample :
    (ShardArchive.Writer Sample.strictPrims Sample.writeLayers
        (NewShardArchive 258 [{ buffer := [], offset := 0 }, { buffer := [], offset := 0 },
          { buffer := [], offset := 0 }]) (.ok [1, 2, 3]) (.ok [4, 5, 6])).1.1.isSome = true
    ∧ (ShardArchive.Writer Sample.strictPrims Sample.writeLayers
        (NewShardArchive 258 [{ buffer := [], offset := 0 }, { buffer := [], offset := 0 },
          { buffer := [], offset := 0 }]) (.ok [1, 2, 3]) (.ok [4, 5, 6])).1.2 = none
    ∧ (ShardArchive.Writer Sample.strictPrims Sample.writeLayers
        (NewShardArchive 258 [{ buffer := [], offset := 0 }, { buffer := [], offset := 0 },
          { buffer := [], offset := 0 }]) (.ok [1, 2, 3]) (.ok [4, 5, 6])).2.map
          (fun s => s.File.buffer.length) = [35, 35, 35]
    ∧ Sample.strictPrims.split 3 1 (fit 32 [1, 2, 3]) = .error (Err.other 1)
    ∧ Sample.strictPrims.split 3 4 (fit 32 [1, 2, 3]) = .error (Err.other 2) :=
  ⟨by decide, by decide, by decide, rfl, rfl⟩

/-- Past the checks of `Key`, with `par = 1`, nothing in `argon2.Key` fails. -/
theorem argon2.Key_value (P : Prims) (password salt : List Nat) (n mem keyLen : Nat)
    (hp : password.length < 2 ^ 32) (hs1 : 8 ≤ salt.length) (hs2 : salt.length < 2 ^ 32)
    (hn2 : n < 2 ^ 32) (hm2 : mem < 2 ^ 32) :
    argon2.Key P password salt (n : Int) 1 (mem : Int) keyLen
      = if n = 0 then .error (Err.argon 4)
        else if mem < 8 then .error (Err.argon 6)
        else .ok (fit keyLen (P.argon2 password salt 1 (mem / 4 * 4) n keyLen)) := by
  unfold argon2.Key
  rw [if_neg (by omega), if_neg (by omega), if_neg (by omega)]
  by_cases h0 : n = 0
  · rw [if_pos (by omega), if_pos h0]
  · rw [if_neg (by omega), if_neg (by omega), if_neg h0]
    by_cases h8 : mem < 8
    · rw [if_pos (by omega), if_pos h8]
    · rw [if_neg (by omega), if_neg h8]
      exact argon2.core_ok P password salt n mem keyLen (by omega) hn2 (by omega) hm2

/-- C21: `Read` on a file that holds, from its offset on, at least as many
bytes as the serialised fields take, leaves the offset advanced by exactly that
number (and returns nil unless a field is an array that reflection cannot fill
from bytes); on a file that holds fewer bytes it returns an error and the
record as it was. -/
theorem C21_read_consumes_size (order : binary.ByteOrder) (file : Buffer)
    (fields : List binary.Field) :
    (file.offset + binary.size fields ≤ file.buffer.length →
      (binary.Read file order fields).2.2
          = { file with offset := file.offset + binary.size fields }
        ∧ ((∀ f ∈ fields, binary.skip f = false → ∀ e l, f.kind ≠ .Array e false l) →
            (binary.Read file order fields).1 = none))
    ∧ (file.buffer.length - file.offset < binary.size fields →
      (∃ e, (binary.Read file order fields).1 = some e)
        ∧ (binary.Read file order fields).2.1 = fields) := by
  refine ⟨?_, ?_⟩
  · intro h
    have hr := Buffer.ReadFull_file file (binary.size fields) h
    have hok : (∀ f ∈ fields, binary.skip f = false → ∀ e l, f.kind ≠ .Array e false l) →
        ∀ buf, ∃ fs, binary.readFields order fields buf = .ok fs := by
      intro hk
      clear hr h
      induction fields with
      | nil => intro buf; exact ⟨[], rfl⟩
      | cons f fs ih =>
        intro buf
        have ih2 := ih (fun g hg => hk g (by simp [hg]))
        by_cases hs : binary.skip f = true
        · obtain ⟨r, hr⟩ := ih2 buf
          exact ⟨f :: r, by simp [binary.readFields, hs, hr]⟩
        · have hs2 : binary.skip f = false := by simpa using hs
          have hkf := hk f (by simp) hs2
          obtain ⟨v, hv⟩ : ∃ v, binary.decodeField order f buf = .ok v := by
            obtain ⟨kind, canSet, val⟩ := f
            cases kind <;> simp [binary.skip] at hs2 <;>
              first
                | exact ⟨_, rfl⟩
                | skip
            rename_i elemSize elemUint8 len
            cases elemUint8
            · exact absurd rfl (hkf elemSize len)
            · exact ⟨_, rfl⟩
          obtain ⟨r, hr⟩ := ih2 (buf.drop f.kind.Size)
          exact ⟨{ f with val := v } :: r, by simp [binary.readFields, hs2, hv, hr]⟩
    constructor
    · simp only [binary.Read, hr]
      cases binary.readFields order fields _ <;> rfl
    · intro hk
      obtain ⟨fs, hfs⟩ := hok hk ((file.buffer.drop file.offset).take (binary.size fields))
      simp only [binary.Read, hr, hfs]
  · intro h
    have hn : binary.size fields ≠ 0 := by omega
    obtain ⟨bytes, e, f2, hr⟩ := Buffer.ReadFull_short file (binary.size fields) hn (by omega)
    refine ⟨⟨e, ?_⟩, ?_⟩ <;> simp only [binary.Read, hr]

/-- C22: `Writer.Copy(r, size)` returns the error of `io.Copy` when that fails;
when `io.Copy` returns no error and has copied `n < size` bytes it returns
`ErrShortCopy`; in both cases the tar writer is not flushed.  Only when `io.Copy`
returns no error and `n >= size` does it flush the tar writer and return what
`Flush` returns. -/
theorem C22_copy_short (P : Prims) {ω : Type} (L : WriteLayers ω) (w : archive.Writer ω)
    (body : List Nat) (rerr : Option Err) (size : Int) :
    (∀ e, (L.Copy w.layers body rerr).err = some e →
      w.Copy P L body rerr size
        = (some e, { layers := (L.Copy w.layers body rerr).st
                     archive := archive.writeChunks P w.archive
                       (L.Copy w.layers body rerr).chunks }))
    ∧ ((L.Copy w.layers body rerr).err = none → (L.Copy w.layers body rerr).n < size →
      w.Copy P L body rerr size
        = (some Err.ErrShortCopy, { layers := (L.Copy w.layers body rerr).st
                                    archive := archive.writeChunks P w.archive
                                      (L.Copy w.layers body rerr).chunks }))
    ∧ ((L.Copy w.layers body rerr).err = none → size ≤ (L.Copy w.layers body rerr).n →
      (w.Copy P L body rerr size).1 = (L.Flush (L.Copy w.layers body rerr).st).err
        ∧ (w.Copy P L body rerr size).2.layers = (L.Flush (L.Copy w.layers body rerr).st).st) := by
  refine ⟨?_, ?_, ?_⟩
  · intro e he
    simp only [archive.Writer.Copy, he]
  · intro he hn
    simp only [archive.Writer.Copy, he, hn, if_true]
  · intro he hn
    have hn2 : ¬ (L.Copy w.layers body rerr).n < size := by omega
    refine ⟨?_, ?_⟩ <;> simp only [archive.Writer.Copy, he, hn2, if_false]

/-- C23: `PasswordArchive.Key()` is `argon2.Key(password, salt, iterations, 1,
memory, 32)`; for a password of less than 2^32 bytes, a salt of 32 bytes and
32-bit iterations and memory it returns an error exactly when the iterations
are 0 (`invalid n`) or the memory is below 8 (`invalid mem`); in every other
case the checks at the entry of the core `argon2` pass and it returns a key of
32 bytes. -/
theorem C23_password_key (P : Prims) (a : PasswordArchive)
    (hp : a.Password.length < 2 ^ 32) (hs : a.Salt.length = 32)
    (hn : a.Iterations < 2 ^ 32) (hm : a.Memory < 2 ^ 32) :
    a.Key P = argon2.Key P a.Password a.Salt (a.Iterations : Int) 1 (a.Memory : Int) 32
    ∧ ((∃ e, a.Key P = .error e) ↔ (a.Iterations = 0 ∨ a.Memory < 8))
    ∧ (a.Iterations = 0 → a.Key P = .error (Err.argon 4))
    ∧ (a.Iterations ≠ 0 → a.Memory < 8 → a.Key P = .error (Err.argon 6))
    ∧ (a.Iterations ≠ 0 → 8 ≤ a.Memory →
        ∃ k, a.Key P = .ok k ∧ k.length = 32
          ∧ argon2.argon2 P 32 a.Password a.Salt 1 (a.Memory / 4 * 4) a.Iterations = .ok k) := by
  have hv := argon2.Key_value P a.Password a.Salt a.Iterations a.Memory 32 hp (by omega)
    (by omega) hn hm
  have hkey : a.Key P
      = argon2.Key P a.Password a.Salt (a.Iterations : Int) 1 (a.Memory : Int) 32 := rfl
  refine ⟨hkey, ?_, ?_, ?_, ?_⟩
  · rw [hkey, hv]
    constructor
    · rintro ⟨e, he⟩
      by_contra hc
      rw [if_neg (by omega), if_neg (by omega)] at he
      exact absurd he (by simp)
    · intro h
      by_cases h0 : a.Iterations = 0
      · exact ⟨_, by rw [if_pos h0]⟩
      · exact ⟨_, by rw [if_neg h0, if_pos (by omega)]⟩
  · intro h0
    rw [hkey, hv, if_pos h0]
  · intro h0 h8
    rw [hkey, hv, if_neg h0, if_pos h8]
  · intro h0 h8
    refine ⟨_, by rw [hkey, hv, if_neg h0, if_neg (by omega)], archive.fit_length _ _, ?_⟩
    unfold argon2.argon2
    have e4 : (1 * 4 % 2 ^ 32 : Nat) = 4 := by norm_num
    rw [e4, if_neg (by omega), if_neg (by decide), if_neg (by omega)]

/-- C23, witness: the sample password archive, with 1 iteration and memory 8. -/
theorem C23_password_key_witness :
    ∃ k, Sample.passwordArchive.Key Sample.prims = .ok k ∧ k.length = 32 :=
  match (C23_password_key Sample.prims Sample.passwordArchive (by decide) (by decide)
    (by decide) (by decide)).2.2.2.2 (by decide) (by decide) with
  | ⟨k, h1, h2, _⟩ => ⟨k, h1, h2⟩

theorem ite_some_eq_none {α : Type} {c : Prop} [Decidable c] {x : α} {y : Option α} :
    (if c then some x else y) = none ↔ ¬ c ∧ y = none := by
  by_cases h : c <;> simp [h]

/-- C24: when `Args.Validate` returns nil for a create request that names at
least one shard, then `2 <= Threshold <= len(Shards) <= 255`; and it returns an
error for every request, whatever the operation, that names more than 255
shards. -/
theorem C24_validate_shards (a : Args) :
    (a.Validate = none → a.Create = true → 0 < a.Shards.length →
      2 ≤ a.Threshold ∧ a.Threshold ≤ (a.Shards.length : Int) ∧ a.Shards.length ≤ 255)
    ∧ (255 < a.Shards.length → ∃ e, a.Validate = some e) := by
  refine ⟨?_, ?_⟩
  · intro h hc hs
    simp only [Args.Validate, ite_some_eq_none] at h
    obtain ⟨_, _, _, _, _, _, _, _, _, _, _, c12, c13, c14, c15, _⟩ := h
    simp only [hc, Bool.true_and, Bool.and_eq_true, decide_eq_true_eq, not_and, not_lt,
      not_le, gt_iff_lt] at c12 c13 c14 c15
    have t1 := c14 hs
    have t2 := c15 hs
    omega
  · intro h
    cases hv : a.Validate with
    | some e => exact ⟨e, rfl⟩
    | none =>
      simp only [Args.Validate, ite_some_eq_none] at hv
      obtain ⟨_, _, _, _, _, _, _, _, _, _, _, c12, _⟩ := hv
      omega

/-- C24, witness: a create request with three shards and threshold 2 that
`Validate` accepts. -/
theorem C24_validate_shards_witness :
    Sample.shardArgs.Validate = none
      ∧ (2 : Int) ≤ Sample.shardArgs.Threshold
      ∧ Sample.shardArgs.Threshold ≤ (Sample.shardArgs.Shards.length : Int)
      ∧ Sample.shardArgs.Shards.length ≤ 255 :=
  ⟨by decide, (C24_validate_shards Sample.shardArgs).1 (by decide) (by decide) (by decide)⟩

/-- C26: for every key and all byte strings `a` and `b`, a `Poly1305` that is
initialised and is written `a` and then `b` gives the same `Sum` as one that is
initialised and is written `a ++ b` at once; so for a cipher state whose MAC is
between calls, the tag after `Decrypt(a)`, `Decrypt(b)` is the tag after
`Decrypt(a ++ b)`, and `Encrypt(a)`, `Encrypt(b)` produce the ciphertext and the
tag of `Encrypt(a ++ b)`. -/
theorem C26_poly1305_incremental (key a b x : List Nat) :
    (((poly1305.Poly1305.Init key).Write a).Write b).Sum x
        = ((poly1305.Poly1305.Init key).Write (a ++ b)).Sum x
    ∧ ∀ (P : Prims) (c : xchacha20poly1305.XChaCha20Poly1305), c.mac.ok →
        xchacha20poly1305.Tag
            (xchacha20poly1305.Decrypt P (xchacha20poly1305.Decrypt P c a).1 b).1 x
          = xchacha20poly1305.Tag (xchacha20poly1305.Decrypt P c (a ++ b)).1 x
        ∧ (xchacha20poly1305.Encrypt P c a).2
            ++ (xchacha20poly1305.Encrypt P (xchacha20poly1305.Encrypt P c a).1 b).2
          = (xchacha20poly1305.Encrypt P c (a ++ b)).2
        ∧ xchacha20poly1305.Tag
            (xchacha20poly1305.Encrypt P (xchacha20poly1305.Encrypt P c a).1 b).1 x
          = xchacha20poly1305.Tag (xchacha20poly1305.Encrypt P c (a ++ b)).1 x := by
  have two : ∀ (m : poly1305.Poly1305), m.ok → ∀ u v : List Nat,
      ((m.Write u).Write v).Sum x = (m.Write (u ++ v)).Sum x := by
    intro m hm u v
    have h1 : poly1305.MacOf m (u ++ v) ((m.Write u).Write v) := by
      have := ((poly1305.MacOf.refl m hm).step u).step v
      simpa using this
    have h2 : poly1305.MacOf m (u ++ v) (m.Write (u ++ v)) := by
      have := (poly1305.MacOf.refl m hm).step (u ++ v)
      simpa using this
    exact h1.sum_eq h2 x
  refine ⟨two _ (poly1305.Init_ok key) a b, ?_⟩
  intro P c hc
  have hct : (xchacha20poly1305.Encrypt P c a).2
      ++ (xchacha20poly1305.Encrypt P (xchacha20poly1305.Encrypt P c a).1 b).2
        = (xchacha20poly1305.Encrypt P c (a ++ b)).2 := by
    have := archive.xorAt_append P c.key c.nonce c.pos a b
    simp only [xchacha20poly1305.Encrypt, xchacha20poly1305.XORKeyStream]
    simp only [archive.xorAt] at this
    rw [this]
  refine ⟨?_, hct, ?_⟩
  · simp only [xchacha20poly1305.Tag, xchacha20poly1305.Decrypt]
    exact two c.mac hc a b
  · have h := two c.mac hc (xchacha20poly1305.Encrypt P c a).2
      (xchacha20poly1305.Encrypt P (xchacha20poly1305.Encrypt P c a).1 b).2
    rw [hct] at h
    simp only [xchacha20poly1305.Tag, xchacha20poly1305.Encrypt] at h ⊢
    exact h

theorem argon2.Key_round (P : Prims) (password salt : List Nat) (n : Int) (keyLen : Nat)
    (mem : Int) (h8 : 8 ≤ mem) :
    argon2.Key P password salt n 1 mem keyLen
      = argon2.Key P password salt n 1 (mem / 4 * 4) keyLen := by
  have e4 : (4 * 1 : Int) = 4 := by norm_num
  have e8 : (8 * 1 : Int) = 8 := by norm_num
  have hr : mem / 4 * 4 / 4 * 4 = mem / 4 * 4 := by omega
  unfold argon2.Key
  simp only [e4, e8, hr]
  by_cases hbig : mem > 2 ^ 32 - 1
  · have h1 : mem < 8 ∨ mem > 2 ^ 32 - 1 := Or.inr hbig
    have h2 : mem / 4 * 4 < 8 ∨ mem / 4 * 4 > 2 ^ 32 - 1 := Or.inr (by omega)
    simp only [h1, h2, if_true]
  · have h1 : ¬ (mem < 8 ∨ mem > 2 ^ 32 - 1) := by omega
    have h2 : ¬ (mem / 4 * 4 < 8 ∨ mem / 4 * 4 > 2 ^ 32 - 1) := by omega
    simp only [h1, h2, if_false]

/-- C27: with `par = 1` and `mem >= 8`, `argon2.Key` returns for `mem` what it
returns for `mem` rounded down to a multiple of 4; so `PasswordArchive.Key()`
returns the same for two archives that differ only in the two low bits of a
memory field that is at least 8. -/
theorem C27_memory_rounding (P : Prims) (password salt : List Nat) (n : Int) (keyLen : Nat) :
    (∀ mem : Int, 8 ≤ mem →
      argon2.Key P password salt n 1 mem keyLen
        = argon2.Key P password salt n 1 (mem / 4 * 4) keyLen)
    ∧ ∀ (a : PasswordArchive) (m1 m2 : Nat), 8 ≤ m1 → 8 ≤ m2 → m1 / 4 = m2 / 4 →
        PasswordArchive.Key P { a with Memory := m1 }
          = PasswordArchive.Key P { a with Memory := m2 } := by
  refine ⟨argon2.Key_round P password salt n keyLen, ?_⟩
  intro a m1 m2 h1 h2 h12
  have hq : (m1 : Int) / 4 * 4 = (m2 : Int) / 4 * 4 := by omega
  unfold PasswordArchive.Key
  simp only
  rw [argon2.Key_round P a.Password a.Salt _ KeySize (m1 : Int) (by omega),
    argon2.Key_round P a.Password a.Salt _ KeySize (m2 : Int) (by omega), hq]

/-- C27, witness: the sample password archive with the memory fields 8 and 11. -/
theorem C27_memory_rounding_witness :
    PasswordArchive.Key Sample.prims { Sample.passwordArchive with Memory := 8 }
      = PasswordArchive.Key Sample.prims { Sample.passwordArchive with Memory := 11 } :=
  (C27_memory_rounding Sample.prims [] [] 1 32).2 Sample.passwordArchive 8 11 (by decide)
    (by decide) (by decide)

/-- C29: the scan in `verify` moves the file on, beyond the offset on entry
whenever the file holds a byte there and to the end of the file whenever the scan
ends without a read error, and the deferred `Seek` puts the offset back: after
`verify` returns, whatever it returns, the file stands at the offset it had on
entry; so in `newArchiveReader` the reader that is created after the scan is
`archive.NewReader` on a `bufio.Reader` that delivers the bytes of the first
file from the offset on entry, the stored tag first. -/
theorem C29_verify_restores_offset (P : Prims) (key : List Nat) (file : Buffer)
    (cuts : List Nat) :
    (verify P key file cuts).2 = file
    ∧ (verify P key file cuts).2.offset = file.offset
    ∧ verify P key file cuts
        = ((verifyScan P key file cuts).1, (verifyScan P key file cuts).2.SeekTo file.offset)
    ∧ (file.offset < file.buffer.length → file.offset < (verifyScan P key file cuts).2.offset)
    ∧ (file.offset ≤ file.buffer.length → (verify P key file cuts).1.2 = none →
        (verifyScan P key file cuts).2.offset = file.buffer.length)
    ∧ ∀ {δ : Type} (L : ReadLayers δ) (rest : List Buffer) (cuts2 : List Nat) (r : Reader δ),
        (newArchiveReader P L key (file :: rest) cuts cuts2).reader = some r →
          r.files = file :: rest
          ∧ (r.inner, (newArchiveReader P L key (file :: rest) cuts cuts2).err)
              = archive.NewReader P L (file.bufio cuts2) key
          ∧ (file.bufio cuts2).data = file.buffer.drop file.offset := by
  have h1 : (verify P key file cuts).2 = file := verify_snd P key file cuts
  refine ⟨h1, by rw [h1], rfl, ?_, ?_, ?_⟩
  · intro hlt
    rw [verifyScan_offset P key file cuts (by omega)]
    omega
  · intro hle hnone
    rw [verify_fst] at hnone
    rw [verifyScan_offset P key file cuts hle, archive.unread_of_no_error P _ key hnone]
    omega
  · intro δ L rest cuts2 r hr
    rcases hv : verify P key file cuts with ⟨⟨b, e⟩, f⟩
    have hf : f = file := by rw [← h1, hv]
    subst hf
    cases e with
    | some e => simp [newArchiveReader, hv] at hr
    | none =>
      cases b with
      | false => simp [newArchiveReader, hv] at hr
      | true =>
        simp only [newArchiveReader, hv, Option.some.injEq] at hr ⊢
        subst hr
        exact ⟨rfl, rfl, rfl⟩

/-- C29, witness: the scan of the sample password file from offset 42, the end of
its header, under a key that is not the key of the file: the scan has moved the
file on, and `verify` returns it at offset 42. -/
theorem C29_verify_restores_offset_witness :
    (verify Sample.prims (List.replicate 32 0)
      { buffer := Sample.passwordFile, offset := 42 } []).2.offset = 42
    ∧ 42 < (verifyScan Sample.prims (List.replicate 32 0)
      { buffer := Sample.passwordFile, offset := 42 } []).2.offset :=
  ⟨(C29_verify_restores_offset Sample.prims (List.replicate 32 0)
    { buffer := Sample.passwordFile, offset := 42 } []).2.1,
   (C29_verify_restores_offset Sample.prims (List.replicate 32 0)
    { buffer := Sample.passwordFile, offset := 42 } []).2.2.2.1 (by decide)⟩

theorem readFullLoop_Source_short (fuel : Nat) :
    ∀ (s : Source) (need : Nat) (acc : List Nat), need < fuel → s.data.length < need →
      ∃ e, (readFullLoop Source.Read fuel s need acc).1.2 = some e := by
  induction fuel with
  | zero => intro s need acc h; omega
  | succ fuel ih =>
    intro s need acc hf hl
    have hz : need ≠ 0 := by omega
    by_cases hd : s.data = []
    · have hr := Source.Read_nil s need hz hd
      simp only [readFullLoop, hz, if_false, hr, List.length_nil, Nat.sub_zero, List.append_nil]
      split_ifs <;> exact ⟨_, rfl⟩
    · obtain ⟨k, hk0, hkn, hr⟩ := Source.Read_cons s need hz hd
      have hpos : 0 < s.data.length := List.length_pos.mpr hd
      simp only [readFullLoop, hz, if_false, hr]
      apply ih
      · simp only [List.length_take]; omega
      · simp only [List.length_take, List.length_drop]; omega

theorem Source_ReadFull_short (s : Source) (n : Nat) (h : s.data.length < n) :
    ∃ e, (ReadFull s n).1.2 = some e :=
  readFullLoop_Source_short (n + 1) s n [] (by omega) h

namespace archive

open xchacha20poly1305

theorem NewArchiveFromReader_short (P : Prims) (s : Source) (key : List Nat)
    (h : s.data.length < 40) : ∃ e, (NewArchiveFromReader P s key).2 = some e := by
  unfold NewArchiveFromReader
  by_cases h16 : s.data.length < 16
  · obtain ⟨e, he⟩ := Source_ReadFull_short s 16 h16
    rcases hr : ReadFull s 16 with ⟨⟨b, eo⟩, r1⟩
    rw [hr] at he
    simp only at he
    subst he
    simp only [TagSize, hr]
    exact ⟨e, rfl⟩
  · obtain ⟨q1, q2, _⟩ := Source_ReadFull_spec s 16 (by omega)
    rcases hr : ReadFull s 16 with ⟨⟨b, eo⟩, r1⟩
    rw [hr] at q1 q2
    simp only [Prod.mk.injEq] at q1
    obtain ⟨_, rfl⟩ := q1
    simp only at q2
    obtain ⟨e, he⟩ := Source_ReadFull_short r1 24 (by rw [q2, List.length_drop]; omega)
    rcases hr3 : ReadFull r1 24 with ⟨⟨b2, eo2⟩, r2⟩
    rw [hr3] at he
    simp only at he
    subst he
    simp only [TagSize, NonceSize, hr, hr3]
    exact ⟨e, rfl⟩

theorem NewArchiveFromReader_badkey (P : Prims) (s : Source) (key : List Nat)
    (h : 40 ≤ s.data.length) (hk : key.length ≠ 32) :
    ∃ a, NewArchiveFromReader P s key = (some a, some Err.ErrInvalidKey) := by
  unfold NewArchiveFromReader
  obtain ⟨q1, q2, _⟩ := Source_ReadFull_spec s 16 (by omega)
  rcases hr : ReadFull s 16 with ⟨⟨b, eo⟩, r1⟩
  rw [hr] at q1 q2
  simp only [Prod.mk.injEq] at q1
  obtain ⟨_, rfl⟩ := q1
  simp only at q2
  obtain ⟨p1, _, _⟩ := Source_ReadFull_spec r1 24 (by rw [q2, List.length_drop]; omega)
  rcases hr3 : ReadFull r1 24 with ⟨⟨b2, eo2⟩, r2⟩
  rw [hr3] at p1
  simp only [Prod.mk.injEq] at p1
  obtain ⟨_, rfl⟩ := p1
  have hi : Init P zero key b2 = (zero, some Err.ErrInvalidKey) := by
    simp [Init, xchacha20poly1305.KeySize, hk]
  simp only [TagSize, NonceSize, hr, hr3, hi]
  exact ⟨_, rfl⟩

theorem Verify_true_inv (P : Prims) (s : Source) (key : List Nat)
    (h : Verify P s key = (true, none)) : key.length = 32 ∧ 40 ≤ s.data.length := by
  have hl : 40 ≤ s.data.length := by
    by_contra hl
    obtain ⟨e, he⟩ := NewArchiveFromReader_short P s key (by omega)
    unfold Verify at h
    rcases hn : NewArchiveFromReader P s key with ⟨oa, oe⟩
    rw [hn] at he h
    simp only at he
    subst he
    simp at h
  refine ⟨?_, hl⟩
  by_contra hk
  obtain ⟨a, ha⟩ := NewArchiveFromReader_badkey P s key hl hk
  simp [Verify, ha] at h

/-- A stream that holds a tag, a nonce and a payload, under a 32-byte key:
`Verify` returns the error of the stream when it reports one, and else whether
the tag is the tag of the payload. -/
theorem Verify_eq_err (P : Prims) (key tag nonce ct cuts : List Nat) (err : Option Err)
    (hk : key.length = 32) (ht : tag.length = 16) (hn : nonce.length = 24) :
    Verify P { data := tag ++ nonce ++ ct, cuts := cuts, err := err } key
      = if err.getD Err.EOF = Err.EOF then (decide (tag = keyTag P key nonce ct), none)
        else (false, some (err.getD Err.EOF)) := by
  have hm : poly1305.MacOf (poly1305.Poly1305.Init (KeyStream P key nonce 0 32)) ct
      ((poly1305.Poly1305.Init (KeyStream P key nonce 0 32)).Write ct) := by
    have := (poly1305.MacOf.refl _ (poly1305.Init_ok (KeyStream P key nonce 0 32))).step ct
    simpa using this
  obtain ⟨a, ha, hinv, hdata, herr, _⟩ := NewArchiveFromReader_spec P
    { data := tag ++ nonce ++ ct, cuts := cuts, err := err } key tag nonce ct hk ht hn rfl
  obtain ⟨a2, hl, hinv2, hnil⟩ := discardLoop_spec P key nonce tag ct (a.Reader.data.length + 1) a
    hinv (by omega)
  simp only at herr
  simp only [Verify, ha, hl, herr]
  by_cases he : err.getD Err.EOF = Err.EOF
  · simp only [he, if_true]
    rw [hinv2.Verify_exhausted hnil _ hm]
    rfl
  · simp only [he, if_false]

end archive

/-- C28: for every key and every stream `s` on which `archive.Verify` returns
true, the stored tag (the first 16 bytes) is the tag computed from the key, the
nonce and the payload, and every stream that equals `s` from byte 16 on and
differs from it in the first 16 bytes makes `archive.Verify` return false,
whatever the slices in which it is read. -/
theorem C28_stored_tag_decides (P : Prims) (key : List Nat) (s s2 : Source)
    (h : archive.Verify P s key = (true, none))
    (hd : s2.data.drop 16 = s.data.drop 16) (hne : s2.data.take 16 ≠ s.data.take 16) :
    s.data.take 16 = keyTag P key ((s.data.drop 16).take 24) (s.data.drop 40)
      ∧ (archive.Verify P s2 key).1 = false := by
  obtain ⟨hk, hl⟩ := archive.Verify_true_inv P s key h
  have hl2 : 40 ≤ s2.data.length := by
    have := congrArg List.length hd
    simp only [List.length_drop] at this
    omega
  have dec : ∀ t : Source, 40 ≤ t.data.length →
      t = { data := t.data.take 16 ++ (t.data.drop 16).take 24 ++ t.data.drop 40
            cuts := t.cuts, err := t.err } := by
    intro t ht
    have : t.data.take 16 ++ (t.data.drop 16).take 24 ++ t.data.drop 40 = t.data := by
      rw [List.append_assoc]
      have h2 : (t.data.drop 16).take 24 ++ t.data.drop 40 = t.data.drop 16 := by
        have := List.take_append_drop 24 (t.data.drop 16)
        simpa [List.drop_drop] using this
      rw [h2, List.take_append_drop]
    rw [this]
  have e1 := archive.Verify_eq_err P key (s.data.take 16) ((s.data.drop 16).take 24)
    (s.data.drop 40) s.cuts s.err hk (by simp; omega) (by simp; omega)
  rw [← dec s hl, h] at e1
  have hn2 : (s2.data.drop 16).take 24 = (s.data.drop 16).take 24 := by rw [hd]
  have hc2 : s2.data.drop 40 = s.data.drop 40 := by
    have := congrArg (List.drop 24) hd
    simpa [List.drop_drop] using this
  have e2 := archive.Verify_eq_err P key (s2.data.take 16) ((s2.data.drop 16).take 24)
    (s2.data.drop 40) s2.cuts s2.err hk (by simp; omega) (by simp; omega)
  rw [← dec s2 hl2, hn2, hc2] at e2
  by_cases he : s.err.getD Err.EOF = Err.EOF
  · rw [if_pos he] at e1
    simp only [Prod.mk.injEq, and_true] at e1
    have ht : s.data.take 16 = keyTag P key ((s.data.drop 16).take 24) (s.data.drop 40) := by
      have := e1.symm
      simpa using this
    refine ⟨ht, ?_⟩
    rw [e2]
    split_ifs
    · simp only [decide_eq_false_iff_not]
      rw [← ht]
      exact hne
    · rfl
  · rw [if_neg he] at e1
    simp at e1

/-- C28, witness: the sample file verifies; with byte 3 of its stored tag set
to another value it does not. -/
theorem C28_stored_tag_decides_witness :
    archive.Verify Sample.prims { data := Sample.file, cuts := [], err := none } Sample.key
        = (true, none)
    ∧ (archive.Verify Sample.prims
        { data := Sample.file.set 3 (Sample.file.getD 3 0 + 1), cuts := [5], err := none }
        Sample.key).1 = false :=
  ⟨by decide,
    (C28_stored_tag_decides Sample.prims Sample.key
      { data := Sample.file, cuts := [], err := none }
      { data := Sample.file.set 3 (Sample.file.getD 3 0 + 1), cuts := [5], err := none }
      (by decide) (by decide) (by decide)).2⟩

namespace archive

open xchacha20poly1305

/-- What `Verify()` returns on an archive that is reading a payload: whether the
stored tag is the tag of the part of the payload consumed so far. -/
theorem RInv.Verify_consumed {P : Prims} {key nonce tag ct : List Nat} {a : Archive}
    (h : RInv P key nonce tag ct a) :
    ∃ consumed, consumed ++ a.Reader.data = ct
      ∧ a.Verify = decide (tag = keyTag P key nonce consumed) := by
  obtain ⟨_, _, ht, consumed, hc, _, hmac⟩ := h
  refine ⟨consumed, hc, ?_⟩
  have hm : poly1305.MacOf (poly1305.Poly1305.Init (KeyStream P key nonce 0 32)) consumed
      ((poly1305.Poly1305.Init (KeyStream P key nonce 0 32)).Write consumed) := by
    have := (poly1305.MacOf.refl _ (poly1305.Init_ok (KeyStream P key nonce 0 32))).step
      consumed
    simpa using this
  simp only [Archive.Verify, Tag, ht, hmac.sum_eq hm, keyTag]

/-- Two readers that differ only in bytes that `io.ReadFull` takes are the same
reader afterwards. -/
theorem readFullLoop_same_tail (fuel : Nat) :
    ∀ (s1 s2 : Source) (need : Nat) (acc1 acc2 x1 x2 rest : List Nat),
      need < fuel → s1.data = x1 ++ rest → s2.data = x2 ++ rest → x1.length = need →
      x2.length = need → s1.cuts = s2.cuts → s1.err = s2.err →
      (readFullLoop Source.Read fuel s1 need acc1).2
        = (readFullLoop Source.Read fuel s2 need acc2).2 := by
  induction fuel with
  | zero => intro s1 s2 need acc1 acc2 x1 x2 rest h; omega
  | succ fuel ih =>
    intro s1 s2 need acc1 acc2 x1 x2 rest hf h1 h2 l1 l2 hc he
    by_cases hz : need = 0
    · subst hz
      have e1 : x1 = [] := List.length_eq_zero.mp l1
      have e2 : x2 = [] := List.length_eq_zero.mp l2
      subst e1 e2
      simp only [readFullLoop, if_true]
      obtain ⟨d1, c1, r1⟩ := s1
      obtain ⟨d2, c2, r2⟩ := s2
      simp only [List.nil_append] at h1 h2 hc he
      subst h1 h2 hc he
      rfl
    · have n1 : s1.data ≠ [] := by
        intro h; rw [h] at h1
        have := congrArg List.length h1
        simp only [List.length_nil, List.length_append] at this; omega
      have n2 : s2.data ≠ [] := by
        intro h; rw [h] at h2
        have := congrArg List.length h2
        simp only [List.length_nil, List.length_append] at this; omega
      have r1 : s1.Read need = ((s1.data.take (min need (max 1 (s1.cuts.headD need))), none),
          { s1 with data := s1.data.drop (min need (max 1 (s1.cuts.headD need)))
                    cuts := s1.cuts.tail }) := by
        simp [Source.Read, hz, n1]
      have r2 : s2.Read need = ((s2.data.take (min need (max 1 (s1.cuts.headD need))), none),
          { s2 with data := s2.data.drop (min need (max 1 (s1.cuts.headD need)))
                    cuts := s1.cuts.tail }) := by
        simp [Source.Read, hz, n2, hc]
      have hk : min need (max 1 (s1.cuts.headD need)) ≤ need := Nat.min_le_left _ _
      have hk0 : 0 < min need (max 1 (s1.cuts.headD need)) := by omega
      generalize min need (max 1 (s1.cuts.headD need)) = k at r1 r2 hk hk0
      have t1 : (List.take k s1.data).length = k := by
        rw [List.length_take, h1, List.length_append]; omega
      have t2 : (List.take k s2.data).length = k := by
        rw [List.length_take, h2, List.length_append]; omega
      simp only [readFullLoop, hz, if_false, r1, r2, t1, t2]
      apply ih _ _ (need - k) _ _ (x1.drop k) (x2.drop k) rest (by omega)
      · simp only; rw [h1, List.drop_append_of_le_length (by omega)]
      · simp only; rw [h2, List.drop_append_of_le_length (by omega)]
      · rw [List.length_drop]; omega
      · rw [List.length_drop]; omega
      · rfl
      · simp only; exact he

/-- The stored tag does not enter what `NewArchiveFromReader` does: on a stream
with another tag it returns the same archive with that tag. -/
theorem NewArchiveFromReader_retag (P : Prims) (key tag tag2 nonce ct cuts : List Nat)
    (err : Option Err) (ht : tag.length = 16) (ht2 : tag2.length = 16)
    (hn : nonce.length = 24) (a : Archive)
    (h : NewArchiveFromReader P { data := tag ++ nonce ++ ct, cuts := cuts, err := err } key
      = (some a, none)) :
    NewArchiveFromReader P { data := tag2 ++ nonce ++ ct, cuts := cuts, err := err } key
      = (some { a with tag := tag2 }, none) := by
  obtain ⟨p1, _, _⟩ := Source_ReadFull_spec
    { data := tag ++ nonce ++ ct, cuts := cuts, err := err } 16
    (by simp only [List.length_append]; omega)
  obtain ⟨q1, _, _⟩ := Source_ReadFull_spec
    { data := tag2 ++ nonce ++ ct, cuts := cuts, err := err } 16
    (by simp only [List.length_append]; omega)
  have hs : (ReadFull { data := tag ++ nonce ++ ct, cuts := cuts, err := err } 16).2
      = (ReadFull { data := tag2 ++ nonce ++ ct, cuts := cuts, err := err } 16).2 :=
    readFullLoop_same_tail 17 _ _ 16 [] [] tag tag2 (nonce ++ ct) (by omega)
      (by simp [List.append_assoc]) (by simp [List.append_assoc]) ht ht2 rfl rfl
  simp only [List.append_assoc, List.take_left' ht, List.take_left' ht2] at p1 q1 hs
  unfold NewArchiveFromReader at h ⊢
  simp only [TagSize, List.append_assoc] at h ⊢
  rcases h1 : ReadFull { data := tag ++ (nonce ++ ct), cuts := cuts, err := err } 16
    with ⟨⟨b1, e1⟩, s1⟩
  rcases h2 : ReadFull { data := tag2 ++ (nonce ++ ct), cuts := cuts, err := err } 16
    with ⟨⟨b2, e2⟩, s2⟩
  rw [h1] at p1 hs h
  rw [h2] at q1 hs
  simp only [Prod.mk.injEq] at p1 q1
  obtain ⟨rfl, rfl⟩ := p1
  obtain ⟨rfl, rfl⟩ := q1
  simp only at hs h ⊢
  subst hs
  rcases h3 : ReadFull s1 NonceSize with ⟨⟨b3, e3⟩, s3⟩
  rw [h3] at h
  cases e3 with
  | some e => simp at h
  | none =>
    simp only [Prod.mk.injEq, Option.some.injEq] at h ⊢
    obtain ⟨ha, he⟩ := h
    subst ha
    exact ⟨rfl, he⟩

theorem Archive.Read_retag (P : Prims) (a : Archive) (t : List Nat) (n : Nat) :
    Archive.Read P { a with tag := t } n
      = ((a.Read P n).1, { (a.Read P n).2 with tag := t }) := by
  simp only [Archive.Read]

/-- The stored tag does not enter what the reading layers do. -/
theorem Pull.run_retag (P : Prims) {α : Type} (m : Pull α) (t : List Nat) :
    ∀ a : Archive, Pull.run P m { a with tag := t }
      = ((Pull.run P m a).1, { (Pull.run P m a).2 with tag := t }) := by
  induction m with
  | ret v => intro a; rfl
  | read n k ih =>
    intro a
    rw [Pull.run_read, Pull.run_read, Archive.Read_retag, ih]

theorem RInv.retag {P : Prims} {key nonce tag ct : List Nat} {a : Archive}
    (h : RInv P key nonce tag ct a) (t : List Nat) :
    RInv P key nonce t ct { a with tag := t } := by
  obtain ⟨h1, h2, _, h4⟩ := h
  exact ⟨h1, h2, rfl, h4⟩

/-- C25, amended: `Reader.Verify()` keeps no record of whether the entries are
exhausted.  For a 32-byte key and a stream that holds a tag, a nonce and a
payload, the reader that `NewReader` returns, and every reader that a call of
`Next` or `Read` leaves, has taken a part of the payload from the stream, from
its start on, and `Verify()` returns whether the stored tag is the tag of that
part: it returns false exactly when the stored tag differs from the tag of what
the gzip reader has taken from the archive by then, and once the gzip reader has
taken the whole payload it returns whether the stored tag is the tag of the
payload, whether or not an entry has been read.  The stored tag does not enter
what `NewReader` does: whenever a stream opens, the stream that holds instead
the tag of what `NewReader` takes opens in the same state, with the same bytes
unread, and there `Verify()` returns true right after `NewReader`. -/
theorem C25_verify_tracks_consumed (P : Prims) {δ : Type} (L : ReadLayers δ)
    (key tag nonce ct cuts : List Nat) (err : Option Err)
    (hk : key.length = 32) (ht : tag.length = 16) (hn : nonce.length = 24) :
    (∀ r : Reader δ,
      NewReader P L { data := tag ++ nonce ++ ct, cuts := cuts, err := err } key = (some r, none) →
        RInv P key nonce tag ct r.archive)
    ∧ (∀ r : Reader δ, RInv P key nonce tag ct r.archive →
        RInv P key nonce tag ct (r.Next P L).2.archive
        ∧ (∀ n, RInv P key nonce tag ct (r.Read P L n).2.archive)
        ∧ (∃ consumed, consumed ++ r.archive.Reader.data = ct
            ∧ r.Verify = decide (tag = keyTag P key nonce consumed))
        ∧ (r.archive.Reader.data = [] → r.Verify = decide (tag = keyTag P key nonce ct)))
    ∧ ∀ r : Reader δ,
        NewReader P L { data := tag ++ nonce ++ ct, cuts := cuts, err := err } key
          = (some r, none) →
        ∃ consumed, consumed ++ r.archive.Reader.data = ct
          ∧ NewReader P L
              { data := keyTag P key nonce consumed ++ nonce ++ ct, cuts := cuts, err := err } key
            = (some { layers := r.layers
                      archive := { r.archive with tag := keyTag P key nonce consumed } }, none)
          ∧ Reader.Verify
              { layers := r.layers
                archive := { r.archive with tag := keyTag P key nonce consumed } } = true := by
  have hopen : ∀ r : Reader δ,
      NewReader P L { data := tag ++ nonce ++ ct, cuts := cuts, err := err } key = (some r, none) →
        RInv P key nonce tag ct r.archive := by
    intro r hr
    obtain ⟨a, ha, hinv, _⟩ := NewArchiveFromReader_spec P
      { data := tag ++ nonce ++ ct, cuts := cuts, err := err } key tag nonce ct hk ht hn rfl
    simp only [NewReader, ha] at hr
    have hk2 := RInv.run_keeps L.start hinv
    rcases hrun : Pull.run P L.start a with ⟨⟨d, e⟩, a2⟩
    rw [hrun] at hr hk2
    cases e with
    | some e => simp at hr
    | none =>
      simp only [Prod.mk.injEq, Option.some.injEq, and_true] at hr
      subst hr
      exact hk2
  refine ⟨hopen, ?_, ?_⟩
  · intro r hinv
    refine ⟨?_, ?_, hinv.Verify_consumed, ?_⟩
    · have := RInv.run_keeps (L.Next r.layers) hinv
      simpa [Reader.Next] using this
    · intro n
      have := RInv.run_keeps (L.Read r.layers n) hinv
      simpa [Reader.Read] using this
    · intro hnil
      obtain ⟨consumed, hc, hv⟩ := hinv.Verify_consumed
      rw [hnil, List.append_nil] at hc
      rw [← hc]
      exact hv
  · intro r hr
    have hinv := hopen r hr
    obtain ⟨consumed, hc, _⟩ := hinv.Verify_consumed
    refine ⟨consumed, hc, ?_, ?_⟩
    · obtain ⟨a, ha, _⟩ := NewArchiveFromReader_spec P
        { data := tag ++ nonce ++ ct, cuts := cuts, err := err } key tag nonce ct hk ht hn rfl
      have ha2 := NewArchiveFromReader_retag P key tag (keyTag P key nonce consumed) nonce ct
        cuts err ht (keyTag_length P key nonce consumed) hn a ha
      simp only [NewReader, ha] at hr
      simp only [NewReader, ha2, Pull.run_retag]
      rcases hrun : Pull.run P L.start a with ⟨⟨d, e⟩, a2⟩
      rw [hrun] at hr
      cases e with
      | some e => simp at hr
      | none =>
        simp only [Prod.mk.injEq, Option.some.injEq, and_true] at hr
        subst hr
        rfl
    · obtain ⟨c2, hc2, hv⟩ := (hinv.retag (keyTag P key nonce consumed)).Verify_consumed
      have : c2 = consumed := List.append_cancel_right (hc2.trans hc.symm)
      subst this
      unfold Reader.Verify
      rw [hv]
      simp

/-- C25, witness: the reader of the sample file, right after `NewReader`. -/
theorem C25_verify_tracks_consumed_witness :
    ∃ r : Reader (List Nat × Nat),
      NewReader Sample.prims Sample.aheadLayers
          { data := Sample.file.take 16 ++ (Sample.file.drop 16).take 24 ++ Sample.file.drop 40
            cuts := [], err := none } Sample.key = (some r, none)
      ∧ RInv Sample.prims Sample.key ((Sample.file.drop 16).take 24) (Sample.file.take 16)
          (Sample.file.drop 40) r.archive :=
  ⟨(NewReader Sample.prims Sample.aheadLayers
      { data := Sample.file, cuts := [], err := none } Sample.key).1.getD
        { layers := ([], 0)
          archive := { x := zero, tag := [], Reader := noSource, Writer := [] } }, rfl,
    (C25_verify_tracks_consumed Sample.prims Sample.aheadLayers Sample.key (Sample.file.take 16)
      ((Sample.file.drop 16).take 24) (Sample.file.drop 40) [] none (by decide) (by decide)
      (by decide)).1 _ rfl⟩

/-- C25, counterexample: the sample file, written by the writer under the sample
key and read under the same key through layers with the read-ahead of
`gzip.NewReader`.  Right after `NewReader`, before any call of `Next`, `Verify()`
returns true: the payload is shorter than the buffer of the gzip reader, which
has taken all of it from the archive; no entry has been read, and the next call
of `Next` delivers the entry `f`. -/
theorem C25_verify_early_counterexample :
    ∃ r : Reader (List Nat × Nat),
      NewReader Sample.prims Sample.aheadLayers
          { data := Sample.file, cuts := [], err := none } Sample.key = (some r, none)
      ∧ r.Verify = true
      ∧ (r.Next Sample.prims Sample.aheadLayers).1.2 = none
      ∧ ((r.Next Sample.prims Sample.aheadLayers).1.1.map (fun h => h.Name)) = some [102] := by
  refine ⟨(NewReader Sample.prims Sample.aheadLayers
      { data := Sample.file, cuts := [], err := none } Sample.key).1.getD
        { layers := ([], 0)
          archive := { x := zero, tag := [], Reader := noSource, Writer := [] } }, ?_, ?_, ?_, ?_⟩
  · rfl
  · decide
  · decide
  · decide

end archive

/-- What `binary.Read` makes of a container whose file holds, from its offset
on, the 138 bytes of a key container. -/
theorem KeyContainer.read_parsed (r : KeyContainer) (t it mem : Nat)
    (salt tag nonce ct pre : List Nat)
    (ht : t < 256) (hit : it < 2 ^ 32) (hmem : mem < 2 ^ 32)
    (hs : salt.length = 32) (htag : tag.length = 16) (hn : nonce.length = 24)
    (hc : ct.length = 56)
    (hf : r.File = { buffer := (pre ++ containerBytes t it mem salt tag nonce ct)
                     offset := pre.length }) :
    ∃ fs, binary.Read r.File binary.ByteOrder.LE r.fields
        = (none, fs, { r.File with offset := r.File.offset + 138 })
      ∧ r.assign fs = { r with Version := 1, Type_ := t, Iterations := it, Memory := mem
                               Salt := salt, Tag := tag, Nonce := nonce, Key := ct } := by
  let c2 : KeyContainer :=
    { r with Version := 1, Type_ := t, Iterations := it, Memory := mem, Salt := salt
             Tag := tag, Nonce := nonce, Key := ct }
  have hw : binary.Write binary.ByteOrder.LE c2.fields
      = .ok (containerBytes t it mem salt tag nonce ct) := by
    rw [KeyContainer.Write_bytes_key]
    simp only [c2, containerBytes, fit_self 32 salt hs, fit_self 24 nonce hn,
      fit_self 16 tag htag, fit_self 56 ct hc,
      Nat.mod_eq_of_lt ht, Nat.mod_eq_of_lt hit, Nat.mod_eq_of_lt hmem]
  obtain ⟨out, ho, hr⟩ := binary.readFields_writeFields_skip binary.ByteOrder.LE c2.fields
    r.fields rfl (by
      intro f hm
      simp only [KeyContainer.fields, List.mem_cons, List.mem_singleton, List.not_mem_nil,
        or_false, c2] at hm
      rcases hm with h | h | h | h | h | h | h | h | h | h <;> subst h <;>
        first
          | (simp [binary.skip, binary.Field.wellTyped, ht, hs, hn, htag, hc]; done)
          | (simp [binary.skip, binary.Field.wellTyped]; omega))
  have hoo : out = containerBytes t it mem salt tag nonce ct := by
    have := ho.symm.trans hw
    simpa using this
  have hlen : out.length = 138 := by
    have := binary.writeFields_length _ _ _ ho
    rw [this]; rfl
  have hsz : binary.size r.fields = 138 := rfl
  have hfull := Buffer.ReadFull_file r.File 138 (by rw [hf, ← hoo]; simp; omega)
  have hbuf : (r.File.buffer.drop r.File.offset).take 138 = out := by
    rw [hf, ← hoo]
    simp only
    rw [List.drop_left, ← hlen, List.take_length]
  rw [hbuf] at hfull
  have hr2 := hr []
  rw [List.append_nil] at hr2
  have hassign : r.assign (binary.merge r.fields c2.fields) = c2 := by
    simp [KeyContainer.assign, binary.merge, KeyContainer.fields, binary.skip, c2]
  refine ⟨binary.merge r.fields c2.fields, ?_, hassign⟩
  simp only [binary.Read, hsz, hfull, hr2]

/-- C30: on a container file that holds the 138 bytes of a key container whose
type is the requested one, for which the key derivation succeeds, and whose
stored tag is not the tag of the stored ciphertext, `ReadPrivateKey` and
`ReadPublicKey` both return `ErrInvalidPrivateKey`, and the caller's key buffer
then holds the decryption of the stored ciphertext, whatever it held before. -/
theorem C30_tag_mismatch_overwrites (P : Prims) (r : KeyContainer) (t it mem : Nat)
    (salt tag nonce ct k buf pre : List Nat)
    (hk : argon2.Key P r.Password salt (it : Int) 1 (mem : Int) 32 = .ok k)
    (hit : it < 2 ^ 32) (hmem : mem < 2 ^ 32)
    (hs : salt.length = 32) (htag : tag.length = 16) (hn : nonce.length = 24)
    (hc : ct.length = 56)
    (hf : r.File = { buffer := (pre ++ containerBytes t it mem salt tag nonce ct)
                     offset := pre.length })
    (hbad : tag ≠ keyTag P k nonce ct) :
    (t = Private →
      (r.ReadPrivateKey P buf).1 = some Err.ErrInvalidPrivateKey
        ∧ (r.ReadPrivateKey P buf).2.1 = archive.xorAt P k nonce 64 ct)
    ∧ (t = Public →
      (r.ReadPublicKey P buf).1 = some Err.ErrInvalidPrivateKey
        ∧ (r.ReadPublicKey P buf).2.1 = archive.xorAt P k nonce 64 ct) := by
  have hkl : k.length = 32 := argon2.Key_length P _ _ _ _ _ _ k hk
  have main : ∀ t2, t2 = t → t < 256 →
      (r.read P t2 buf).1 = some Err.ErrInvalidPrivateKey
        ∧ (r.read P t2 buf).2.1 = archive.xorAt P k nonce 64 ct := by
    intro t2 ht2 ht
    subst ht2
    obtain ⟨fs, hread, hassign⟩ := KeyContainer.read_parsed r t2 it mem salt tag nonce ct pre
      ht hit hmem hs htag hn hc hf
    have htag2 : ((poly1305.Poly1305.Init (xchacha20poly1305.KeyStream P k nonce 0 32)).Write
        ct).Sum [] = keyTag P k nonce ct := rfl
    have hx : xchacha20poly1305.XORKeyStream P
        { key := k, nonce := nonce, pos := 64
          mac := poly1305.Poly1305.Init (xchacha20poly1305.KeyStream P k nonce 0 32) } ct
        = archive.xorAt P k nonce 64 ct := rfl
    simp only [KeyContainer.read, hread, hassign]
    simp only [KeyContainer.cipher, xchacha20poly1305.KeySize, hk,
      archive.Init_ok_spec P _ k _ hkl, xchacha20poly1305.Decrypt, xchacha20poly1305.Tag,
      htag2, hx]
    simp [hbad]
  refine ⟨?_, ?_⟩
  · intro h
    exact main Private h.symm (by rw [h]; decide)
  · intro h
    exact main Public h.symm (by rw [h]; decide)

set_option maxRecDepth 100000 in
/-- C30, witness: the sample private key container with the first byte of its
stored tag replaced; the key buffer, all zero before, holds the sample key after
the failed read. -/
theorem C30_tag_mismatch_overwrites_witness :
    ((NewKeyContainer
        { buffer := ([] ++ containerBytes 2 1 8 (fit 32 [9, 8, 7])
            (((Sample.privateKeyFile.drop 42).take 16).set 0 0) (fit 24 [1, 2, 3])
            (Sample.privateKeyFile.drop 82))
          offset := ([] : List Nat).length }
        [115, 101, 99, 114, 101, 116] 1 8).ReadPrivateKey Sample.prims
          (List.replicate 56 0)).1 = some Err.ErrInvalidPrivateKey
    ∧ ((NewKeyContainer
        { buffer := ([] ++ containerBytes 2 1 8 (fit 32 [9, 8, 7])
            (((Sample.privateKeyFile.drop 42).take 16).set 0 0) (fit 24 [1, 2, 3])
            (Sample.privateKeyFile.drop 82))
          offset := ([] : List Nat).length }
        [115, 101, 99, 114, 101, 116] 1 8).ReadPrivateKey Sample.prims
          (List.replicate 56 0)).2.1
      = archive.xorAt Sample.prims (fit 32 ([115, 101, 99, 114, 101, 116] ++ fit 32 [9, 8, 7]))
          (fit 24 [1, 2, 3]) 64 (Sample.privateKeyFile.drop 82) :=
  (C30_tag_mismatch_overwrites Sample.prims
    (NewKeyContainer
      { buffer := ([] ++ containerBytes 2 1 8 (fit 32 [9, 8, 7])
          (((Sample.privateKeyFile.drop 42).take 16).set 0 0) (fit 24 [1, 2, 3])
          (Sample.privateKeyFile.drop 82))
        offset := ([] : List Nat).length }
      [115, 101, 99, 114, 101, 116] 1 8)
    2 1 8 (fit 32 [9, 8, 7]) (((Sample.privateKeyFile.drop 42).take 16).set 0 0)
    (fit 24 [1, 2, 3]) (Sample.privateKeyFile.drop 82)
    (fit 32 ([115, 101, 99, 114, 101, 116] ++ fit 32 [9, 8, 7])) (List.replicate 56 0) []
    (by
      rw [argon2.Key_value Sample.prims _ _ 1 8 32 (by decide) (by decide) (by decide)
        (by decide) (by decide)]
      rfl)
    (by decide) (by decide) (by decide) (by decide) (by decide) (by decide) rfl
    (by decide)).1 rfl

end Arc
